import Mathlib

/-!
# Trip analysis and driver report

A shallow embedding of `src/src/analysis.js` (`analysis`) and `src/src/report.js`
(`driverReport`), with the part of the JavaScript semantics the two functions rely on:
IEEE 754 binary64 numbers, `parseFloat`, `Number.prototype.toFixed`, number to string
conversion, the `+`, `-`, `>` operators, truthiness, and the property order of ordinary
objects.

What the embedding takes as given:

* `getTrips()` settles with a list of trip records or a rejection, `getDriver(id)` with a
  driver record or a rejection, and `getDriver` gives the same outcome for the same
  identifier; both are parameters of the functions.
* A driver identifier is a string. The other fields of a trip are `undefined`, `null`,
  booleans, numbers, strings, or objects (plain objects and arrays); a driver record has
  three display fields and the list `vehicleID`.
* Each call runs with the built-in `Object.prototype` (a call of `driverReport` that
  throws on an inherited name has written to it).
* Numerals are rounded to the nearest double, as V8 does; the text of a built-in function
  is that of V8.
* Counters incremented by one are natural numbers, being exact in a double below `2^53`.
-/

set_option autoImplicit false
set_option exponentiation.threshold 5000
set_option maxRecDepth 100000

/-! ## IEEE 754 binary64 numbers -/

/-- A JavaScript number. Every finite double is an integer multiple of `2^-1074`, the
least positive double; `fin neg mag` is the finite double of magnitude `mag * 2^-1074`,
negative when `neg`. A magnitude denotes a double when it is below `2^2098` units (the
value `2^1024`) and has at most 53 significant bits. The two zeros are `fin false 0` and
`fin true 0`; all NaNs are one value, as JavaScript cannot tell them apart. -/
inductive F64 where
  | nan
  | inf (neg : Bool)
  | fin (neg : Bool) (mag : Nat)
deriving DecidableEq, Repr

namespace F64

/-- The number of bits of `n`, the recursion bounded by `fuel`. -/
def bitlenAux : Nat → Nat → Nat
  | 0, _ => 0
  | fuel + 1, n => if n = 0 then 0 else bitlenAux fuel (n / 2) + 1

/-- The number of bits of `n`: 0 for 0, otherwise `⌊log₂ n⌋ + 1`. -/
def bitlen (n : Nat) : Nat := bitlenAux n n

/-- The magnitude `2^1024` in units of `2^-1074`: the least magnitude that overflows. -/
def overflowMag : Nat := 2 ^ 2098

/-- The double nearest to the exact quotient `p / q` (counted in units of `2^-1074`), ties
to the even significand, with the sign `neg`: the rounding of every arithmetic operation
and of every numeral. A quotient with at most 53 significant bits is returned as it is. -/
def roundQuot (neg : Bool) (p q : Nat) : F64 :=
  let k := bitlen (p / q) - 53
  let d := q * 2 ^ k
  let n := p / d
  let r := p % d
  let n1 := if d < 2 * r ∨ (2 * r = d ∧ n % 2 = 1) then n + 1 else n
  if overflowMag ≤ n1 * 2 ^ k then inf neg else fin neg (n1 * 2 ^ k)

/-- The double nearest to the fraction `num / den`. -/
def ofRatio (num den : Nat) : F64 := roundQuot false (num * 2 ^ 1074) den

/-- The double nearest to the natural number `n`. -/
def ofNat (n : Nat) : F64 := ofRatio n 1

/-- The double nearest to `d * 10^x`, with the sign `neg`: the value of a decimal numeral. -/
def ofDecimal (neg : Bool) (d : Nat) (x : Int) : F64 :=
  if 0 ≤ x then roundQuot neg (d * 10 ^ x.toNat * 2 ^ 1074) 1
  else roundQuot neg (d * 2 ^ 1074) (10 ^ (-x).toNat)

/-- Positive zero. -/
def zero : F64 := fin false 0

/-- Negative zero. -/
def negZero : F64 := fin true 0

/-- Unary minus. -/
def neg : F64 → F64
  | nan => nan
  | inf s => inf (!s)
  | fin s m => fin (!s) m

/-- IEEE addition, round to nearest even. Adding a zero to a nonzero number returns that
number; two zeros give `-0` only when both are `-0`; an exact cancellation gives `+0`. -/
def add : F64 → F64 → F64
  | nan, _ => nan
  | _, nan => nan
  | inf a, inf b => if a = b then inf a else nan
  | inf a, fin _ _ => inf a
  | fin _ _, inf b => inf b
  | fin s m, fin t n =>
    if n = 0 then (if m = 0 then fin (s && t) 0 else fin s m)
    else if m = 0 then fin t n
    else if s = t then roundQuot s (m + n) 1
    else if m = n then fin false 0
    else if n < m then roundQuot s (m - n) 1
    else roundQuot t (n - m) 1

/-- IEEE subtraction. -/
def sub (x y : F64) : F64 := add x (neg y)

/-- The value of a finite double as a signed count of units of `2^-1074`. -/
def signed (s : Bool) (m : Nat) : Int := if s then -(m : Int) else (m : Int)

/-- The comparison `x < y` of two numbers: false when either is NaN; the zeros are equal. -/
def lt : F64 → F64 → Bool
  | nan, _ => false
  | _, nan => false
  | inf a, inf b => a && !b
  | inf a, fin _ _ => a
  | fin _ _, inf b => !b
  | fin s m, fin t n => decide (signed s m < signed t n)

/-- The test `x === y` on numbers: NaN differs from itself, `+0` equals `-0`. -/
def eq : F64 → F64 → Bool
  | nan, _ => false
  | _, nan => false
  | inf a, inf b => a == b
  | fin s m, fin t n => decide (signed s m = signed t n)
  | _, _ => false

/-- Whether the number is NaN. -/
def isNaN : F64 → Bool
  | nan => true
  | _ => false

/-- A magnitude that denotes a double: below `2^1024` and of at most 53 significant bits. -/
def validMag (m : Nat) : Bool := decide (m < overflowMag) && decide (m % 2 ^ (bitlen m - 53) = 0)

/-- The values of the type that denote a double. -/
def Valid : F64 → Bool
  | fin _ m => validMag m
  | _ => true

end F64

/-! ## Numerals: from strings to numbers -/

namespace JS

/-- The characters of `StrWhiteSpaceChar` (white space and line terminators), which
`parseFloat` skips at the start of its argument and `ToNumber` at both ends. -/
def isWhiteSpace (c : Char) : Bool :=
  let n := c.toNat
  n = 0x09 || n = 0x0A || n = 0x0B || n = 0x0C || n = 0x0D || n = 0x20 || n = 0xA0 ||
  n = 0x1680 || (0x2000 ≤ n && n ≤ 0x200A) || n = 0x2028 || n = 0x2029 || n = 0x202F ||
  n = 0x205F || n = 0x3000 || n = 0xFEFF

/-- A decimal digit. -/
def isDigit (c : Char) : Bool := 48 ≤ c.toNat && c.toNat ≤ 57

/-- The value of a decimal digit. -/
def digitVal (c : Char) : Nat := c.toNat - 48

/-- The natural number a string of decimal digits denotes (0 for the empty string). -/
def digitsVal (ds : List Char) : Nat := ds.foldl (fun a c => 10 * a + digitVal c) 0

/-- The `ExponentPart` at the start of `cs`, if there is one: `e` or `E`, an optional
sign and at least one digit. Returns the exponent and what follows it. -/
def scanExponent (cs : List Char) : Option (Int × List Char) :=
  match cs with
  | c :: rest =>
    if c = 'e' ∨ c = 'E' then
      match rest with
      | '+' :: r =>
        if (r.takeWhile isDigit).isEmpty then none
        else some ((digitsVal (r.takeWhile isDigit) : Int), r.dropWhile isDigit)
      | '-' :: r =>
        if (r.takeWhile isDigit).isEmpty then none
        else some (-(digitsVal (r.takeWhile isDigit) : Int), r.dropWhile isDigit)
      | r =>
        if (r.takeWhile isDigit).isEmpty then none
        else some ((digitsVal (r.takeWhile isDigit) : Int), r.dropWhile isDigit)
    else none
  | [] => none

/-- The longest prefix of `cs` that is an unsigned decimal literal other than `Infinity`
(digits, optional point and fraction, optional exponent; or a point and a fraction): its
digits `d` and decimal exponent `x`, so that its value is `d * 10^x`, and what follows it.
`none` when no prefix is such a literal. -/
def scanUnsignedDecimal (cs : List Char) : Option (Nat × Int × List Char) :=
  let ip := cs.takeWhile isDigit
  let r1 := cs.dropWhile isDigit
  match r1 with
  | '.' :: r2 =>
    let fp := r2.takeWhile isDigit
    let r3 := r2.dropWhile isDigit
    if ip.isEmpty ∧ fp.isEmpty then none
    else
      match scanExponent r3 with
      | some (x, r4) => some (digitsVal (ip ++ fp), x - (fp.length : Int), r4)
      | none => some (digitsVal (ip ++ fp), -(fp.length : Int), r3)
  | _ =>
    if ip.isEmpty then none
    else
      match scanExponent r1 with
      | some (x, r4) => some (digitsVal ip, x, r4)
      | none => some (digitsVal ip, 0, r1)

/-- The characters of `Infinity`. -/
def infinityChars : List Char := ['I', 'n', 'f', 'i', 'n', 'i', 't', 'y']

/-- The longest prefix of `cs` that is an unsigned `StrDecimalLiteral`, with the sign
`neg` applied to its value, and what follows it. -/
def scanUnsigned (neg : Bool) (cs : List Char) : Option (F64 × List Char) :=
  if infinityChars.isPrefixOf cs then some (F64.inf neg, cs.drop 8)
  else
    match scanUnsignedDecimal cs with
    | some (d, x, rest) => some (F64.ofDecimal neg d x, rest)
    | none => none

/-- The longest prefix of `cs` that is a `StrDecimalLiteral` (an optional sign and an
unsigned literal): its value and what follows it. -/
def scanDecimalLiteral (cs : List Char) : Option (F64 × List Char) :=
  match cs with
  | '+' :: r => scanUnsigned false r
  | '-' :: r => scanUnsigned true r
  | _ => scanUnsigned false cs

/-- The global `parseFloat` on a string: leading white space is skipped, the longest
prefix that is a decimal literal is converted, anything after it is ignored; NaN when
there is no such prefix. -/
def parseFloat (s : String) : F64 :=
  match scanDecimalLiteral (s.data.dropWhile isWhiteSpace) with
  | some (v, _) => v
  | none => F64.nan

/-- The method `String.prototype.replaceAll(",", "")`: every comma is deleted. -/
def removeCommas (s : String) : String := String.mk (s.data.filter (fun c => c != ','))

/-- The value of a digit in a radix up to 16, if the character is one. -/
def radixDigit (radix : Nat) (c : Char) : Option Nat :=
  let n := c.toNat
  let v := if 48 ≤ n ∧ n ≤ 57 then n - 48
    else if 97 ≤ n ∧ n ≤ 102 then n - 87
    else if 65 ≤ n ∧ n ≤ 70 then n - 55
    else 16
  if v < radix then some v else none

/-- The natural number a non-empty string of digits in the given radix denotes. -/
def radixVal (radix : Nat) (cs : List Char) : Option Nat :=
  if cs.isEmpty then none
  else cs.foldl (fun a c => match a, radixDigit radix c with
    | some v, some d => some (radix * v + d)
    | _, _ => none) (some 0)

/-- The value of a `NonDecimalIntegerLiteral` (`0x`, `0o`, `0b` and digits), if the
string is one. -/
def nonDecimalLiteral (cs : List Char) : Option F64 :=
  match cs with
  | '0' :: c :: rest =>
    let radix := if c = 'x' ∨ c = 'X' then 16 else if c = 'o' ∨ c = 'O' then 8
      else if c = 'b' ∨ c = 'B' then 2 else 0
    if radix = 0 then none else (radixVal radix rest).map F64.ofNat
  | _ => none

/-- The operation `StringToNumber`, the conversion `ToNumber` applies to a string: white
space is trimmed at both ends; the empty string is `+0`; a decimal or non-decimal literal
that is the whole string gives its value; anything else NaN. -/
def stringToNumber (s : String) : F64 :=
  let t := ((s.data.dropWhile isWhiteSpace).reverse.dropWhile isWhiteSpace).reverse
  if t.isEmpty then F64.zero
  else
    match nonDecimalLiteral t with
    | some v => v
    | none =>
      match scanDecimalLiteral t with
      | some (v, []) => v
      | _ => F64.nan

end JS

/-! ## Numbers to strings -/

namespace JS

/-- Whether the magnitude `m` (in units of `2^-1074`) is below `10^n`. -/
def belowPow10 (m : Nat) (n : Int) : Bool :=
  if 0 ≤ n then decide (m < 10 ^ n.toNat * 2 ^ 1074)
  else decide (m * 10 ^ (-n).toNat < 2 ^ 1074)

/-- The decimal exponent `n` of a positive magnitude: `10^(n-1) ≤ value < 10^n`. Doubles
lie between `10^-324` and `10^309`. -/
def decimalExponent (m : Nat) : Int :=
  match (List.range 640).find? (fun i => belowPow10 m ((i : Int) - 325)) with
  | some i => (i : Int) - 325
  | none => 315

/-- The distance between the magnitude `m` and `s * 10^x`, multiplied by
`10^(-x)` when `x` is negative. -/
def decimalDistance (m s : Nat) (x : Int) : Nat :=
  if 0 ≤ x then
    (if s * 10 ^ x.toNat * 2 ^ 1074 ≤ m then m - s * 10 ^ x.toNat * 2 ^ 1074
     else s * 10 ^ x.toNat * 2 ^ 1074 - m)
  else
    (if s * 2 ^ 1074 ≤ m * 10 ^ (-x).toNat then m * 10 ^ (-x).toNat - s * 2 ^ 1074
     else s * 2 ^ 1074 - m * 10 ^ (-x).toNat)

/-- The integer part of `m * 2^-1074 / 10^x`. -/
def scaledFloor (m : Nat) (x : Int) : Nat :=
  if 0 ≤ x then m / (2 ^ 1074 * 10 ^ x.toNat) else m * 10 ^ (-x).toNat / 2 ^ 1074

/-- The `k`-digit decimals `s * 10^(n - k)` that convert back to the double of magnitude
`m`, nearest first: `s` is one of the two integers around `m * 2^-1074 / 10^(n - k)`. The
value `10^k * 10^(n - k)` is the one-more-digit-free decimal `10^(k-1) * 10^(n + 1 - k)`. -/
def shortestAt (m : Nat) (n : Int) (k : Nat) : Option (Nat × Int) :=
  let x := n - (k : Int)
  let f := scaledFloor m x
  let ok := fun s => decide (10 ^ (k - 1) ≤ s) && decide (s ≤ 10 ^ k) &&
    decide (F64.ofDecimal false s x = F64.fin false m)
  let pick := fun s => if s = 10 ^ k then (10 ^ (k - 1), n + 1) else (s, n)
  let lo := ok f
  let hi := ok (f + 1)
  if lo ∧ hi then
    (if decimalDistance m f x < decimalDistance m (f + 1) x then some (pick f)
     else if decimalDistance m (f + 1) x < decimalDistance m f x then some (pick (f + 1))
     else if (pick f).1 % 2 = 0 then some (pick f) else some (pick (f + 1)))
  else if lo then some (pick f)
  else if hi then some (pick (f + 1))
  else none

/-- The digits `s`, their number `k` and the exponent `n` of `Number::toString`: the
decimal `s * 10^(n - k)` with the fewest digits that converts back to the double, the
nearest one when there are several. Seventeen digits always suffice. -/
def shortestDecimal (m : Nat) : Nat × Nat × Int :=
  let n := decimalExponent m
  match (List.range 17).findSome? (fun i =>
      (shortestAt m n (i + 1)).map (fun p => (p.1, i + 1, p.2))) with
  | some r => r
  | none => (0, 1, 0)

/-- A string of `n` zeros. -/
def zeros (n : Nat) : List Char := List.replicate n '0'

/-- The decimal digits of a natural number. -/
def natDigits (n : Nat) : List Char := (Nat.repr n).data

/-- The text of a positive finite number, from its shortest decimal. -/
def formatDecimal (s k : Nat) (n : Int) : List Char :=
  let ds := natDigits s
  if (k : Int) ≤ n ∧ n ≤ 21 then ds ++ zeros (n.toNat - k)
  else if 0 < n ∧ n ≤ 21 then ds.take n.toNat ++ '.' :: ds.drop n.toNat
  else if -6 < n ∧ n ≤ 0 then '0' :: '.' :: (zeros (-n).toNat ++ ds)
  else
    let e := n - 1
    let es := (if 0 ≤ e then '+' else '-') :: natDigits e.natAbs
    if k = 1 then ds ++ 'e' :: es
    else ds.take 1 ++ '.' :: (ds.drop 1 ++ 'e' :: es)

/-- The operation `Number::toString` in radix 10: the conversion of a number to a string. -/
def numberToString : F64 → String
  | F64.nan => "NaN"
  | F64.inf false => "Infinity"
  | F64.inf true => "-Infinity"
  | F64.fin s m =>
    if m = 0 then "0"
    else
      let r := shortestDecimal m
      String.mk ((if s then ['-'] else []) ++ formatDecimal r.1 r.2.1 r.2.2)

/-- The method `Number.prototype.toFixed(2)`: the number with two decimals, rounded
half up in magnitude; numbers of magnitude `10^21` or more, infinities and NaN are
converted as by `numberToString`. -/
def toFixed2 (x : F64) : String :=
  match x with
  | F64.fin s m =>
    if 10 ^ 21 * 2 ^ 1074 ≤ m then numberToString x
    else
      let n := (m * 200 + 2 ^ 1074) / (2 * 2 ^ 1074)
      let ds := natDigits n
      let padded := zeros (3 - ds.length) ++ ds
      String.mk ((if s ∧ m ≠ 0 then ['-'] else []) ++
        (padded.take (padded.length - 2) ++ '.' :: padded.drop (padded.length - 2)))
  | _ => numberToString x

end JS

/-! ## Values and operators -/

/-- The values a field of a trip or driver record holds. An object (a plain object or an
array, as data carries them) is kept with the string its conversion to a primitive yields,
`[object Object]` for a plain object; nothing else of an object is observed here. -/
inductive JSVal where
  | undefined
  | null
  | bool (b : Bool)
  | num (x : F64)
  | str (s : String)
  | obj (prim : String)
deriving DecidableEq, Repr

namespace JS

/-- The conversion `ToBoolean`: what `if (v)`, `!v` and `v && w` test. -/
def truthy : JSVal → Bool
  | .undefined => false
  | .null => false
  | .bool b => b
  | .num x => !(x = F64.zero ∨ x = F64.negZero ∨ x = F64.nan)
  | .str s => !s.data.isEmpty
  | .obj _ => true

/-- The conversion `ToString`, as a template literal and string concatenation apply it. -/
def toStr : JSVal → String
  | .undefined => "undefined"
  | .null => "null"
  | .bool true => "true"
  | .bool false => "false"
  | .num x => numberToString x
  | .str s => s
  | .obj p => p

/-- The conversion `ToNumber`. -/
def toNumber : JSVal → F64
  | .undefined => F64.nan
  | .null => F64.zero
  | .bool true => F64.ofNat 1
  | .bool false => F64.zero
  | .num x => x
  | .str s => stringToNumber s
  | .obj p => stringToNumber p

/-- Whether the value is a string once converted to a primitive. -/
def isStringy : JSVal → Bool
  | .str _ => true
  | .obj _ => true
  | _ => false

/-- The operator `a + b`: concatenation of the two strings when either operand is a string
after conversion to a primitive, the sum of the two numbers otherwise. -/
def jsAdd (a b : JSVal) : JSVal :=
  if isStringy a ∨ isStringy b then .str (toStr a ++ toStr b)
  else .num (F64.add (toNumber a) (toNumber b))

/-- The UTF-16 code units of a character. -/
def utf16 (c : Char) : List Nat :=
  if c.toNat < 0x10000 then [c.toNat]
  else [0xD800 + (c.toNat - 0x10000) / 0x400, 0xDC00 + (c.toNat - 0x10000) % 0x400]

/-- Lexicographic order on sequences of code units: `a < b`. -/
def unitsLt : List Nat → List Nat → Bool
  | _, [] => false
  | [], _ :: _ => true
  | x :: xs, y :: ys => if x < y then true else if y < x then false else unitsLt xs ys

/-- The operator `a > b`: on two strings the order of their code units; otherwise both
are converted to numbers and compared, which is false when either is NaN. -/
def jsGt (a b : JSVal) : Bool :=
  if isStringy a ∧ isStringy b then
    unitsLt ((toStr b).data.flatMap utf16) ((toStr a).data.flatMap utf16)
  else F64.lt (toNumber b) (toNumber a)

/-! ## Ordinary objects -/

/-- The index a property key denotes when it is an array index: a decimal numeral without
a superfluous leading zero, at most `2^32 - 2`. -/
def arrayIndex (key : String) : Option Nat :=
  let cs := key.data
  if cs.isEmpty ∨ !cs.all isDigit then none
  else if cs.head? = some '0' ∧ cs.length ≠ 1 then none
  else if digitsVal cs ≤ 2 ^ 32 - 2 then some (digitsVal cs) else none

/-- The own properties of an ordinary object in the order `Object.values`,
`Object.entries` and `for ... in` visit them: array indices in ascending order, then the
other keys in the order of their creation. The argument lists the properties in the
order of creation. -/
def ownEntries {α : Type} (created : List (String × α)) : List (String × α) :=
  (created.filter (fun e => (arrayIndex e.1).isSome)).insertionSort
      (fun a b => (arrayIndex a.1).getD 0 ≤ (arrayIndex b.1).getD 0)
    ++ created.filter (fun e => !(arrayIndex e.1).isSome)

/-- The names every object created by `{}` inherits from `Object.prototype`. Reading one
of them on an object without such an own property yields a function (for `__proto__`, the
prototype object), not `undefined`. -/
def inheritedKeys : List String :=
  ["constructor", "__defineGetter__", "__defineSetter__", "hasOwnProperty",
   "__lookupGetter__", "__lookupSetter__", "isPrototypeOf", "propertyIsEnumerable",
   "toString", "valueOf", "__proto__", "toLocaleString"]

/-- The string an inherited member converts to: the source text of a built-in function,
and `[object Object]` for the prototype object read through `__proto__`. -/
def inheritedText (key : String) : String :=
  if key = "__proto__" then "[object Object]"
  else if key = "constructor" then "function Object() \x7b [native code] \x7d"
  else "function " ++ key ++ "() \x7b [native code] \x7d"

/-- The value of the own property `key`, if the object has one. -/
def getOwn {α : Type} (created : List (String × α)) (key : String) : Option α :=
  (created.find? (fun e => e.1 = key)).map (fun e => e.2)

/-- The object after the value of its own property `key` is replaced by `f` of it. -/
def modifyOwn {α : Type} (created : List (String × α)) (key : String) (f : α → α) :
    List (String × α) :=
  created.map (fun e => if e.1 = key then (e.1, f e.2) else e)

/-- The method `Set.prototype.add` on a set of strings, kept in the order of insertion. -/
def setAdd (s : List String) (x : String) : List String := if x ∈ s then s else s ++ [x]

/-- The array `[...new Set(xs)]`: the distinct elements in the order of first occurrence. -/
def setOf (xs : List String) : List String := xs.foldl setAdd []

/-- What a rejected promise or a `throw` carries. -/
inductive JSError where
  | typeError (message : String)
  | rejected (reason : JSVal)
deriving DecidableEq, Repr

end JS

/-! ## Records -/

/-- A trip record as `getTrips` delivers it. The driver identifier is a string; every
other field is an arbitrary value (`undefined` when the field is absent). -/
structure Trip where
  driverID : String
  isCash : JSVal
  billedAmount : JSVal
  driverName : JSVal
  driverEmail : JSVal
  driverPhone : JSVal
  userName : JSVal
  dateCreated : JSVal
  pickupAddress : JSVal
  destinationAddress : JSVal
  vehiclePlate : JSVal
  vehicleManufacturer : JSVal
deriving DecidableEq, Repr

/-- A driver record as `getDriver` delivers it; `vehicleID` is the sequence of the
driver's vehicle identifiers. -/
structure DriverInfo where
  name : JSVal
  email : JSVal
  phone : JSVal
  vehicleID : List String
deriving DecidableEq, Repr

/-! ## The driver report (`src/src/report.js`)

Counters that are only ever incremented by one (`noOfTrips`, `cashTrips`, `nonCashTrips`)
are natural numbers: an array has fewer than `2^32` elements, so the double that holds
such a counter is always the exact integer. -/

namespace Report

open JS

/-- The trimmed view of a trip pushed on a driver's `trips`. -/
structure TripView where
  user : JSVal
  created : JSVal
  pickup : JSVal
  destination : JSVal
  billed : JSVal
  isCash : JSVal
deriving DecidableEq, Repr

/-- A value of `driverData`: the aggregate of one driver. The three totals start as the
number 0 and are updated with `+=`, so they hold whatever `+` produces. `vehicles` is the
`Set` of vehicle keys in insertion order, and the array it is converted to. -/
structure DriverAggregate where
  name : JSVal
  email : JSVal
  phone : JSVal
  noOfTrips : Nat
  totalAmountEarned : JSVal
  vehicles : List String
  trips : List TripView
  cashTrips : Nat
  nonCashTrips : Nat
  cashBilledTotal : JSVal
  nonCashBilledTotal : JSVal
deriving DecidableEq, Repr

/-- The aggregate a driver gets at the first trip seen (lines 20-32). -/
def initialAggregate (trip : Trip) : DriverAggregate :=
  { name := trip.driverName, email := trip.driverEmail, phone := trip.driverPhone,
    noOfTrips := 0, totalAmountEarned := .num F64.zero, vehicles := [], trips := [],
    cashTrips := 0, nonCashTrips := 0,
    cashBilledTotal := .num F64.zero, nonCashBilledTotal := .num F64.zero }

/-- The updates of lines 36-42: the cash or the non-cash counter and total. -/
def updateCash (trip : Trip) (d : DriverAggregate) : DriverAggregate :=
  if truthy trip.isCash then
    { d with cashTrips := d.cashTrips + 1,
             cashBilledTotal := jsAdd d.cashBilledTotal trip.billedAmount }
  else
    { d with nonCashTrips := d.nonCashTrips + 1,
             nonCashBilledTotal := jsAdd d.nonCashBilledTotal trip.billedAmount }

/-- The vehicle key of line 62, the template literal of plate and manufacturer. -/
def vehicleKey (trip : Trip) : String :=
  toStr trip.vehiclePlate ++ "-" ++ toStr trip.vehicleManufacturer

/-- The updates of lines 60-64: the vehicle key joins the set when both fields are truthy. -/
def updateVehicles (trip : Trip) (d : DriverAggregate) : DriverAggregate :=
  if truthy trip.vehiclePlate ∧ truthy trip.vehicleManufacturer then
    { d with vehicles := setAdd d.vehicles (vehicleKey trip) }
  else d

/-- The object of lines 48-55 pushed on the driver's `trips`. -/
def tripView (trip : Trip) : TripView :=
  { user := trip.userName
    created := trip.dateCreated
    pickup := trip.pickupAddress
    destination := trip.destinationAddress
    billed := trip.billedAmount
    isCash := trip.isCash }

/-- The updates one trip makes to its driver's aggregate (lines 36-64), in the order of
the source. -/
def updateAggregate (trip : Trip) (d : DriverAggregate) : DriverAggregate :=
  let d1 := updateCash trip d
  let d2 := { d1 with totalAmountEarned := jsAdd d1.totalAmountEarned trip.billedAmount }
  let d3 := { d2 with trips := d2.trips ++ [tripView trip] }
  let d4 := { d3 with noOfTrips := d3.noOfTrips + 1 }
  updateVehicles trip d4

/-- One turn of the loop of lines 17-65 on `driverData` (its properties listed in the order
of creation) for a driver identifier that names no inherited member: the aggregate is
created when `driverData[trip.driverID]` is `undefined` (an aggregate, being an object, is
truthy), then updated. -/
def nextData (driverData : List (String × DriverAggregate)) (trip : Trip) :
    List (String × DriverAggregate) :=
  let created :=
    if (getOwn driverData trip.driverID).isNone then
      driverData ++ [(trip.driverID, initialAggregate trip)]
    else driverData
  modifyOwn created trip.driverID (updateAggregate trip)

/-- One turn of the loop of lines 17-65. When the driver identifier names a member
inherited from `Object.prototype`, `driverData[trip.driverID]` is that member: it is
truthy, so no aggregate is created, and it has no `trips`, so `trips.push` on line 48
throws a `TypeError`. -/
def loopStep (driverData : List (String × DriverAggregate)) (trip : Trip) :
    Except JSError (List (String × DriverAggregate)) :=
  if trip.driverID ∈ inheritedKeys then
    .error (.typeError "Cannot read properties of undefined")
  else .ok (nextData driverData trip)

/-- The loop of lines 17-65 from a given `driverData`. -/
def loopFrom : List (String × DriverAggregate) → List Trip →
    Except JSError (List (String × DriverAggregate))
  | driverData, [] => .ok driverData
  | driverData, trip :: rest =>
    match loopStep driverData trip with
    | .ok next => loopFrom next rest
    | .error e => .error e

/-- The pick of lines 73-74: the first aggregate no later one exceeds in `noOfTrips`;
`none` is the `null` the reduction starts from. -/
def mostTripsByDriver (drivers : List DriverAggregate) : Option DriverAggregate :=
  drivers.foldl (fun mostTrips driver =>
    match mostTrips with
    | none => some driver
    | some m => if m.noOfTrips < driver.noOfTrips then some driver else some m) none

/-- The pick of lines 77-78, by `totalAmountEarned` and the operator `>`. -/
def highestEarningDriver (drivers : List DriverAggregate) : Option DriverAggregate :=
  drivers.foldl (fun highestEarning driver =>
    match highestEarning with
    | none => some driver
    | some h => if jsGt driver.totalAmountEarned h.totalAmountEarned then some driver
        else some h) none

/-- The object `driverReportData` of lines 83-88. -/
structure DriverReport where
  drivers : List DriverAggregate
  noOfDriversWithMoreThanOneVehicle : Nat
  mostTripsByDriver : Option DriverAggregate
  highestEarningDriver : Option DriverAggregate
deriving DecidableEq, Repr

/-- The report of lines 73-88 from the `driverData` the loop has built; the drivers are
`Object.values(driverData)`. -/
def buildReport (driverData : List (String × DriverAggregate)) : DriverReport :=
  let drivers := (ownEntries driverData).map (fun e => e.2)
  { drivers := drivers
    noOfDriversWithMoreThanOneVehicle :=
      (drivers.filter (fun driver => 1 < driver.vehicles.length)).length
    mostTripsByDriver := mostTripsByDriver drivers
    highestEarningDriver := highestEarningDriver drivers }

/-- The function `driverReport`, given what `getTrips()` settles with. A rejection of
`getTrips` and an error thrown in the loop are rethrown by the `catch` of lines 91-95. -/
def driverReport (getTrips : Except JSError (List Trip)) : Except JSError DriverReport :=
  match getTrips with
  | .error e => .error e
  | .ok trips =>
    match loopFrom [] trips with
    | .error e => .error e
    | .ok driverData => .ok (buildReport driverData)

end Report

/-! ## The trip analysis (`src/src/analysis.js`) -/

namespace Analysis

open JS

/-- The filter of lines 14-16: the trips with `isCash === true`. -/
def cashTrips (trips : List Trip) : List Trip :=
  trips.filter (fun obj => obj.isCash = .bool true)

/-- The filter of lines 19-21: the trips with `isCash === false`. -/
def nonCashTrips (trips : List Trip) : List Trip :=
  trips.filter (fun obj => obj.isCash = .bool false)

/-- The reducer of lines 24-32 (and 130-138): a string is stripped of its commas and
parsed, a number is added as it is, anything else leaves the accumulator unchanged. -/
def billedStep (accumulator : F64) (obj : Trip) : F64 :=
  match obj.billedAmount with
  | .str s => F64.add accumulator (parseFloat (removeCommas s))
  | .num x => F64.add accumulator x
  | _ => accumulator

/-- The sum of lines 24-32 over all trips, before rounding. -/
def sumTotalBilled (trips : List Trip) : F64 := trips.foldl billedStep F64.zero

/-- The reducer of lines 35-43 and 46-54: as `billedStep`, for the trips whose `isCash` is
strictly equal to the boolean `cash` only. -/
def partitionStep (cash : Bool) (accumulator : F64) (obj : Trip) : F64 :=
  match decide (obj.isCash = .bool cash), obj.billedAmount with
  | true, .str s => F64.add accumulator (parseFloat (removeCommas s))
  | true, .num x => F64.add accumulator x
  | _, _ => accumulator

/-- The sum of lines 35-43 over the trips with `isCash === true`. -/
def sumTotalCashBilled (trips : List Trip) : F64 := trips.foldl (partitionStep true) F64.zero

/-- The sum of lines 46-54 over the trips with `isCash === false`, before rounding. -/
def sumNonTotalCashBilled (trips : List Trip) : F64 :=
  trips.foldl (partitionStep false) F64.zero

/-- The array of lines 57-59. -/
def driverIds (trips : List Trip) : List String := trips.map (fun obj => obj.driverID)

/-- The array of line 62: the distinct driver identifiers in the order of first occurrence. -/
def driverUnique (trips : List Trip) : List String := setOf (driverIds trips)

/-- The array of lines 77-79: the values of the fulfilled promises among `getDriver(d)`
for the distinct drivers; `getDriver d = none` is a rejected promise. -/
def fulfilledDrivers (getDriver : String → Option DriverInfo) (trips : List Trip) :
    List DriverInfo :=
  (driverUnique trips).filterMap getDriver

/-- The count of lines 82-88: the fulfilled drivers with more than one vehicle. -/
def multiVehicles (getDriver : String → Option DriverInfo) (trips : List Trip) : Nat :=
  (fulfilledDrivers getDriver trips).foldl
    (fun acc obj => if 1 < obj.vehicleID.length then acc + 1 else acc) 0

/-- A value of the object `count`: a number of trips, or the string that `+ 1` makes of
an inherited member. -/
inductive CountVal where
  | num (n : Nat)
  | str (s : String)
deriving DecidableEq, Repr

/-- The number a value of `count` converts to in `b[1] - a[1]`. -/
def CountVal.toNumber : CountVal → F64
  | .num n => F64.ofNat n
  | .str s => stringToNumber s

/-- One turn of lines 94-96, `count[i] = (count[i] || 0) + 1`, on the own properties of
`count` in the order of creation. An own value is truthy and gets `+ 1`: the next number,
or the string with `1` appended. Without an own property, an identifier that names an
inherited member reads that member, and `+ 1` makes a string of it; assigning a string to
`__proto__` creates no property. Any other identifier starts at 1. -/
def countStep (count : List (String × CountVal)) (i : String) : List (String × CountVal) :=
  match getOwn count i with
  | some _ =>
    modifyOwn count i (fun v => match v with
      | .num n => .num (n + 1)
      | .str s => .str (s ++ "1"))
  | none =>
    if i ∈ inheritedKeys then
      (if i = "__proto__" then count else count ++ [(i, .str (inheritedText i ++ "1"))])
    else count ++ [(i, .num 1)]

/-- The object `count` after lines 94-96, its properties in the order of creation. -/
def count (trips : List Trip) : List (String × CountVal) :=
  (driverIds trips).foldl countStep []

/-- The array of line 99, `Object.entries(count)`. -/
def countEntries (trips : List Trip) : List (String × CountVal) := ownEntries (count trips)

/-- The method `Array.prototype.sort` with a comparison function: `a` stays before `b`
unless the comparison of `a` with `b` is positive (a NaN counts as 0). The sort is stable,
so for a comparison that is a consistent order this is the order of every engine. When the
comparison is not a consistent order (here: a total that is NaN, or a count that is not a
number), the language leaves the order to the engine, and an engine may give another order
than this insertion sort; what is proved of the order of `sortedEntries` and `sortedTotals`
assumes counts that are numbers and totals other than NaN. -/
def sortBy {α : Type} (compare : α → α → F64) (xs : List α) : List α :=
  xs.insertionSort (fun a b => F64.lt F64.zero (compare a b) = false)

/-- The array of line 100: the entries sorted by `b[1] - a[1]`. -/
def sortedEntries (trips : List Trip) : List (String × CountVal) :=
  sortBy (fun a b => F64.sub b.2.toNumber a.2.toNumber) (countEntries trips)

/-- The sum of lines 108-119 (and 130-138 on the filtered trips): the billed amounts of
the trips of one driver. -/
def driverBilled (driver : String) (trips : List Trip) : F64 :=
  trips.foldl (fun accumulator obj =>
    match decide (obj.driverID = driver), obj.billedAmount with
    | true, .str s => F64.add accumulator (parseFloat (removeCommas s))
    | true, .num x => F64.add accumulator x
    | _, _ => accumulator) F64.zero

/-- An element of `driverTotalContainer` (lines 143-147). -/
structure DriverTotal where
  driverID : String
  totalAmount : F64
  noOfTrips : Nat
deriving DecidableEq, Repr

/-- The array of lines 122-148: for every distinct driver, the total of `billedStep` over
the driver's trips and their number. -/
def driverTotalContainer (trips : List Trip) : List DriverTotal :=
  (driverUnique trips).map (fun key =>
    let tripsPerDriver := trips.filter (fun trip => trip.driverID = key)
    { driverID := key,
      totalAmount := tripsPerDriver.foldl billedStep F64.zero,
      noOfTrips := tripsPerDriver.length })

/-- The array of line 151: `driverTotalContainer` sorted by `b.totalAmount - a.totalAmount`. -/
def sortedTotals (trips : List Trip) : List DriverTotal :=
  sortBy (fun a b => F64.sub b.totalAmount a.totalAmount) (driverTotalContainer trips)

/-- The rounding `parseFloat(x.toFixed(2))` of lines 163 and 165. -/
def roundTo2 (x : F64) : F64 := parseFloat (toFixed2 x)

/-- The objects `mostTripsByDriver` and `highestEarningDriver` of the output. -/
structure DriverSummary (κ : Type) where
  name : JSVal
  email : JSVal
  phone : JSVal
  noOfTrips : κ
  totalAmountEarned : F64
deriving DecidableEq, Repr

/-- The object `output` of lines 160-181. -/
structure FleetSummary where
  noOfCashTrips : Nat
  noOfNonCashTrips : Nat
  billedTotal : F64
  cashBilledTotal : F64
  nonCashBilledTotal : F64
  noOfDriversWithMoreThanOneVehicle : Nat
  mostTripsByDriver : DriverSummary CountVal
  highestEarningDriver : DriverSummary Nat
deriving DecidableEq, Repr

/-- The function `analysis`, given what `getTrips()` settles with and, for every driver
identifier, what `getDriver` settles with (`none` for a rejection). The result `none` is
the `undefined` the function resolves with after its `catch` (lines 184-187) has logged
an error: a rejection of `getTrips`, `sortedEntries[0]` being `undefined`, or a rejection
of one of the two awaited `getDriver` calls of lines 105 and 157. -/
def analysis (getTrips : Except JSError (List Trip)) (getDriver : String → Option DriverInfo) :
    Option FleetSummary :=
  match getTrips with
  | .error _ => none
  | .ok trips =>
    match (sortedEntries trips).head? with
    | none => none
    | some (maxDriverID, maxDriverTrips) =>
      match getDriver maxDriverID with
      | none => none
      | some maxDriverDetails =>
        match (sortedTotals trips).head? with
        | none => none
        | some highest =>
          match getDriver highest.driverID with
          | none => none
          | some highestDriverInfo =>
            some
              { noOfCashTrips := (cashTrips trips).length
                noOfNonCashTrips := (nonCashTrips trips).length
                billedTotal := roundTo2 (sumTotalBilled trips)
                cashBilledTotal := sumTotalCashBilled trips
                nonCashBilledTotal := roundTo2 (sumNonTotalCashBilled trips)
                noOfDriversWithMoreThanOneVehicle := multiVehicles getDriver trips
                mostTripsByDriver :=
                  { name := maxDriverDetails.name
                    email := maxDriverDetails.email
                    phone := maxDriverDetails.phone
                    noOfTrips := maxDriverTrips
                    totalAmountEarned := driverBilled maxDriverID trips }
                highestEarningDriver :=
                  { name := highestDriverInfo.name
                    email := highestDriverInfo.email
                    phone := highestDriverInfo.phone
                    noOfTrips := highest.noOfTrips
                    totalAmountEarned := highest.totalAmount } }

end Analysis

/-! ## Notions the claims are stated with -/

namespace Spec

/-- A number that is non-negative, finite and a multiple of `2^c` units of `2^-1074`:
with `c = 1074` a whole number, with `c = 1072` a multiple of a quarter. -/
def exactNumber (c : Nat) : F64 → Bool
  | .fin false m => decide (m % 2 ^ c = 0)
  | _ => false

/-- The magnitude of a finite number in units of `2^-1074`, and 0 for the others. -/
def units : F64 → Nat
  | .fin _ m => m
  | _ => 0

/-- A value that is a number and `exactNumber`. -/
def exactAmount (c : Nat) : JSVal → Bool
  | .num x => exactNumber c x
  | _ => false

/-- The magnitude of a value that is a finite number, and 0 for the others. -/
def amountUnits : JSVal → Nat
  | .num x => units x
  | _ => 0

/-- The sum of the magnitudes of the billed amounts of the trips. -/
def sumUnits (trips : List Trip) : Nat := (trips.map (fun t => amountUnits t.billedAmount)).sum

/-- The totals of an aggregate are exact: non-negative numbers, multiples of `2^c` units,
the total earned being the exact sum of the two partial totals, with `rest` units to
spare below 53 bits. -/
def ExactTotals (c rest : Nat) (d : Report.DriverAggregate) : Prop :=
  ∃ a b : Nat, d.cashBilledTotal = .num (.fin false a) ∧
    d.nonCashBilledTotal = .num (.fin false b) ∧
    d.totalAmountEarned = .num (.fin false (a + b)) ∧
    2 ^ c ∣ a ∧ 2 ^ c ∣ b ∧ a + b + rest < 2 ^ (c + 53)

/-- The sum of `Analysis.billedStep` over the trips that satisfy `p`, in the order of the
list: the common form of the billed sums of `analysis`. -/
def sumWhere (p : Trip → Bool) (trips : List Trip) : F64 :=
  trips.foldl (fun acc t => if p t then Analysis.billedStep acc t else acc) F64.zero

/-- The number a billed amount contributes to a sum of `analysis`, if it contributes:
a number itself, a string the number read in it once its commas are deleted. -/
def contribution : JSVal → Option F64
  | .num x => some x
  | .str s => some (JS.parseFloat (JS.removeCommas s))
  | _ => none

/-- The trip with its billed amount replaced by the number 0 when it is neither a number
nor a string. -/
def zeroOthers (t : Trip) : Trip :=
  match t.billedAmount with
  | .num _ => t
  | .str _ => t
  | _ => { t with billedAmount := .num F64.zero }

/-- The trip with its billed amount replaced by the number 0. -/
def zeroAmount (t : Trip) : Trip := { t with billedAmount := .num F64.zero }

/-- Whether `isCash` is exactly `true` or exactly `false`. -/
def cleanBoolean (t : Trip) : Bool := decide (t.isCash = .bool true ∨ t.isCash = .bool false)

/-- The magnitude, in units of `2^-1074`, of what the billed amount of a trip
contributes to a sum of `analysis`; 0 when it contributes no finite number. -/
def contributionUnits (t : Trip) : Nat :=
  match contribution t.billedAmount with
  | some x => units x
  | none => 0

/-- The exact sum of the contributions of the trips that satisfy `p`. -/
def unitsWhere (p : Trip → Bool) (trips : List Trip) : Nat :=
  ((trips.filter p).map contributionUnits).sum

/-- Whether the lookup of the driver succeeds with a record of more than one vehicle. -/
def ownsSeveral (getDriver : String → Option DriverInfo) (driverID : String) : Bool :=
  match getDriver driverID with
  | some info => decide (1 < info.vehicleID.length)
  | none => false

end Spec

/-! ## Sample data -/

namespace Sample

/-- A trip of the given driver, payment kind and billed amount; the driver drives the
vehicle `plate` made by Ford. The other fields are absent. -/
def trip (driverID : String) (isCash billedAmount : JSVal) (plate : String) : Trip :=
  { driverID := driverID
    isCash := isCash
    billedAmount := billedAmount
    driverName := .str driverID
    driverEmail := .undefined
    driverPhone := .undefined
    userName := .undefined
    dateCreated := .undefined
    pickupAddress := .undefined
    destinationAddress := .undefined
    vehiclePlate := .str plate
    vehicleManufacturer := .str "Ford" }

/-- Three trips of two drivers: a cash and a card trip of `d1`, and a trip of `d2` whose
`isCash` is absent. All amounts are whole numbers. -/
def threeTrips : List Trip :=
  [trip "d1" (.bool true) (.num (F64.ofNat 100)) "ABC",
   trip "d2" .undefined (.num (F64.ofNat 50)) "XYZ",
   trip "d1" (.bool false) (.num (F64.ofNat 25)) "DEF"]

/-- Three trips of one driver billed 0.1 in cash, then 0.2 and 0.3 by card. -/
def tenths : List Trip :=
  [trip "d1" (.bool true) (.num (F64.ofRatio 1 10)) "ABC",
   trip "d1" (.bool false) (.num (F64.ofRatio 2 10)) "ABC",
   trip "d1" (.bool false) (.num (F64.ofRatio 3 10)) "ABC"]

/-- One cash trip whose billed amount is the string `1,234.50`. -/
def commaTrip : List Trip := [trip "d1" (.bool true) (.str "1,234.50") "ABC"]

/-- One cash trip without a billed amount. -/
def absentAmount : List Trip := [trip "d1" (.bool true) .undefined "ABC"]

/-- One trip billed the number 1234.5. -/
def numberTrip : List Trip := [trip "d1" (.bool true) (.num (F64.ofRatio 2469 2)) "ABC"]

/-- A trip of `ghost` billed the string `bad`, then two card trips of `d2` billed 100. -/
def badAmount : List Trip :=
  [trip "ghost" (.bool true) (.str "bad") "ABC",
   trip "d2" (.bool false) (.num (F64.ofNat 100)) "XYZ",
   trip "d2" (.bool false) (.num (F64.ofNat 100)) "XYZ"]

/-- A driver lookup that knows every driver but `ghost`; `d1` owns two vehicles. -/
def lookup (driverID : String) : Option DriverInfo :=
  if driverID = "ghost" then none
  else some { name := .str driverID, email := .undefined, phone := .undefined,
              vehicleID := if driverID = "d1" then ["v1", "v2"] else ["v3"] }

/-- Four trips of three drivers; the lookup of `ghost` fails. -/
def fleetTrips : List Trip :=
  [trip "d1" (.bool true) (.num (F64.ofNat 100)) "ABC",
   trip "ghost" (.bool true) (.num (F64.ofNat 5)) "GHO",
   trip "d1" (.bool false) (.num (F64.ofNat 25)) "DEF",
   trip "d2" .undefined (.num (F64.ofNat 50)) "XYZ"]

/-- The summary `analysis` produces for `fleetTrips` and `lookup`. -/
def fleetSummary : Analysis.FleetSummary :=
  { noOfCashTrips := 2
    noOfNonCashTrips := 1
    billedTotal := F64.ofNat 180
    cashBilledTotal := F64.ofNat 105
    nonCashBilledTotal := F64.ofNat 25
    noOfDriversWithMoreThanOneVehicle := 1
    mostTripsByDriver :=
      { name := .str "d1", email := .undefined, phone := .undefined,
        noOfTrips := .num 2, totalAmountEarned := F64.ofNat 125 }
    highestEarningDriver :=
      { name := .str "d1", email := .undefined, phone := .undefined,
        noOfTrips := 2, totalAmountEarned := F64.ofNat 125 } }

/-- The summary `analysis` produces for `threeTrips` and `lookup`. -/
def threeTripsSummary : Analysis.FleetSummary :=
  { noOfCashTrips := 1
    noOfNonCashTrips := 1
    billedTotal := F64.ofNat 175
    cashBilledTotal := F64.ofNat 100
    nonCashBilledTotal := F64.ofNat 25
    noOfDriversWithMoreThanOneVehicle := 1
    mostTripsByDriver :=
      { name := .str "d1", email := .undefined, phone := .undefined,
        noOfTrips := .num 2, totalAmountEarned := F64.ofNat 125 }
    highestEarningDriver :=
      { name := .str "d1", email := .undefined, phone := .undefined,
        noOfTrips := 2, totalAmountEarned := F64.ofNat 125 } }

end Sample

namespace Sample

/-- Two trips of `ghost`, whose lookup fails, and one trip of `d1`. -/
def ghostLeads : List Trip :=
  [trip "ghost" (.bool true) (.num (F64.ofNat 5)) "GHO",
   trip "ghost" (.bool true) (.num (F64.ofNat 5)) "GHO",
   trip "d1" (.bool false) (.num (F64.ofNat 100)) "ABC"]

/-- One trip of `ghost` billed 500 and two trips of `d1` billed 100 each. -/
def ghostEarns : List Trip :=
  [trip "ghost" (.bool true) (.num (F64.ofNat 500)) "GHO",
   trip "d1" (.bool false) (.num (F64.ofNat 100)) "ABC",
   trip "d1" (.bool false) (.num (F64.ofNat 100)) "ABC"]

/-- One trip of a driver whose identifier is `constructor`. -/
def inheritedName : List Trip :=
  [trip "constructor" (.bool true) (.num (F64.ofNat 100)) "ABC"]

end Sample

namespace Spec

/-- The place of a number other than NaN in the order of the numbers: `-Infinity` at the
bottom, `Infinity` at the top, a finite number at its signed count of units (so that the
two zeros share a place). -/
def rank : F64 → WithBot (WithTop Int)
  | .nan => ⊥
  | .inf true => ⊥
  | .inf false => ((⊤ : WithTop Int) : WithBot (WithTop Int))
  | .fin s m => (((F64.signed s m : Int) : WithTop Int) : WithBot (WithTop Int))

/-- The element `p` is the first element of `l` whose key is the greatest key of `l`:
every element before it has a smaller key and no element after it has a greater one. -/
def FirstMax {α κ : Type} [LinearOrder κ] (key : α → κ) (l : List α) (p : α) : Prop :=
  ∃ pre post, l = pre ++ p :: post ∧ (∀ x ∈ pre, key x < key p) ∧ (∀ x ∈ post, key x ≤ key p)

end Spec
namespace Spec

/-- The number of trips whose driver is `d`. -/
def tripCount (trips : List Trip) (d : String) : Nat :=
  (trips.filter (fun t => decide (t.driverID = d))).length

/-- The unrounded sum of the reducer of `analysis` over the trips of the driver `d`. -/
def driverSum (trips : List Trip) (d : String) : F64 :=
  (trips.filter (fun t => decide (t.driverID = d))).foldl Analysis.billedStep F64.zero

/-- The comparison `x >= y` on numbers: false when either is NaN. -/
def atLeast (x y : F64) : Bool := F64.lt y x || F64.eq x y

end Spec
namespace Sample

/-- A driver lookup that knows every driver, each with one vehicle. -/
def lookupAll (driverID : String) : Option DriverInfo :=
  some { name := .str driverID, email := .undefined, phone := .undefined, vehicleID := ["v"] }

/-- One trip of the driver `10`, then one trip of the driver `2`. -/
def integerIds : List Trip :=
  [trip "10" (.bool true) (.num (F64.ofNat 100)) "ABC",
   trip "2" (.bool true) (.num (F64.ofNat 100)) "XYZ"]

/-- Two trips of a driver whose identifier is `__proto__`, then one trip of `d1`. -/
def protoIds : List Trip :=
  [trip "__proto__" (.bool true) (.num (F64.ofNat 100)) "ABC",
   trip "__proto__" (.bool true) (.num (F64.ofNat 100)) "ABC",
   trip "d1" (.bool true) (.num (F64.ofNat 100)) "XYZ"]

end Sample

namespace Spec

open JS

/-- Whether the trip carries a vehicle: plate and manufacturer are both truthy. -/
def hasVehicle (t : Trip) : Bool := truthy t.vehiclePlate && truthy t.vehicleManufacturer

/-- The aggregate of a driver in closed form, from the trips `mine` of that driver in the
order of the trip list: the display fields of the first trip, the number of trips, the
totals accumulated with `+` from the number 0, the distinct vehicle keys in the order of
first occurrence, and the trimmed views of the trips. -/
def aggregateOfTrips (mine : List Trip) : Report.DriverAggregate :=
  { name := (mine.head?.map (fun t => t.driverName)).getD .undefined
    email := (mine.head?.map (fun t => t.driverEmail)).getD .undefined
    phone := (mine.head?.map (fun t => t.driverPhone)).getD .undefined
    noOfTrips := mine.length
    totalAmountEarned := mine.foldl (fun acc t => jsAdd acc t.billedAmount) (.num F64.zero)
    vehicles := setOf ((mine.filter hasVehicle).map Report.vehicleKey)
    trips := mine.map Report.tripView
    cashTrips := (mine.filter (fun t => truthy t.isCash)).length
    nonCashTrips := (mine.filter (fun t => !truthy t.isCash)).length
    cashBilledTotal := (mine.filter (fun t => truthy t.isCash)).foldl
      (fun acc t => jsAdd acc t.billedAmount) (.num F64.zero)
    nonCashBilledTotal := (mine.filter (fun t => !truthy t.isCash)).foldl
      (fun acc t => jsAdd acc t.billedAmount) (.num F64.zero) }

/-- The trips of the driver `d`, in the order of the trip list. -/
def tripsOf (trips : List Trip) (d : String) : List Trip :=
  trips.filter (fun t => decide (t.driverID = d))

/-- The aggregate of the driver `d` in closed form. -/
def driverAggregate (trips : List Trip) (d : String) : Report.DriverAggregate :=
  aggregateOfTrips (tripsOf trips d)

/-- The object `driverData` in closed form: the distinct drivers in the order of first
appearance, each with its aggregate. -/
def driverTable (trips : List Trip) : List (String × Report.DriverAggregate) :=
  (setOf (trips.map (fun t => t.driverID))).map (fun d => (d, driverAggregate trips d))

end Spec

namespace Spec
open JS

/-- The vehicle keys of the trips of the driver `d` whose plate and manufacturer are both
truthy, one for each such trip. -/
def vehicleKeys (trips : List Trip) (d : String) : List String :=
  ((tripsOf trips d).filter hasVehicle).map Report.vehicleKey

/-- The pairs of plate and manufacturer of the trips of the driver `d` in which both are
truthy, one for each such trip. -/
def vehiclePairs (trips : List Trip) (d : String) : List (JSVal × JSVal) :=
  ((tripsOf trips d).filter hasVehicle).map (fun t => (t.vehiclePlate, t.vehicleManufacturer))

end Spec
namespace Sample

/-- Two trips of one driver in two vehicles whose keys coincide: plate `A-B` made by `C`,
and plate `A` made by `B-C`. -/
def hyphenPlates : List Trip :=
  [{ trip "d1" (.bool true) (.num (F64.ofNat 100)) "A-B" with vehicleManufacturer := .str "C" },
   { trip "d1" (.bool true) (.num (F64.ofNat 100)) "A" with vehicleManufacturer := .str "B-C" }]

/-- A trip of `d1` without a billed amount, then a trip of `d2` billed 100. -/
def nanFirst : List Trip :=
  [trip "d1" (.bool true) .undefined "ABC",
   trip "d2" (.bool true) (.num (F64.ofNat 100)) "XYZ"]

end Sample

/-! ## Properties of the number model -/

namespace F64

theorem bitlenAux_le (fuel : Nat) : ∀ (n j : Nat), n < 2 ^ j → bitlenAux fuel n ≤ j := by
  induction fuel with
  | zero => intro n j _; simp [bitlenAux]
  | succ f ih =>
    intro n j h
    unfold bitlenAux
    split
    · exact Nat.zero_le _
    · rename_i hn
      cases j with
      | zero => simp at h; exact absurd h hn
      | succ j =>
        have : n / 2 < 2 ^ j := by
          rw [Nat.div_lt_iff_lt_mul (by decide)]
          rw [Nat.pow_succ] at h
          exact h
        exact Nat.succ_le_succ (ih _ _ this)

theorem bitlen_le {n j : Nat} (h : n < 2 ^ j) : bitlen n ≤ j := bitlenAux_le n n j h

theorem pow_bitlenAux_le (fuel : Nat) : ∀ n : Nat, n ≠ 0 → 2 ^ (bitlenAux fuel n - 1) ≤ n := by
  induction fuel with
  | zero => intro n hn; simp [bitlenAux]; omega
  | succ f ih =>
    intro n hn
    unfold bitlenAux
    rw [if_neg hn]
    simp only [Nat.add_sub_cancel]
    by_cases h2 : n / 2 = 0
    · have : bitlenAux f (n / 2) = 0 := by
        rw [h2]; cases f <;> simp [bitlenAux]
      rw [this]; simp; omega
    · have := ih (n / 2) h2
      by_cases hb : bitlenAux f (n / 2) = 0
      · rw [hb]; simp; omega
      · have e : bitlenAux f (n / 2) = (bitlenAux f (n / 2) - 1) + 1 := by omega
        rw [e, Nat.pow_succ]
        omega

theorem pow_bitlen_le {n : Nat} (hn : n ≠ 0) : 2 ^ (bitlen n - 53) ≤ n := by
  have h := pow_bitlenAux_le n n hn
  have : 2 ^ (bitlen n - 53) ≤ 2 ^ (bitlenAux n n - 1) :=
    Nat.pow_le_pow_right (by decide) (by unfold bitlen; omega)
  exact Nat.le_trans this h

end F64

namespace F64

@[simp] theorem add_nan_left (x : F64) : add nan x = nan := by
  cases x <;> rfl

@[simp] theorem add_nan_right (x : F64) : add x nan = nan := by
  cases x <;> rfl

/-- Rounding a nonzero integer magnitude never gives a zero. -/
theorem roundQuot_one_ne_zero (s t : Bool) (p : Nat) (hp : p ≠ 0) :
    roundQuot s p 1 ≠ fin t 0 := by
  have hk := pow_bitlen_le (n := p / 1) (by simpa using hp)
  simp only [Nat.div_one] at hk
  have hpos : 0 < 2 ^ (bitlen p - 53) := Nat.two_pow_pos _
  have hn : 1 ≤ p / 2 ^ (bitlen p - 53) := (Nat.one_le_div_iff hpos).mpr hk
  unfold roundQuot
  simp only [Nat.div_one, Nat.one_mul]
  generalize hN : (if 2 ^ (bitlen p - 53) < 2 * (p % 2 ^ (bitlen p - 53)) ∨
        2 * (p % 2 ^ (bitlen p - 53)) = 2 ^ (bitlen p - 53) ∧
          p / 2 ^ (bitlen p - 53) % 2 = 1
        then p / 2 ^ (bitlen p - 53) + 1 else p / 2 ^ (bitlen p - 53)) = n1
  have h1 : 0 < n1 := by
    rw [← hN]; split <;> omega
  have h2 := Nat.mul_pos h1 hpos
  by_cases ho : overflowMag ≤ n1 * 2 ^ (bitlen p - 53)
  · rw [if_pos ho]; intro h; cases h
  · rw [if_neg ho]
    intro h
    injection h with _ h0
    omega

/-- Adding `+0` changes no number but `-0`. -/
theorem add_zero_right (x : F64) (hx : x ≠ negZero) : add x zero = x := by
  cases x with
  | nan => rfl
  | inf s => rfl
  | fin s m =>
    simp only [add, zero, if_true]
    split
    · rename_i hm
      subst hm
      cases s
      · rfl
      · exact absurd rfl hx
    · rfl

/-- A sum is `-0` only when the first summand is. -/
theorem add_ne_negZero (x y : F64) (hx : x ≠ negZero) : add x y ≠ negZero := by
  cases x with
  | nan => simp [negZero]
  | inf a =>
    cases y with
    | nan => simp [negZero]
    | inf b => simp only [add, negZero]; split <;> simp
    | fin t n => simp [add, negZero]
  | fin s m =>
    cases y with
    | nan => simp [negZero]
    | inf b => simp [add, negZero]
    | fin t n =>
      simp only [add, negZero]
      split
      · split
        · rename_i hm
          subst hm
          cases s
          · simp
          · exact absurd rfl hx
        · rename_i hm
          intro h; injection h with _ h0; exact hm h0
      · rename_i hn
        split
        · intro h; injection h with _ h0; exact hn h0
        · rename_i hm
          split
          · exact roundQuot_one_ne_zero _ _ _ (by omega)
          · split
            · simp
            · split
              · exact roundQuot_one_ne_zero _ _ _ (by omega)
              · exact roundQuot_one_ne_zero _ _ _ (by omega)

/-- The sum of two non-negative numbers that are multiples of `2^c` units and whose exact
sum has at most 53 bits above `2^c` is exact. -/
theorem add_exact (c a b : Nat) (hc : c ≤ 2045) (ha : 2 ^ c ∣ a) (hb : 2 ^ c ∣ b)
    (hab : a + b < 2 ^ (c + 53)) : add (fin false a) (fin false b) = fin false (a + b) := by
  simp only [add]
  split
  · rename_i hb0
    subst hb0
    split
    · rename_i ha0; subst ha0; rfl
    · rfl
  · split
    · rename_i ha0; subst ha0; simp
    · simp only [if_true]
      have hlen : bitlen ((a + b) / 1) - 53 ≤ c := by
        have := bitlen_le (n := (a + b) / 1) (j := c + 53) (by simpa using hab)
        omega
      have hdvd : 2 ^ (bitlen ((a + b) / 1) - 53) ∣ a + b :=
        Nat.dvd_trans (Nat.pow_dvd_pow 2 hlen) (Nat.dvd_add ha hb)
      have hpos : 0 < 2 ^ (bitlen ((a + b) / 1) - 53) := Nat.two_pow_pos _
      have hlt : a + b < overflowMag :=
        Nat.lt_of_lt_of_le hab (Nat.pow_le_pow_right (by decide) (by omega))
      unfold roundQuot
      simp only [Nat.one_mul]
      rw [Nat.mod_eq_zero_of_dvd hdvd]
      have hne : ¬ (2 ^ (bitlen ((a + b) / 1) - 53) < 2 * 0 ∨
          2 * 0 = 2 ^ (bitlen ((a + b) / 1) - 53) ∧
            (a + b) / 2 ^ (bitlen ((a + b) / 1) - 53) % 2 = 1) := by
        omega
      rw [if_neg hne, Nat.div_mul_cancel hdvd, if_neg (by omega)]

end F64

/-! ## Properties of the object model -/

namespace JS

theorem ownEntries_perm {α : Type} (created : List (String × α)) :
    (ownEntries created).Perm created := by
  unfold ownEntries
  exact ((List.perm_insertionSort _ _).append_right _).trans
    (List.filter_append_perm (fun e => (arrayIndex e.1).isSome) created)

theorem mem_ownEntries {α : Type} (created : List (String × α)) (e : String × α) :
    e ∈ ownEntries created ↔ e ∈ created :=
  (ownEntries_perm created).mem_iff

theorem getOwn_isNone_iff {α : Type} (created : List (String × α)) (key : String) :
    (getOwn created key).isNone = true ↔ key ∉ created.map Prod.fst := by
  induction created with
  | nil => simp [getOwn]
  | cons e l ih =>
    by_cases h : e.1 = key
    · simp [getOwn, List.find?, h]
    · have h2 : ¬ key = e.1 := fun c => h c.symm
      simp only [getOwn, List.find?, h, decide_False, List.map_cons, List.mem_cons, h2,
        false_or] at ih ⊢
      exact ih

theorem modifyOwn_keys {α : Type} (created : List (String × α)) (key : String) (f : α → α) :
    (modifyOwn created key f).map Prod.fst = created.map Prod.fst := by
  induction created with
  | nil => rfl
  | cons e l ih =>
    simp only [modifyOwn, List.map_cons] at ih ⊢
    rw [ih]
    by_cases h : e.1 = key <;> simp [h]

theorem modifyOwn_of_not_mem {α : Type} (created : List (String × α)) (key : String)
    (f : α → α) (h : key ∉ created.map Prod.fst) : modifyOwn created key f = created := by
  induction created with
  | nil => rfl
  | cons e l ih =>
    simp only [List.map_cons, List.mem_cons, not_or] at h
    have h1 : ¬ e.1 = key := fun c => h.1 c.symm
    simp only [modifyOwn, List.map_cons, h1, if_false] at ih ⊢
    rw [ih h.2]

theorem mem_modifyOwn {α : Type} {created : List (String × α)} {key : String} {f : α → α}
    {e : String × α} (h : e ∈ modifyOwn created key f) :
    (e ∈ created ∧ e.1 ≠ key) ∨ ∃ v, (key, v) ∈ created ∧ e = (key, f v) := by
  simp only [modifyOwn, List.mem_map] at h
  obtain ⟨e0, he0, rfl⟩ := h
  by_cases hk : e0.1 = key
  · right
    refine ⟨e0.2, ?_, by simp [hk]⟩
    rw [← hk]; exact he0
  · left; simpa [hk] using he0

end JS

/-! ## Properties of the driver report -/

namespace Report

open JS

/-- The loop completes exactly when no driver identifier names an inherited member, and
then `driverData` is the fold of `nextData` over the trips. -/
theorem loopFrom_eq_ok_iff (trips : List Trip) :
    ∀ (driverData out : List (String × DriverAggregate)),
      loopFrom driverData trips = .ok out ↔
        (∀ t ∈ trips, t.driverID ∉ inheritedKeys) ∧ out = trips.foldl nextData driverData := by
  induction trips with
  | nil =>
    intro d out
    simp only [loopFrom, List.not_mem_nil, false_implies, implies_true, List.foldl_nil,
      true_and]
    constructor
    · intro h; injection h with h; exact h.symm
    · intro h; rw [h]
  | cons t ts ih =>
    intro d out
    by_cases hk : t.driverID ∈ inheritedKeys
    · simp only [loopFrom, loopStep, if_pos hk, List.mem_cons, forall_eq_or_imp]
      constructor
      · intro h; cases h
      · intro h; exact absurd hk h.1.1
    · simp only [loopFrom, loopStep, if_neg hk, List.mem_cons, forall_eq_or_imp,
        List.foldl_cons]
      rw [ih]
      constructor
      · intro h; exact ⟨⟨hk, h.1⟩, h.2⟩
      · intro h; exact ⟨h.1.2, h.2⟩

/-- What `driverReport` returns: the report built from the fold of `nextData`. -/
theorem driverReport_eq_ok_iff (trips : List Trip) (r : DriverReport) :
    driverReport (.ok trips) = .ok r ↔
      (∀ t ∈ trips, t.driverID ∉ inheritedKeys) ∧ r = buildReport (trips.foldl nextData []) := by
  unfold driverReport
  simp only
  cases h : loopFrom [] trips with
  | error e =>
    simp only
    constructor
    · intro c; cases c
    · intro c
      have := (loopFrom_eq_ok_iff trips [] _).mpr ⟨c.1, rfl⟩
      rw [h] at this; cases this
  | ok d =>
    have hd := (loopFrom_eq_ok_iff trips [] d).mp h
    simp only
    rw [← hd.2]
    constructor
    · intro c; injection c with c; exact ⟨hd.1, c.symm⟩
    · intro c; rw [c.2]

/-- The drivers of a returned report are the aggregates of the fold, up to their order. -/
theorem drivers_perm {trips : List Trip} {r : DriverReport}
    (h : driverReport (.ok trips) = .ok r) :
    r.drivers.Perm ((trips.foldl nextData []).map (fun e => e.2)) := by
  have := ((driverReport_eq_ok_iff trips r).mp h).2
  rw [this]
  exact (ownEntries_perm _).map _

theorem nextData_keys (driverData : List (String × DriverAggregate)) (trip : Trip) :
    (nextData driverData trip).map Prod.fst =
      if trip.driverID ∈ driverData.map Prod.fst then driverData.map Prod.fst
      else driverData.map Prod.fst ++ [trip.driverID] := by
  unfold nextData
  simp only [modifyOwn_keys]
  by_cases h : trip.driverID ∈ driverData.map Prod.fst
  · have : ¬ (getOwn driverData trip.driverID).isNone = true := by
      rw [getOwn_isNone_iff]; exact fun c => c h
    rw [if_neg this, if_pos h]
  · have : (getOwn driverData trip.driverID).isNone = true := by
      rw [getOwn_isNone_iff]; exact h
    rw [if_pos this, if_neg h]
    simp

theorem nextData_nodup (driverData : List (String × DriverAggregate)) (trip : Trip)
    (h : (driverData.map Prod.fst).Nodup) : ((nextData driverData trip).map Prod.fst).Nodup := by
  rw [nextData_keys]
  split
  · exact h
  · rename_i hn
    exact List.Nodup.append h (List.nodup_singleton _) (by simpa using hn)

theorem foldl_nextData_nodup (trips : List Trip) :
    ∀ driverData : List (String × DriverAggregate), (driverData.map Prod.fst).Nodup →
      ((trips.foldl nextData driverData).map Prod.fst).Nodup := by
  induction trips with
  | nil => intro d h; exact h
  | cons t ts ih => intro d h; exact ih _ (nextData_nodup d t h)

theorem updateAggregate_noOfTrips (trip : Trip) (d : DriverAggregate) :
    (updateAggregate trip d).noOfTrips = d.noOfTrips + 1 := by
  unfold updateAggregate updateVehicles updateCash
  simp only
  split <;> split <;> rfl

theorem updateAggregate_cash_add_nonCash (trip : Trip) (d : DriverAggregate) :
    (updateAggregate trip d).cashTrips + (updateAggregate trip d).nonCashTrips =
      d.cashTrips + d.nonCashTrips + 1 := by
  unfold updateAggregate updateVehicles updateCash
  simp only
  split <;> split <;> simp only <;> omega

/-- Updating the one entry of a key adds one to the sum of `noOfTrips`. -/
theorem sum_modifyOwn (trip : Trip) :
    ∀ driverData : List (String × DriverAggregate), (driverData.map Prod.fst).Nodup →
      trip.driverID ∈ driverData.map Prod.fst →
      ((modifyOwn driverData trip.driverID (updateAggregate trip)).map
        (fun e => e.2.noOfTrips)).sum = (driverData.map (fun e => e.2.noOfTrips)).sum + 1 := by
  intro d
  induction d with
  | nil => intro _ h; simp at h
  | cons e l ih =>
    intro hnd hmem
    simp only [List.map_cons, List.nodup_cons] at hnd
    by_cases hk : e.1 = trip.driverID
    · have hnot : trip.driverID ∉ l.map Prod.fst := by rw [← hk]; exact hnd.1
      have hl := modifyOwn_of_not_mem l trip.driverID (updateAggregate trip) hnot
      simp only [modifyOwn] at hl
      simp only [modifyOwn, List.map_cons, hk, if_true, List.sum_cons, hl,
        updateAggregate_noOfTrips]
      omega
    · have hmem2 : trip.driverID ∈ l.map Prod.fst := by
        simp only [List.map_cons, List.mem_cons] at hmem
        rcases hmem with h | h
        · exact absurd h.symm hk
        · exact h
      have := ih hnd.2 hmem2
      simp only [modifyOwn] at this
      simp only [modifyOwn, List.map_cons, hk, if_false, List.sum_cons, this]
      omega

theorem sum_nextData (driverData : List (String × DriverAggregate)) (trip : Trip)
    (h : (driverData.map Prod.fst).Nodup) :
    ((nextData driverData trip).map (fun e => e.2.noOfTrips)).sum =
      (driverData.map (fun e => e.2.noOfTrips)).sum + 1 := by
  unfold nextData
  simp only
  by_cases hm : trip.driverID ∈ driverData.map Prod.fst
  · have : ¬ (getOwn driverData trip.driverID).isNone = true := by
      rw [getOwn_isNone_iff]; exact fun c => c hm
    rw [if_neg this]
    exact sum_modifyOwn trip driverData h hm
  · have : (getOwn driverData trip.driverID).isNone = true := by
      rw [getOwn_isNone_iff]; exact hm
    rw [if_pos this]
    rw [sum_modifyOwn trip _ (by
      rw [List.map_append]
      exact List.Nodup.append h (List.nodup_singleton _) (by simpa using hm)) (by simp)]
    simp [initialAggregate]

theorem sum_foldl_nextData (trips : List Trip) :
    ∀ driverData : List (String × DriverAggregate), (driverData.map Prod.fst).Nodup →
      ((trips.foldl nextData driverData).map (fun e => e.2.noOfTrips)).sum =
        (driverData.map (fun e => e.2.noOfTrips)).sum + trips.length := by
  induction trips with
  | nil => intro d _; simp
  | cons t ts ih =>
    intro d h
    simp only [List.foldl_cons, List.length_cons]
    rw [ih _ (nextData_nodup d t h), sum_nextData d t h]
    omega

/-- A property of aggregates that the first update of a fresh aggregate establishes and
every update preserves holds of every aggregate the loop builds. -/
theorem foldl_nextData_forall (P : DriverAggregate → Prop)
    (hP : ∀ trip d, (d = initialAggregate trip ∨ P d) → P (updateAggregate trip d))
    (trips : List Trip) :
    ∀ driverData : List (String × DriverAggregate), (∀ e ∈ driverData, P e.2) →
      ∀ e ∈ trips.foldl nextData driverData, P e.2 := by
  induction trips with
  | nil => intro d h; exact h
  | cons t ts ih =>
    intro d h
    simp only [List.foldl_cons]
    apply ih
    intro e he
    unfold nextData at he
    simp only at he
    rcases mem_modifyOwn he with ⟨h1, hne⟩ | ⟨v, hv, rfl⟩
    · split at h1
      · rcases List.mem_append.mp h1 with h2 | h2
        · exact h e h2
        · simp only [List.mem_singleton] at h2
          rw [h2] at hne
          exact absurd rfl hne
      · exact h e h1
    · split at hv
      · rcases List.mem_append.mp hv with h2 | h2
        · exact hP t v (Or.inr (h _ h2))
        · simp only [List.mem_singleton] at h2
          injection h2 with _ h3
          exact hP t v (Or.inl h3)
      · exact hP t v (Or.inr (h _ hv))

end Report

/-! ## The driver report: counts -/

/-- C1. For every trip list on which `driverReport` returns a report, the `noOfTrips` of
the aggregates of the returned `drivers` sum to the number of trips. -/
theorem driverReport_noOfTrips_sum (trips : List Trip) (r : Report.DriverReport)
    (h : Report.driverReport (.ok trips) = .ok r) :
    (r.drivers.map (fun d => d.noOfTrips)).sum = trips.length := by
  have hp := (Report.drivers_perm h).map (fun d => d.noOfTrips)
  rw [hp.sum_eq, List.map_map]
  have := Report.sum_foldl_nextData trips [] (by simp)
  simpa using this

/-- The three sample trips: the report has the aggregates of `d1` and `d2`, with 2 and 1
trips. -/
theorem driverReport_noOfTrips_sum_witness :
    Report.driverReport (.ok Sample.threeTrips) =
        .ok (Report.buildReport (Sample.threeTrips.foldl Report.nextData [])) ∧
    (Report.buildReport (Sample.threeTrips.foldl Report.nextData [])).drivers.map
        (fun d => d.noOfTrips) = [2, 1] ∧
    ((Report.buildReport (Sample.threeTrips.foldl Report.nextData [])).drivers.map
        (fun d => d.noOfTrips)).sum = Sample.threeTrips.length :=
  ⟨rfl, by decide, driverReport_noOfTrips_sum Sample.threeTrips _ rfl⟩

/-- C2. For every trip list on which `driverReport` returns a report, every aggregate of
the returned `drivers` has `noOfTrips = cashTrips + nonCashTrips`, whatever the values
of `isCash` are. -/
theorem driverReport_noOfTrips_eq_cash_add_nonCash (trips : List Trip)
    (r : Report.DriverReport) (h : Report.driverReport (.ok trips) = .ok r) :
    ∀ d ∈ r.drivers, d.noOfTrips = d.cashTrips + d.nonCashTrips := by
  intro d hd
  have hd2 := (Report.drivers_perm h).mem_iff.mp hd
  obtain ⟨e, he, rfl⟩ := List.mem_map.mp hd2
  refine Report.foldl_nextData_forall (fun d => d.noOfTrips = d.cashTrips + d.nonCashTrips)
    ?_ trips [] (by simp) e he
  intro trip d0 h0
  rw [Report.updateAggregate_noOfTrips, Report.updateAggregate_cash_add_nonCash]
  rcases h0 with h0 | h0
  · rw [h0]; rfl
  · rw [h0]

/-- The three sample trips: `d1` has 2 trips, one cash and one not; `d2` has one trip, whose
absent `isCash` counts as not cash. -/
theorem driverReport_noOfTrips_eq_cash_add_nonCash_witness :
    (Report.buildReport (Sample.threeTrips.foldl Report.nextData [])).drivers.map
        (fun d => (d.noOfTrips, d.cashTrips, d.nonCashTrips)) = [(2, 1, 1), (1, 0, 1)] ∧
    (∀ d ∈ (Report.buildReport (Sample.threeTrips.foldl Report.nextData [])).drivers,
      d.noOfTrips = d.cashTrips + d.nonCashTrips) :=
  ⟨by decide, driverReport_noOfTrips_eq_cash_add_nonCash Sample.threeTrips _ rfl⟩

/-! ## The driver report: totals -/

namespace Report

open JS

theorem jsAdd_exact (c a m : Nat) (hc : c ≤ 2045) (ha : 2 ^ c ∣ a) (hm : 2 ^ c ∣ m)
    (h : a + m < 2 ^ (c + 53)) :
    jsAdd (.num (.fin false a)) (.num (.fin false m)) = .num (.fin false (a + m)) := by
  simp [jsAdd, isStringy, toNumber, F64.add_exact c a m hc ha hm h]

theorem exactAmount_iff (c : Nat) (v : JSVal) :
    Spec.exactAmount c v = true ↔ ∃ m, v = .num (.fin false m) ∧ 2 ^ c ∣ m := by
  cases v with
  | num x =>
    cases x with
    | fin s m =>
      cases s
      · simp [Spec.exactAmount, Spec.exactNumber, Nat.dvd_iff_mod_eq_zero]
      · simp [Spec.exactAmount, Spec.exactNumber]
    | _ => simp [Spec.exactAmount, Spec.exactNumber]
  | _ => simp [Spec.exactAmount]

theorem updateAggregate_exactTotals (c rest m : Nat) (hc : c ≤ 2045) (trip : Trip)
    (d : DriverAggregate) (hamt : trip.billedAmount = .num (.fin false m)) (hm : 2 ^ c ∣ m)
    (hd : Spec.ExactTotals c (m + rest) d) : Spec.ExactTotals c rest (updateAggregate trip d) := by
  obtain ⟨a, b, h1, h2, h3, ha, hb, hlt⟩ := hd
  unfold updateAggregate updateVehicles updateCash
  simp only [hamt]
  by_cases hcash : truthy trip.isCash = true
  · simp only [hcash, if_true]
    refine ⟨a + m, b, ?_, ?_, ?_, Nat.dvd_add ha hm, hb, by omega⟩
    · split <;> simp only [h1] <;> exact jsAdd_exact c a m hc ha hm (by omega)
    · split <;> simp only [h2]
    · have := jsAdd_exact c (a + b) m hc (Nat.dvd_add ha hb) hm (by omega)
      split <;> simp only [h3, this] <;> congr 2 <;> omega
  · simp only [hcash]
    refine ⟨a, b + m, ?_, ?_, ?_, ha, Nat.dvd_add hb hm, by omega⟩
    · split <;> simp only [Bool.false_eq_true, if_false, h1]
    · split <;> simp only [Bool.false_eq_true, if_false, h2] <;>
        exact jsAdd_exact c b m hc hb hm (by omega)
    · have := jsAdd_exact c (a + b) m hc (Nat.dvd_add ha hb) hm (by omega)
      split <;> simp only [Bool.false_eq_true, if_false, h3, this] <;> congr 2 <;> omega

theorem exactTotals_mono {c rest rest2 : Nat} {d : DriverAggregate} (h : rest2 ≤ rest)
    (hd : Spec.ExactTotals c rest d) : Spec.ExactTotals c rest2 d := by
  obtain ⟨a, b, h1, h2, h3, ha, hb, hlt⟩ := hd
  exact ⟨a, b, h1, h2, h3, ha, hb, by omega⟩

theorem initialAggregate_exactTotals (c rest : Nat) (trip : Trip) (h : rest < 2 ^ (c + 53)) :
    Spec.ExactTotals c rest (initialAggregate trip) :=
  ⟨0, 0, rfl, rfl, rfl, Nat.dvd_zero _, Nat.dvd_zero _, by omega⟩

theorem foldl_nextData_exactTotals (c : Nat) (hc : c ≤ 2045) (trips : List Trip) :
    ∀ driverData : List (String × DriverAggregate),
      (∀ t ∈ trips, Spec.exactAmount c t.billedAmount = true) →
      Spec.sumUnits trips < 2 ^ (c + 53) →
      (∀ e ∈ driverData, Spec.ExactTotals c (Spec.sumUnits trips) e.2) →
      ∀ e ∈ trips.foldl nextData driverData, Spec.ExactTotals c 0 e.2 := by
  induction trips with
  | nil => intro d _ _ h; exact h
  | cons t ts ih =>
    intro d hall hsum hd
    obtain ⟨m, hamt, hm⟩ := (exactAmount_iff c _).mp (hall t (List.mem_cons_self _ _))
    have hs : Spec.sumUnits (t :: ts) = m + Spec.sumUnits ts := by
      simp [Spec.sumUnits, hamt, Spec.amountUnits, Spec.units]
    rw [hs] at hsum hd
    simp only [List.foldl_cons]
    refine ih _ (fun t2 h2 => hall t2 (List.mem_cons_of_mem _ h2)) (by omega) ?_
    intro e he
    unfold nextData at he
    simp only at he
    rcases mem_modifyOwn he with ⟨h1, hne⟩ | ⟨v, hv, rfl⟩
    · split at h1
      · rcases List.mem_append.mp h1 with h2 | h2
        · exact exactTotals_mono (by omega) (hd e h2)
        · simp only [List.mem_singleton] at h2
          rw [h2] at hne
          exact absurd rfl hne
      · exact exactTotals_mono (by omega) (hd e h1)
    · refine updateAggregate_exactTotals c _ m hc t v hamt hm ?_
      split at hv
      · rcases List.mem_append.mp hv with h2 | h2
        · exact hd _ h2
        · simp only [List.mem_singleton] at h2
          injection h2 with _ h3
          rw [h3]
          exact initialAggregate_exactTotals c _ t hsum
      · exact hd _ hv

end Report

/-- C3, as amended. When every billed amount is a non-negative number that is a multiple
of `2^c` units (of `2^-1074`; whole numbers for `c = 1074`) and the amounts total less than
`2^(c+53)` units, so that no addition rounds, every aggregate of a returned report has
`totalAmountEarned` equal to `cashBilledTotal + nonCashBilledTotal`. -/
theorem driverReport_total_eq_of_exact (c : Nat) (trips : List Trip) (r : Report.DriverReport)
    (hc : c ≤ 2045) (hall : ∀ t ∈ trips, Spec.exactAmount c t.billedAmount = true)
    (hsum : Spec.sumUnits trips < 2 ^ (c + 53))
    (h : Report.driverReport (.ok trips) = .ok r) :
    ∀ d ∈ r.drivers, d.totalAmountEarned = JS.jsAdd d.cashBilledTotal d.nonCashBilledTotal := by
  intro d hd
  have hd2 := (Report.drivers_perm h).mem_iff.mp hd
  obtain ⟨e, he, rfl⟩ := List.mem_map.mp hd2
  obtain ⟨a, b, h1, h2, h3, ha, hb, hlt⟩ :=
    Report.foldl_nextData_exactTotals c hc trips [] hall hsum (by simp) e he
  rw [h1, h2, h3, Report.jsAdd_exact c a b hc ha hb (by omega)]

/-- The three sample trips, whose amounts are the whole numbers 100, 50 and 25. -/
theorem driverReport_total_eq_of_exact_witness :
    (∀ d ∈ (Report.buildReport (Sample.threeTrips.foldl Report.nextData [])).drivers,
      d.totalAmountEarned = JS.jsAdd d.cashBilledTotal d.nonCashBilledTotal) ∧
    (Report.buildReport (Sample.threeTrips.foldl Report.nextData [])).drivers.map
      (fun d => (JS.toStr d.totalAmountEarned, JS.toStr d.cashBilledTotal,
        JS.toStr d.nonCashBilledTotal)) = [("125", "100", "25"), ("50", "0", "50")] :=
  ⟨driverReport_total_eq_of_exact 1074 Sample.threeTrips _ (by decide) (by decide) (by decide)
    rfl, by decide⟩

/-- C3 fails as stated. For the three trips billed 0.1 in cash and 0.2 and 0.3 by card, the
total earned is 0.6000000000000001 and the sum of the two partial totals is 0.6. For one
cash trip billed the string `1,234.50`, the total earned is the string `01,234.50` and the
sum of the two partial totals is the string `01,234.500`. -/
theorem driverReport_total_ne_partition_sum :
    (Report.driverReport (.ok Sample.tenths) =
        .ok (Report.buildReport (Sample.tenths.foldl Report.nextData [])) ∧
      (Report.buildReport (Sample.tenths.foldl Report.nextData [])).drivers.map
        (fun d => (d.totalAmountEarned, JS.jsAdd d.cashBilledTotal d.nonCashBilledTotal)) =
        [(.num (F64.ofDecimal false 6000000000000001 (-16)), .num (F64.ofRatio 6 10))] ∧
      F64.eq (F64.ofDecimal false 6000000000000001 (-16)) (F64.ofRatio 6 10) = false) ∧
    (Report.driverReport (.ok Sample.commaTrip) =
        .ok (Report.buildReport (Sample.commaTrip.foldl Report.nextData [])) ∧
      (Report.buildReport (Sample.commaTrip.foldl Report.nextData [])).drivers.map
        (fun d => (d.totalAmountEarned, JS.jsAdd d.cashBilledTotal d.nonCashBilledTotal)) =
        [(.str "01,234.50", .str "01,234.500")]) :=
  ⟨⟨rfl, by decide, by decide⟩, rfl, by decide⟩

/-- C4 fails on the code: `driverReport` adds the raw `billedAmount` with `+=`, `analysis`
adds its parsed value. For one cash trip of `d1` billed the string `1,234.50`, the total
earned of `d1` is the string `01,234.50` in the report and the number 1234.5 in the
analysis (both in `driverTotalContainer` and in the sum of lines 108-119); for one trip
without a billed amount it is NaN in the report and 0 in the analysis. -/
theorem driverReport_total_differs_from_analysis :
    (Report.driverReport (.ok Sample.commaTrip) =
        .ok (Report.buildReport (Sample.commaTrip.foldl Report.nextData [])) ∧
      (Report.buildReport (Sample.commaTrip.foldl Report.nextData [])).drivers.map
        (fun d => d.totalAmountEarned) = [.str "01,234.50"] ∧
      (Analysis.driverTotalContainer Sample.commaTrip).map
        (fun d => (d.driverID, d.totalAmount)) = [("d1", F64.ofRatio 2469 2)] ∧
      Analysis.driverBilled "d1" Sample.commaTrip = F64.ofRatio 2469 2) ∧
    (Report.driverReport (.ok Sample.absentAmount) =
        .ok (Report.buildReport (Sample.absentAmount.foldl Report.nextData [])) ∧
      (Report.buildReport (Sample.absentAmount.foldl Report.nextData [])).drivers.map
        (fun d => d.totalAmountEarned) = [.num F64.nan] ∧
      (Analysis.driverTotalContainer Sample.absentAmount).map
        (fun d => (d.driverID, d.totalAmount)) = [("d1", F64.zero)] ∧
      Analysis.driverBilled "d1" Sample.absentAmount = F64.zero) :=
  ⟨⟨rfl, by decide, by decide, by decide⟩, rfl, by decide, by decide, by decide⟩

/-! ## The monetary normalizer -/

namespace JS

theorem takeWhile_digits (ip rest : List Char) (hip : ∀ c ∈ ip, isDigit c = true)
    (hrest : ∀ c ∈ rest.head?, isDigit c = false) :
    (ip ++ rest).takeWhile isDigit = ip ∧ (ip ++ rest).dropWhile isDigit = rest := by
  induction ip with
  | nil =>
    cases rest with
    | nil => simp
    | cons c cs =>
      have := hrest c (by simp)
      simp [List.takeWhile, List.dropWhile, this]
  | cons d ds ih =>
    have hd := hip d (List.mem_cons_self _ _)
    have := ih (fun c hc => hip c (List.mem_cons_of_mem _ hc))
    simp [List.takeWhile, List.dropWhile, hd, this.1, this.2]

theorem isWhiteSpace_of_isDigit (c : Char) (h : isDigit c = true) : isWhiteSpace c = false := by
  simp only [isDigit, Bool.and_eq_true, decide_eq_true_eq] at h
  simp only [isWhiteSpace, Bool.or_eq_false_iff, decide_eq_false_iff_not,
    Bool.and_eq_false_imp, decide_eq_true_eq]
  omega

theorem scanExponent_nil : scanExponent [] = none := rfl

/-- The scan of digits, a point and digits. -/
theorem scanUnsignedDecimal_point (ip fp : List Char) (hne : ip ≠ [])
    (hip : ∀ c ∈ ip, isDigit c = true) (hfp : ∀ c ∈ fp, isDigit c = true) :
    scanUnsignedDecimal (ip ++ '.' :: fp) =
      some (digitsVal (ip ++ fp), -(fp.length : Int), []) := by
  have h1 := takeWhile_digits ip ('.' :: fp) hip (by simp [isDigit])
  have h2 := takeWhile_digits fp [] hfp (by simp)
  simp only [List.append_nil] at h2
  unfold scanUnsignedDecimal
  simp only [h1.1, h1.2, h2.1, h2.2, scanExponent_nil]
  have : ¬ (ip.isEmpty = true ∧ fp.isEmpty = true) := by
    intro c; exact hne (List.isEmpty_iff.mp c.1)
  rw [if_neg this]

/-- The scan of digits alone. -/
theorem scanUnsignedDecimal_digits (ip : List Char) (hne : ip ≠ [])
    (hip : ∀ c ∈ ip, isDigit c = true) :
    scanUnsignedDecimal ip = some (digitsVal ip, 0, []) := by
  have h1 := takeWhile_digits ip [] hip (by simp)
  simp only [List.append_nil] at h1
  unfold scanUnsignedDecimal
  simp only [h1.1, h1.2, scanExponent_nil]
  have : ¬ ip.isEmpty = true := fun c => hne (List.isEmpty_iff.mp c)
  rw [if_neg this]

theorem scanDecimalLiteral_of_unsigned (d : Char) (cs : List Char) (hplus : d ≠ '+')
    (hminus : d ≠ '-') : scanDecimalLiteral (d :: cs) = scanUnsigned false (d :: cs) := by
  unfold scanDecimalLiteral
  split
  · rename_i heq; injection heq with h1 _; exact absurd h1 hplus
  · rename_i heq; injection heq with h1 _; exact absurd h1 hminus
  · rfl

/-- On a string that starts with a digit, `parseFloat` is the scan of an unsigned decimal. -/
theorem parseFloat_of_digit_head (d : Char) (cs : List Char) (hd : isDigit d = true) :
    parseFloat (String.mk (d :: cs)) =
      match scanUnsignedDecimal (d :: cs) with
      | some (n, x, _) => F64.ofDecimal false n x
      | none => F64.nan := by
  have hw := isWhiteSpace_of_isDigit d hd
  have hrange : 48 ≤ d.toNat ∧ d.toNat ≤ 57 := by
    simpa [isDigit] using hd
  have hplus : d ≠ '+' := by
    intro c; rw [c] at hrange; simp at hrange
  have hminus : d ≠ '-' := by
    intro c; rw [c] at hrange; simp at hrange
  have hI : d ≠ 'I' := by
    intro c; rw [c] at hrange; simp at hrange
  have hpre : infinityChars.isPrefixOf (d :: cs) = false := by
    simp [infinityChars, List.isPrefixOf, Ne.symm hI]
  unfold parseFloat
  simp only [List.dropWhile, hw, scanDecimalLiteral_of_unsigned d cs hplus hminus]
  unfold scanUnsigned
  simp only [hpre, Bool.false_eq_true, if_false]
  cases scanUnsignedDecimal (d :: cs) with
  | none => rfl
  | some r => rfl

theorem removeCommas_data (s : String) :
    (removeCommas s).data = s.data.filter (fun c => c != ',') := rfl

theorem parseFloat_numeral_point (s : String) (ip fp : List Char) (hne : ip ≠ [])
    (hip : ∀ c ∈ ip, isDigit c = true) (hfp : ∀ c ∈ fp, isDigit c = true)
    (hs : s.data = ip ++ '.' :: fp) :
    parseFloat s = F64.ofDecimal false (digitsVal (ip ++ fp)) (-(fp.length : Int)) := by
  have e : s = String.mk (ip ++ '.' :: fp) := by rw [← hs]
  rw [e]
  cases ip with
  | nil => exact absurd rfl hne
  | cons d ds =>
    rw [List.cons_append, parseFloat_of_digit_head d _ (hip d (List.mem_cons_self _ _)),
      ← List.cons_append, scanUnsignedDecimal_point (d :: ds) fp hne hip hfp]

theorem parseFloat_numeral_digits (s : String) (ip : List Char) (hne : ip ≠ [])
    (hip : ∀ c ∈ ip, isDigit c = true) (hs : s.data = ip) :
    parseFloat s = F64.ofDecimal false (digitsVal ip) 0 := by
  have e : s = String.mk ip := by rw [← hs]
  rw [e]
  cases ip with
  | nil => exact absurd rfl hne
  | cons d ds =>
    rw [parseFloat_of_digit_head d _ (hip d (List.mem_cons_self _ _)),
      scanUnsignedDecimal_digits (d :: ds) hne hip]

end JS

/-! ## The billed sums of the analysis -/

namespace Analysis

open JS

theorem billedStep_eq (acc : F64) (t : Trip) :
    billedStep acc t = match Spec.contribution t.billedAmount with
      | some x => F64.add acc x
      | none => acc := by
  unfold billedStep Spec.contribution
  cases t.billedAmount <;> rfl

theorem partitionStep_eq (cash : Bool) (acc : F64) (t : Trip) :
    partitionStep cash acc t =
      if decide (t.isCash = .bool cash) = true then billedStep acc t else acc := by
  unfold partitionStep billedStep
  by_cases h : t.isCash = .bool cash
  · simp only [h, decide_True, if_true]
    cases t.billedAmount <;> rfl
  · simp only [h, decide_False, Bool.false_eq_true, if_false]

theorem sumTotalBilled_eq (trips : List Trip) :
    sumTotalBilled trips = Spec.sumWhere (fun _ => true) trips := by
  simp [sumTotalBilled, Spec.sumWhere]

theorem sumTotalCashBilled_eq (trips : List Trip) :
    sumTotalCashBilled trips = Spec.sumWhere (fun t => decide (t.isCash = .bool true)) trips := by
  unfold sumTotalCashBilled Spec.sumWhere
  congr 1
  funext acc t
  exact partitionStep_eq true acc t

theorem sumNonTotalCashBilled_eq (trips : List Trip) :
    sumNonTotalCashBilled trips =
      Spec.sumWhere (fun t => decide (t.isCash = .bool false)) trips := by
  unfold sumNonTotalCashBilled Spec.sumWhere
  congr 1
  funext acc t
  exact partitionStep_eq false acc t

theorem driverBilled_eq (driver : String) (trips : List Trip) :
    driverBilled driver trips = Spec.sumWhere (fun t => decide (t.driverID = driver)) trips := by
  unfold driverBilled Spec.sumWhere
  congr 1
  funext acc t
  unfold billedStep
  by_cases h : t.driverID = driver
  · simp only [h, decide_True, if_true]
    cases t.billedAmount <;> rfl
  · simp only [h, decide_False, Bool.false_eq_true, if_false]

/-- Summing over the filtered trips is summing over the trips that pass the filter. -/
theorem foldl_filter_billedStep (p : Trip → Bool) (trips : List Trip) :
    ∀ acc : F64, (trips.filter p).foldl billedStep acc =
      trips.foldl (fun acc t => if p t then billedStep acc t else acc) acc := by
  induction trips with
  | nil => intro acc; rfl
  | cons t ts ih =>
    intro acc
    by_cases h : p t = true
    · simp only [List.filter_cons, h, if_true, List.foldl_cons, ih]
    · simp only [List.filter_cons, h, Bool.false_eq_true, if_false, List.foldl_cons, ih]

/-- The total of a driver in `driverTotalContainer` is the sum over the driver's trips. -/
theorem driverTotalContainer_eq (trips : List Trip) :
    driverTotalContainer trips = (driverUnique trips).map (fun key =>
      { driverID := key,
        totalAmount := Spec.sumWhere (fun t => decide (t.driverID = key)) trips,
        noOfTrips := (trips.filter (fun trip => trip.driverID = key)).length }) := by
  unfold driverTotalContainer Spec.sumWhere
  simp only [foldl_filter_billedStep]

end Analysis

/-- C5. In the reducers of `analysis`, a numeric `billedAmount` is added as it is (and a
single such trip sums to that number), and a string `billedAmount` is added as the number
`parseFloat` reads in the string with every comma deleted; when what is left is a decimal
numeral, digits `ip` optionally followed by a point and digits `fp`, that number is the
double nearest to the value of the numeral. So the number 1234.5 and the string `1,234.50`
both contribute 1234.5. The cash, non-cash and per-driver reducers are the same reducer
applied to the trips they select. -/
theorem billedStep_normalizes :
    (∀ (acc : F64) (t : Trip) (x : F64), t.billedAmount = .num x →
      Analysis.billedStep acc t = F64.add acc x) ∧
    (∀ (t : Trip) (x : F64), t.billedAmount = .num x → x ≠ F64.negZero →
      Analysis.sumTotalBilled [t] = x) ∧
    (∀ (acc : F64) (t : Trip) (s : String), t.billedAmount = .str s →
      Analysis.billedStep acc t = F64.add acc (JS.parseFloat (JS.removeCommas s))) ∧
    (∀ s : String, (JS.removeCommas s).data = s.data.filter (fun c => c != ',') ∧
      ',' ∉ (JS.removeCommas s).data) ∧
    (∀ (s : String) (ip fp : List Char), ip ≠ [] → (∀ c ∈ ip, JS.isDigit c = true) →
      (∀ c ∈ fp, JS.isDigit c = true) →
      ((JS.removeCommas s).data = ip →
        JS.parseFloat (JS.removeCommas s) = F64.ofDecimal false (JS.digitsVal ip) 0) ∧
      ((JS.removeCommas s).data = ip ++ '.' :: fp →
        JS.parseFloat (JS.removeCommas s) =
          F64.ofDecimal false (JS.digitsVal (ip ++ fp)) (-(fp.length : Int)))) ∧
    Analysis.sumTotalBilled Sample.numberTrip = F64.ofRatio 2469 2 ∧
    Analysis.sumTotalBilled Sample.commaTrip = F64.ofRatio 2469 2 ∧
    JS.numberToString (F64.ofRatio 2469 2) = "1234.5" ∧
    (∀ (cash : Bool) (acc : F64) (t : Trip), Analysis.partitionStep cash acc t =
      if decide (t.isCash = .bool cash) = true then Analysis.billedStep acc t else acc) ∧
    (∀ (driver : String) (trips : List Trip), Analysis.driverBilled driver trips =
      (trips.filter (fun t => decide (t.driverID = driver))).foldl
        Analysis.billedStep F64.zero) := by
  refine ⟨?_, ?_, ?_, ?_, ?_, by decide, by decide, by decide,
    Analysis.partitionStep_eq, ?_⟩
  rotate_right
  · intro driver trips
    rw [Analysis.driverBilled_eq, Analysis.foldl_filter_billedStep]
    rfl
  · intro acc t x h
    simp [Analysis.billedStep, h]
  · intro t x h hx
    simp only [Analysis.sumTotalBilled, List.foldl, Analysis.billedStep, h]
    cases x with
    | nan => rfl
    | inf s => rfl
    | fin s m =>
      simp only [F64.add, F64.zero, if_true]
      split
      · rename_i hm
        subst hm
        cases s
        · rfl
        · exact absurd rfl hx
      · rfl
  · intro acc t s h
    simp [Analysis.billedStep, h]
  · intro s
    refine ⟨rfl, ?_⟩
    rw [JS.removeCommas_data]
    intro h
    have := (List.mem_filter.mp h).2
    simp at this
  · intro s ip fp hne hip hfp
    exact ⟨fun h => JS.parseFloat_numeral_digits _ ip hne hip h,
      fun h => JS.parseFloat_numeral_point _ ip fp hne hip hfp h⟩

namespace Analysis

/-- What a produced summary holds: both picks exist, both lookups succeed, and the fields
are those of lines 160-181. -/
theorem analysis_eq_some {trips : List Trip} {getDriver : String → Option DriverInfo}
    {s : FleetSummary} (h : analysis (.ok trips) getDriver = some s) :
    ∃ maxDriverID maxDriverTrips maxDriverDetails highest highestDriverInfo,
      (sortedEntries trips).head? = some (maxDriverID, maxDriverTrips) ∧
      getDriver maxDriverID = some maxDriverDetails ∧
      (sortedTotals trips).head? = some highest ∧
      getDriver highest.driverID = some highestDriverInfo ∧
      s = { noOfCashTrips := (cashTrips trips).length
            noOfNonCashTrips := (nonCashTrips trips).length
            billedTotal := roundTo2 (sumTotalBilled trips)
            cashBilledTotal := sumTotalCashBilled trips
            nonCashBilledTotal := roundTo2 (sumNonTotalCashBilled trips)
            noOfDriversWithMoreThanOneVehicle := multiVehicles getDriver trips
            mostTripsByDriver :=
              { name := maxDriverDetails.name
                email := maxDriverDetails.email
                phone := maxDriverDetails.phone
                noOfTrips := maxDriverTrips
                totalAmountEarned := driverBilled maxDriverID trips }
            highestEarningDriver :=
              { name := highestDriverInfo.name
                email := highestDriverInfo.email
                phone := highestDriverInfo.phone
                noOfTrips := highest.noOfTrips
                totalAmountEarned := highest.totalAmount } } := by
  unfold analysis at h
  simp only at h
  split at h
  · cases h
  · rename_i maxDriverID maxDriverTrips h1
    split at h
    · cases h
    · rename_i maxDriverDetails h2
      split at h
      · cases h
      · rename_i highest h3
        split at h
        · cases h
        · rename_i highestDriverInfo h4
          injection h with h
          exact ⟨maxDriverID, maxDriverTrips, maxDriverDetails, highest, highestDriverInfo,
            h1, h2, h3, h4, h.symm⟩

theorem roundTo2_nan : roundTo2 F64.nan = F64.nan := by decide

end Analysis

namespace Spec

open JS Analysis

theorem billedStep_nan (t : Trip) : billedStep F64.nan t = F64.nan := by
  rw [billedStep_eq]
  cases contribution t.billedAmount <;> simp

theorem foldl_step_nan (p : Trip → Bool) (trips : List Trip) :
    trips.foldl (fun acc t => if p t then billedStep acc t else acc) F64.nan = F64.nan := by
  induction trips with
  | nil => rfl
  | cons t ts ih =>
    simp only [List.foldl_cons, billedStep_nan, ite_self]
    exact ih

/-- A sum that a string read as NaN enters is NaN. -/
theorem sumWhere_nan (p : Trip → Bool) (trips : List Trip) (t : Trip) (s : String)
    (ht : t ∈ trips) (hp : p t = true) (hs : t.billedAmount = .str s)
    (hbad : parseFloat (removeCommas s) = F64.nan) : sumWhere p trips = F64.nan := by
  unfold sumWhere
  generalize F64.zero = acc
  induction trips generalizing acc with
  | nil => simp at ht
  | cons u us ih =>
    simp only [List.foldl_cons]
    rcases List.mem_cons.mp ht with h | h
    · subst h
      have : billedStep acc t = F64.nan := by
        simp [billedStep, hs, hbad]
      rw [if_pos hp, this]
      exact foldl_step_nan p us
    · exact ih h _

end Spec

/-- C6, as amended. A trip whose `billedAmount` is a string in which `parseFloat` reads no
number (once the commas are deleted) contributes NaN: whatever the other trips are, the
overall sum is NaN, the cash sum is NaN when its `isCash` is `true`, the non-cash sum is
NaN when its `isCash` is `false`, and the total of its driver is NaN, both in the sum of
lines 108-119 and in `driverTotalContainer`; the `billedTotal` of a produced summary is
NaN. The reducers are total: they do not throw. -/
theorem billed_sums_nan_of_unreadable (trips : List Trip) (t : Trip) (s : String)
    (ht : t ∈ trips) (hs : t.billedAmount = .str s)
    (hbad : JS.parseFloat (JS.removeCommas s) = F64.nan) :
    Analysis.sumTotalBilled trips = F64.nan ∧
    (t.isCash = .bool true → Analysis.sumTotalCashBilled trips = F64.nan) ∧
    (t.isCash = .bool false → Analysis.sumNonTotalCashBilled trips = F64.nan) ∧
    Analysis.driverBilled t.driverID trips = F64.nan ∧
    (∀ d ∈ Analysis.driverTotalContainer trips, d.driverID = t.driverID →
      d.totalAmount = F64.nan) ∧
    (∀ getDriver summary, Analysis.analysis (.ok trips) getDriver = some summary →
      summary.billedTotal = F64.nan) := by
  refine ⟨?_, ?_, ?_, ?_, ?_, ?_⟩
  · rw [Analysis.sumTotalBilled_eq]
    exact Spec.sumWhere_nan _ trips t s ht rfl hs hbad
  · intro hc
    rw [Analysis.sumTotalCashBilled_eq]
    exact Spec.sumWhere_nan _ trips t s ht (by simp [hc]) hs hbad
  · intro hc
    rw [Analysis.sumNonTotalCashBilled_eq]
    exact Spec.sumWhere_nan _ trips t s ht (by simp [hc]) hs hbad
  · rw [Analysis.driverBilled_eq]
    exact Spec.sumWhere_nan _ trips t s ht (by simp) hs hbad
  · intro d hd hid
    rw [Analysis.driverTotalContainer_eq] at hd
    obtain ⟨key, _, rfl⟩ := List.mem_map.mp hd
    simp only at hid ⊢
    subst hid
    exact Spec.sumWhere_nan _ trips t s ht (by simp) hs hbad
  · intro getDriver summary h
    obtain ⟨_, _, _, _, _, _, _, _, _, rfl⟩ := Analysis.analysis_eq_some h
    simp only
    rw [Analysis.sumTotalBilled_eq, Spec.sumWhere_nan _ trips t s ht rfl hs hbad]
    exact Analysis.roundTo2_nan

/-- The sample trips of which the first is billed the string `bad`. -/
theorem billed_sums_nan_of_unreadable_witness :
    Analysis.sumTotalBilled Sample.badAmount = F64.nan ∧
    (JSVal.bool true = .bool true → Analysis.sumTotalCashBilled Sample.badAmount = F64.nan) ∧
    (JSVal.bool true = .bool false →
      Analysis.sumNonTotalCashBilled Sample.badAmount = F64.nan) ∧
    Analysis.driverBilled "ghost" Sample.badAmount = F64.nan ∧
    (∀ d ∈ Analysis.driverTotalContainer Sample.badAmount, d.driverID = "ghost" →
      d.totalAmount = F64.nan) ∧
    (∀ getDriver summary, Analysis.analysis (.ok Sample.badAmount) getDriver = some summary →
      summary.billedTotal = F64.nan) :=
  billed_sums_nan_of_unreadable Sample.badAmount
    (Sample.trip "ghost" (.bool true) (.str "bad") "ABC") "bad" (by decide) rfl (by decide)

/-- C6 fails as stated. With a first trip billed the string `bad`, the overall sum, the
cash sum and the total of its driver are NaN; with that amount replaced by the number 0
they are 200, 0 and 0. The trip can also make the operation fail: its driver `ghost`,
whose lookup fails, comes first among the totals (NaN compares as equal), so `analysis`
resolves with `undefined`; with the amount 0 the driver `d2` comes first and `analysis`
produces a summary. -/
theorem billed_sums_unreadable_not_zero :
    (Analysis.sumTotalBilled Sample.badAmount = F64.nan ∧
      Analysis.sumTotalCashBilled Sample.badAmount = F64.nan ∧
      Analysis.driverBilled "ghost" Sample.badAmount = F64.nan ∧
      Analysis.analysis (.ok Sample.badAmount) Sample.lookup = none) ∧
    (Analysis.sumTotalBilled
        (Spec.zeroAmount (Sample.trip "ghost" (.bool true) (.str "bad") "ABC") ::
          Sample.badAmount.tail) = F64.ofNat 200 ∧
      Analysis.sumTotalCashBilled
        (Spec.zeroAmount (Sample.trip "ghost" (.bool true) (.str "bad") "ABC") ::
          Sample.badAmount.tail) = F64.zero ∧
      Analysis.driverBilled "ghost"
        (Spec.zeroAmount (Sample.trip "ghost" (.bool true) (.str "bad") "ABC") ::
          Sample.badAmount.tail) = F64.zero ∧
      (Analysis.analysis
        (.ok (Spec.zeroAmount (Sample.trip "ghost" (.bool true) (.str "bad") "ABC") ::
          Sample.badAmount.tail)) Sample.lookup).isSome = true) := by
  refine ⟨⟨by decide, by decide, by decide, by decide⟩, by decide, by decide, by decide,
    by decide⟩

namespace Spec

open JS Analysis

theorem billedStep_ne_negZero (acc : F64) (t : Trip) (h : acc ≠ F64.negZero) :
    billedStep acc t ≠ F64.negZero := by
  rw [billedStep_eq]
  cases contribution t.billedAmount with
  | none => exact h
  | some x => exact F64.add_ne_negZero acc x h

theorem billedStep_zeroOthers (acc : F64) (t : Trip) (h : acc ≠ F64.negZero) :
    billedStep acc (zeroOthers t) = billedStep acc t := by
  unfold zeroOthers
  cases hb : t.billedAmount with
  | num x => rfl
  | str s => rfl
  | undefined => simp [billedStep, hb, F64.add_zero_right acc h]
  | null => simp [billedStep, hb, F64.add_zero_right acc h]
  | bool b => simp [billedStep, hb, F64.add_zero_right acc h]
  | obj o => simp [billedStep, hb, F64.add_zero_right acc h]

theorem zeroOthers_isCash (t : Trip) : (zeroOthers t).isCash = t.isCash := by
  unfold zeroOthers
  cases t.billedAmount <;> rfl

theorem zeroOthers_driverID (t : Trip) : (zeroOthers t).driverID = t.driverID := by
  unfold zeroOthers
  cases t.billedAmount <;> rfl

/-- Replacing the amounts that are neither numbers nor strings by 0 changes no sum. -/
theorem sumWhere_zeroOthers (p : Trip → Bool) (hp : ∀ t, p (zeroOthers t) = p t)
    (trips : List Trip) : sumWhere p (trips.map zeroOthers) = sumWhere p trips := by
  unfold sumWhere
  have hz : F64.zero ≠ F64.negZero := by decide
  revert hz
  generalize F64.zero = acc
  induction trips generalizing acc with
  | nil => intro _; rfl
  | cons t ts ih =>
    intro hacc
    simp only [List.map_cons, List.foldl_cons, hp]
    by_cases h : p t = true
    · simp only [h, if_true, billedStep_zeroOthers acc t hacc]
      exact ih _ (billedStep_ne_negZero acc t hacc)
    · simp only [h, Bool.false_eq_true, if_false]
      exact ih _ hacc

end Spec

/-- C7. Replacing by the number 0 the `billedAmount` of every trip where it is neither a
number nor a string changes none of the billed sums of `analysis`: the overall sum, the
cash sum, the non-cash sum, the total of every driver (lines 108-119) and
`driverTotalContainer`. -/
theorem billed_sums_zeroOthers (trips : List Trip) :
    Analysis.sumTotalBilled (trips.map Spec.zeroOthers) = Analysis.sumTotalBilled trips ∧
    Analysis.sumTotalCashBilled (trips.map Spec.zeroOthers) =
      Analysis.sumTotalCashBilled trips ∧
    Analysis.sumNonTotalCashBilled (trips.map Spec.zeroOthers) =
      Analysis.sumNonTotalCashBilled trips ∧
    (∀ driver, Analysis.driverBilled driver (trips.map Spec.zeroOthers) =
      Analysis.driverBilled driver trips) ∧
    Analysis.driverTotalContainer (trips.map Spec.zeroOthers) =
      Analysis.driverTotalContainer trips := by
  refine ⟨?_, ?_, ?_, ?_, ?_⟩
  · simp only [Analysis.sumTotalBilled_eq]
    exact Spec.sumWhere_zeroOthers (fun _ => true) (fun _ => rfl) trips
  · simp only [Analysis.sumTotalCashBilled_eq]
    exact Spec.sumWhere_zeroOthers _ (fun t => by simp only [Spec.zeroOthers_isCash]) trips
  · simp only [Analysis.sumNonTotalCashBilled_eq]
    exact Spec.sumWhere_zeroOthers _ (fun t => by simp only [Spec.zeroOthers_isCash]) trips
  · intro driver
    simp only [Analysis.driverBilled_eq]
    exact Spec.sumWhere_zeroOthers _ (fun t => by simp only [Spec.zeroOthers_driverID]) trips
  · simp only [Analysis.driverTotalContainer_eq]
    have hu : Analysis.driverUnique (trips.map Spec.zeroOthers) = Analysis.driverUnique trips := by
      simp [Analysis.driverUnique, Analysis.driverIds, List.map_map, Function.comp_def,
        Spec.zeroOthers_driverID]
    rw [hu]
    apply List.map_congr_left
    intro key _
    have h1 := Spec.sumWhere_zeroOthers (fun t => decide (t.driverID = key))
      (fun t => by simp only [Spec.zeroOthers_driverID]) trips
    have h2 : ((trips.map Spec.zeroOthers).filter (fun trip => trip.driverID = key)).length =
        (trips.filter (fun trip => trip.driverID = key)).length := by
      rw [List.filter_map, List.length_map]
      congr 1
      apply List.filter_congr
      intro t _
      simp [Function.comp_def, Spec.zeroOthers_driverID]
    rw [h1, h2]

/-! ## The summary of the analysis -/

namespace Analysis

theorem length_filter_add_le (trips : List Trip) :
    (cashTrips trips).length + (nonCashTrips trips).length ≤ trips.length ∧
    ((cashTrips trips).length + (nonCashTrips trips).length = trips.length ↔
      ∀ t ∈ trips, t.isCash = .bool true ∨ t.isCash = .bool false) := by
  induction trips with
  | nil => simp [cashTrips, nonCashTrips]
  | cons t ts ih =>
    simp only [cashTrips, nonCashTrips] at ih ⊢
    have e1 : (List.filter (fun obj => decide (obj.isCash = JSVal.bool true)) (t :: ts)).length =
        (List.filter (fun obj => decide (obj.isCash = JSVal.bool true)) ts).length +
          (if t.isCash = .bool true then 1 else 0) := by
      by_cases h : t.isCash = .bool true <;> simp [List.filter_cons, h]
    have e2 : (List.filter (fun obj => decide (obj.isCash = JSVal.bool false)) (t :: ts)).length =
        (List.filter (fun obj => decide (obj.isCash = JSVal.bool false)) ts).length +
          (if t.isCash = .bool false then 1 else 0) := by
      by_cases h : t.isCash = .bool false <;> simp [List.filter_cons, h]
    rw [e1, e2]
    simp only [List.length_cons, List.mem_cons, forall_eq_or_imp]
    by_cases h1 : t.isCash = .bool true
    · have h2 : ¬ t.isCash = .bool false := by rw [h1]; simp
      rw [if_pos h1, if_neg h2]
      refine ⟨by omega, ?_⟩
      rw [← ih.2]
      constructor
      · intro h; exact ⟨Or.inl h1, by omega⟩
      · intro h; omega
    · by_cases h2 : t.isCash = .bool false
      · rw [if_neg h1, if_pos h2]
        refine ⟨by omega, ?_⟩
        rw [← ih.2]
        constructor
        · intro h; exact ⟨Or.inr h2, by omega⟩
        · intro h; omega
      · rw [if_neg h1, if_neg h2]
        refine ⟨by omega, ?_⟩
        constructor
        · intro h; omega
        · intro h; rcases h.1 with h | h
          · exact absurd h h1
          · exact absurd h h2

end Analysis

/-- C8. For every trip list for which `analysis` produces a summary,
`noOfCashTrips + noOfNonCashTrips` is at most the number of trips, and equals it exactly
when the `isCash` of every trip is `true` or `false`. -/
theorem analysis_cash_counts (trips : List Trip) (getDriver : String → Option DriverInfo)
    (s : Analysis.FleetSummary) (h : Analysis.analysis (.ok trips) getDriver = some s) :
    s.noOfCashTrips + s.noOfNonCashTrips ≤ trips.length ∧
    (s.noOfCashTrips + s.noOfNonCashTrips = trips.length ↔
      ∀ t ∈ trips, t.isCash = .bool true ∨ t.isCash = .bool false) := by
  obtain ⟨_, _, _, _, _, _, _, _, _, rfl⟩ := Analysis.analysis_eq_some h
  exact Analysis.length_filter_add_le trips

/-- The three sample trips: one cash trip, one non-cash trip and one with `isCash` absent. -/
theorem analysis_cash_counts_witness :
    Sample.threeTripsSummary.noOfCashTrips + Sample.threeTripsSummary.noOfNonCashTrips ≤
      Sample.threeTrips.length ∧
    (Sample.threeTripsSummary.noOfCashTrips + Sample.threeTripsSummary.noOfNonCashTrips =
        Sample.threeTrips.length ↔
      ∀ t ∈ Sample.threeTrips, t.isCash = .bool true ∨ t.isCash = .bool false) :=
  analysis_cash_counts Sample.threeTrips Sample.lookup Sample.threeTripsSummary (by decide)

namespace JS

theorem setAdd_nodup (s : List String) (x : String) (h : s.Nodup) : (setAdd s x).Nodup := by
  unfold setAdd
  split
  · exact h
  · rename_i hx
    exact List.Nodup.append h (List.nodup_singleton _) (by simpa using hx)

theorem mem_setAdd (s : List String) (x y : String) : y ∈ setAdd s x ↔ y ∈ s ∨ y = x := by
  unfold setAdd
  split
  · rename_i hx
    constructor
    · intro h; exact Or.inl h
    · intro h
      rcases h with h | h
      · exact h
      · rw [h]; exact hx
  · simp

theorem foldl_setAdd (xs : List String) :
    ∀ s : List String, s.Nodup →
      (xs.foldl setAdd s).Nodup ∧ ∀ y, y ∈ xs.foldl setAdd s ↔ y ∈ s ∨ y ∈ xs := by
  induction xs with
  | nil => intro s h; simp [h]
  | cons x xs ih =>
    intro s h
    have := ih (setAdd s x) (setAdd_nodup s x h)
    refine ⟨this.1, ?_⟩
    intro y
    simp only [List.foldl_cons, this.2, mem_setAdd, List.mem_cons]
    constructor
    · rintro ((h | h) | h)
      · exact Or.inl h
      · exact Or.inr (Or.inl h)
      · exact Or.inr (Or.inr h)
    · rintro (h | h | h)
      · exact Or.inl (Or.inl h)
      · exact Or.inl (Or.inr h)
      · exact Or.inr h

theorem setOf_nodup (xs : List String) : (setOf xs).Nodup :=
  (foldl_setAdd xs [] List.nodup_nil).1

theorem mem_setOf (xs : List String) (y : String) : y ∈ setOf xs ↔ y ∈ xs := by
  have := (foldl_setAdd xs [] List.nodup_nil).2 y
  simpa using this

theorem setOf_toFinset (xs : List String) : (setOf xs).toFinset = xs.toFinset := by
  ext y
  simp [mem_setOf]

end JS

namespace Analysis

open JS

theorem foldl_count (q : DriverInfo → Bool) (l : List DriverInfo) :
    ∀ n : Nat, l.foldl (fun acc obj => if q obj = true then acc + 1 else acc) n =
      n + (l.filter q).length := by
  induction l with
  | nil => intro n; rfl
  | cons x xs ih =>
    intro n
    by_cases h : q x = true
    · simp only [List.foldl_cons, h, if_true, ih, List.filter_cons, List.length_cons]
      omega
    · simp only [List.foldl_cons, h, Bool.false_eq_true, if_false, ih, List.filter_cons]

theorem filter_filterMap_length (getDriver : String → Option DriverInfo) (l : List String) :
    ((l.filterMap getDriver).filter (fun obj => decide (1 < obj.vehicleID.length))).length =
      (l.filter (Spec.ownsSeveral getDriver)).length := by
  induction l with
  | nil => rfl
  | cons x xs ih =>
    unfold Spec.ownsSeveral at ih ⊢
    cases h : getDriver x with
    | none => simp [List.filterMap_cons, List.filter_cons, h, ih]
    | some info =>
      by_cases hv : 1 < info.vehicleID.length
      · simp [List.filterMap_cons, List.filter_cons, h, hv, ih]
      · simp [List.filterMap_cons, List.filter_cons, h, hv, ih]

/-- The count of lines 82-88 is the number of distinct drivers of the trips whose lookup
succeeds with more than one vehicle. -/
theorem multiVehicles_eq_card (getDriver : String → Option DriverInfo) (trips : List Trip) :
    multiVehicles getDriver trips =
      ((trips.map (fun t => t.driverID)).toFinset.filter
        (fun d => Spec.ownsSeveral getDriver d = true)).card := by
  unfold multiVehicles fulfilledDrivers
  have h := foldl_count (fun obj => decide (1 < obj.vehicleID.length))
    ((driverUnique trips).filterMap getDriver) 0
  simp only [decide_eq_true_eq, Nat.zero_add] at h
  rw [h, filter_filterMap_length]
  unfold driverUnique driverIds
  rw [← setOf_toFinset, ← List.toFinset_filter,
    List.toFinset_card_of_nodup ((setOf_nodup _).filter _)]

end Analysis

/-- C10. For every trip list and driver lookup for which `analysis` produces a summary,
`noOfDriversWithMoreThanOneVehicle` is the number of distinct driver identifiers of the
trips whose lookup succeeds with a `vehicleID` of length greater than 1: a driver counts
once however many trips it has, and a driver whose lookup fails does not count. -/
theorem analysis_multiVehicle_count (trips : List Trip)
    (getDriver : String → Option DriverInfo) (s : Analysis.FleetSummary)
    (h : Analysis.analysis (.ok trips) getDriver = some s) :
    s.noOfDriversWithMoreThanOneVehicle =
      ((trips.map (fun t => t.driverID)).toFinset.filter
        (fun d => Spec.ownsSeveral getDriver d = true)).card := by
  obtain ⟨_, _, _, _, _, _, _, _, _, rfl⟩ := Analysis.analysis_eq_some h
  exact Analysis.multiVehicles_eq_card getDriver trips

/-- The four sample trips of `d1` (two vehicles, two trips), `ghost` (lookup fails) and `d2`
(one vehicle): one driver counts. -/
theorem analysis_multiVehicle_count_witness :
    Sample.fleetSummary.noOfDriversWithMoreThanOneVehicle =
      ((Sample.fleetTrips.map (fun t => t.driverID)).toFinset.filter
        (fun d => Spec.ownsSeveral Sample.lookup d = true)).card ∧
    Sample.fleetSummary.noOfDriversWithMoreThanOneVehicle = 1 ∧
    (Sample.fleetTrips.map (fun t => t.driverID)).toFinset.card = 3 ∧
    Sample.lookup "ghost" = none :=
  ⟨analysis_multiVehicle_count Sample.fleetTrips Sample.lookup Sample.fleetSummary (by decide),
    rfl, by decide, rfl⟩

/-! ## The overall sum and the partition sums -/

namespace Spec

open JS Analysis

theorem exactNumber_iff (c : Nat) (x : F64) :
    exactNumber c x = true ↔ ∃ m, x = .fin false m ∧ 2 ^ c ∣ m := by
  cases x with
  | fin s m =>
    cases s
    · simp [exactNumber, Nat.dvd_iff_mod_eq_zero]
    · simp [exactNumber]
  | _ => simp [exactNumber]

theorem unitsWhere_cons (p : Trip → Bool) (t : Trip) (ts : List Trip) :
    unitsWhere p (t :: ts) = (if p t = true then contributionUnits t else 0) + unitsWhere p ts := by
  unfold unitsWhere
  by_cases h : p t = true
  · simp [List.filter_cons, h]
  · simp [List.filter_cons, h]

/-- When the contributions are exact and total less than `2^(c+53)` units, a sum over the
trips that satisfy `p` is the exact sum of their contributions. -/
theorem foldl_step_exact (c : Nat) (hc : c ≤ 2045) (p : Trip → Bool) (trips : List Trip) :
    ∀ a : Nat, 2 ^ c ∣ a →
      (∀ t ∈ trips, ∀ x, contribution t.billedAmount = some x → exactNumber c x = true) →
      a + unitsWhere (fun _ => true) trips < 2 ^ (c + 53) →
      trips.foldl (fun acc t => if p t then billedStep acc t else acc) (.fin false a) =
          .fin false (a + unitsWhere p trips) ∧
        2 ^ c ∣ a + unitsWhere p trips ∧
        unitsWhere p trips ≤ unitsWhere (fun _ => true) trips := by
  induction trips with
  | nil => intro a ha _ _; simp [unitsWhere, ha]
  | cons t ts ih =>
    intro a ha hall hsum
    have hall2 : ∀ u ∈ ts, ∀ x, contribution u.billedAmount = some x →
        exactNumber c x = true := fun u hu => hall u (List.mem_cons_of_mem _ hu)
    rw [unitsWhere_cons] at hsum
    simp only [if_true] at hsum
    rw [unitsWhere_cons p, unitsWhere_cons (fun _ => true)]
    simp only [List.foldl_cons, if_true]
    cases hx : contribution t.billedAmount with
    | none =>
      have hu : contributionUnits t = 0 := by simp [contributionUnits, hx]
      have hb : ∀ acc, billedStep acc t = acc := by
        intro acc; rw [billedStep_eq, hx]
      rw [hu] at hsum ⊢
      simp only [hb, ite_self, Nat.zero_add]
      exact ih a ha hall2 (by omega)
    | some x =>
      obtain ⟨m, rfl, hm⟩ := (exactNumber_iff c x).mp (hall t (List.mem_cons_self _ _) x hx)
      have hu : contributionUnits t = m := by simp [contributionUnits, hx, units]
      rw [hu] at hsum ⊢
      by_cases hp : p t = true
      · have hb : billedStep (.fin false a) t = .fin false (a + m) := by
          rw [billedStep_eq, hx]
          exact F64.add_exact c a m hc ha hm (by omega)
        simp only [hp, if_true, hb]
        have := ih (a + m) (Nat.dvd_add ha hm) hall2 (by omega)
        refine ⟨?_, ?_, by omega⟩
        · rw [this.1]; congr 1; omega
        · have e : a + (m + unitsWhere p ts) = a + m + unitsWhere p ts := by omega
          rw [e]; exact this.2.1
      · simp only [hp, Bool.false_eq_true, if_false, Nat.zero_add]
        have := ih a ha hall2 (by omega)
        exact ⟨this.1, this.2.1, by omega⟩

theorem sumWhere_exact (c : Nat) (hc : c ≤ 2045) (p : Trip → Bool) (trips : List Trip)
    (hall : ∀ t ∈ trips, ∀ x, contribution t.billedAmount = some x → exactNumber c x = true)
    (hsum : unitsWhere (fun _ => true) trips < 2 ^ (c + 53)) :
    sumWhere p trips = .fin false (unitsWhere p trips) ∧ 2 ^ c ∣ unitsWhere p trips ∧
      unitsWhere p trips ≤ unitsWhere (fun _ => true) trips := by
  have := foldl_step_exact c hc p trips 0 (Nat.dvd_zero _) hall (by omega)
  simpa [sumWhere, F64.zero] using this

/-- The contributions split into those of the cash trips, of the non-cash trips and of the
trips whose `isCash` is neither `true` nor `false`. -/
theorem unitsWhere_partition (trips : List Trip) :
    unitsWhere (fun _ => true) trips =
      unitsWhere (fun t => decide (t.isCash = .bool true)) trips +
        unitsWhere (fun t => decide (t.isCash = .bool false)) trips +
        unitsWhere (fun t => !cleanBoolean t) trips := by
  induction trips with
  | nil => rfl
  | cons t ts ih =>
    simp only [unitsWhere_cons, ih, cleanBoolean, if_true]
    by_cases h1 : t.isCash = .bool true
    · have h2 : ¬ t.isCash = .bool false := by rw [h1]; simp
      simp [h1]
      omega
    · by_cases h2 : t.isCash = .bool false
      · simp [h2]
        omega
      · simp [h1, h2]
        omega

/-- A sum over trips that satisfy `p` ignores the trips that fail a weaker test `q`. -/
theorem sumWhere_filter (p q : Trip → Bool) (hpq : ∀ t, p t = true → q t = true)
    (trips : List Trip) : sumWhere p (trips.filter q) = sumWhere p trips := by
  unfold sumWhere
  generalize F64.zero = acc
  induction trips generalizing acc with
  | nil => rfl
  | cons t ts ih =>
    by_cases hq : q t = true
    · simp only [List.filter_cons, hq, if_true, List.foldl_cons, ih]
    · have hp : ¬ p t = true := fun c => hq (hpq t c)
      simp only [List.filter_cons, hq, Bool.false_eq_true, if_false, List.foldl_cons, hp, ih]

theorem sumWhere_eq_zero_of_none (p : Trip → Bool) (trips : List Trip)
    (h : ∀ t ∈ trips, p t = false) : sumWhere p trips = F64.zero := by
  unfold sumWhere
  generalize F64.zero = acc
  induction trips generalizing acc with
  | nil => rfl
  | cons t ts ih =>
    simp only [List.foldl_cons, h t (List.mem_cons_self _ _), Bool.false_eq_true, if_false]
    exact ih (fun u hu => h u (List.mem_cons_of_mem _ hu)) acc

end Spec

/-- C9, as amended. Before rounding: the trips whose `isCash` is neither `true` nor `false`
enter neither partition sum and neither count (dropping them changes none of the four),
every trip enters the overall sum, and the sum of the trips that are in neither partition
is `+0` when every `isCash` is a boolean. The overall sum equals the cash sum plus the
non-cash sum plus the sum of the other trips when no addition rounds, which is so when
every contribution is a non-negative multiple of `2^c` units (of `2^-1074`) and the
contributions total less than `2^(c+53)` units. -/
theorem analysis_overall_eq_partition_sum (trips : List Trip) :
    Analysis.sumTotalCashBilled (trips.filter Spec.cleanBoolean) =
      Analysis.sumTotalCashBilled trips ∧
    Analysis.sumNonTotalCashBilled (trips.filter Spec.cleanBoolean) =
      Analysis.sumNonTotalCashBilled trips ∧
    Analysis.cashTrips (trips.filter Spec.cleanBoolean) = Analysis.cashTrips trips ∧
    Analysis.nonCashTrips (trips.filter Spec.cleanBoolean) = Analysis.nonCashTrips trips ∧
    (∀ t : Trip, Analysis.sumTotalBilled (trips ++ [t]) =
      Analysis.billedStep (Analysis.sumTotalBilled trips) t) ∧
    ((∀ t ∈ trips, t.isCash = .bool true ∨ t.isCash = .bool false) →
      Spec.sumWhere (fun t => !Spec.cleanBoolean t) trips = F64.zero) ∧
    (∀ c : Nat, c ≤ 2045 →
      (∀ t ∈ trips, ∀ x, Spec.contribution t.billedAmount = some x →
        Spec.exactNumber c x = true) →
      Spec.unitsWhere (fun _ => true) trips < 2 ^ (c + 53) →
      Analysis.sumTotalBilled trips =
        F64.add (F64.add (Analysis.sumTotalCashBilled trips)
          (Analysis.sumNonTotalCashBilled trips))
          (Spec.sumWhere (fun t => !Spec.cleanBoolean t) trips)) := by
  refine ⟨?_, ?_, ?_, ?_, ?_, ?_, ?_⟩
  · simp only [Analysis.sumTotalCashBilled_eq]
    exact Spec.sumWhere_filter _ _ (fun t h => by
      simp only [decide_eq_true_eq] at h
      simp [Spec.cleanBoolean, h]) trips
  · simp only [Analysis.sumNonTotalCashBilled_eq]
    exact Spec.sumWhere_filter _ _ (fun t h => by
      simp only [decide_eq_true_eq] at h
      simp [Spec.cleanBoolean, h]) trips
  · unfold Analysis.cashTrips
    rw [List.filter_filter]
    apply List.filter_congr
    intro t _
    by_cases h : t.isCash = .bool true <;> simp [Spec.cleanBoolean, h]
  · unfold Analysis.nonCashTrips
    rw [List.filter_filter]
    apply List.filter_congr
    intro t _
    by_cases h : t.isCash = .bool false <;> simp [Spec.cleanBoolean, h]
  · intro t
    simp [Analysis.sumTotalBilled, List.foldl_append]
  · intro h
    apply Spec.sumWhere_eq_zero_of_none
    intro t ht
    simp [Spec.cleanBoolean, h t ht]
  · intro c hc hall hsum
    have hT := Spec.sumWhere_exact c hc (fun _ => true) trips hall hsum
    have hA := Spec.sumWhere_exact c hc (fun t => decide (t.isCash = .bool true)) trips hall hsum
    have hB := Spec.sumWhere_exact c hc (fun t => decide (t.isCash = .bool false)) trips hall hsum
    have hR := Spec.sumWhere_exact c hc (fun t => !Spec.cleanBoolean t) trips hall hsum
    have hP := Spec.unitsWhere_partition trips
    rw [Analysis.sumTotalBilled_eq, Analysis.sumTotalCashBilled_eq,
      Analysis.sumNonTotalCashBilled_eq, hT.1, hA.1, hB.1, hR.1,
      F64.add_exact c _ _ hc hA.2.1 hB.2.1 (by omega),
      F64.add_exact c _ _ hc (Nat.dvd_add hA.2.1 hB.2.1) hR.2.1 (by omega), hP]

/-- The three sample trips, whose amounts are the whole numbers 100, 50 and 25. -/
theorem analysis_overall_eq_partition_sum_witness :
    Analysis.sumTotalBilled Sample.threeTrips =
        F64.add (F64.add (Analysis.sumTotalCashBilled Sample.threeTrips)
          (Analysis.sumNonTotalCashBilled Sample.threeTrips))
          (Spec.sumWhere (fun t => !Spec.cleanBoolean t) Sample.threeTrips) ∧
    Analysis.sumTotalBilled Sample.threeTrips = F64.ofNat 175 ∧
    Analysis.sumTotalCashBilled Sample.threeTrips = F64.ofNat 100 ∧
    Analysis.sumNonTotalCashBilled Sample.threeTrips = F64.ofNat 25 ∧
    Spec.sumWhere (fun t => !Spec.cleanBoolean t) Sample.threeTrips = F64.ofNat 50 :=
  ⟨(analysis_overall_eq_partition_sum Sample.threeTrips).2.2.2.2.2.2 1074 (by decide)
      (by decide) (by decide),
    by decide, by decide, by decide, by decide⟩

/-- C9 fails as stated. For the three trips billed 0.1 in cash and 0.2 and 0.3 by card,
every `isCash` is a boolean, the overall sum is 0.6000000000000001, the cash sum 0.1, the
non-cash sum 0.5, and the cash sum plus the non-cash sum (plus the `+0` of the other
trips) is 0.6. -/
theorem analysis_overall_ne_partition_sum :
    (∀ t ∈ Sample.tenths, t.isCash = .bool true ∨ t.isCash = .bool false) ∧
    Analysis.sumTotalBilled Sample.tenths = F64.ofDecimal false 6000000000000001 (-16) ∧
    Analysis.sumTotalCashBilled Sample.tenths = F64.ofRatio 1 10 ∧
    Analysis.sumNonTotalCashBilled Sample.tenths = F64.ofRatio 5 10 ∧
    F64.add (F64.add (Analysis.sumTotalCashBilled Sample.tenths)
        (Analysis.sumNonTotalCashBilled Sample.tenths))
      (Spec.sumWhere (fun t => !Spec.cleanBoolean t) Sample.tenths) = F64.ofRatio 6 10 ∧
    F64.add (Analysis.sumTotalCashBilled Sample.tenths)
      (Analysis.sumNonTotalCashBilled Sample.tenths) = F64.ofRatio 6 10 ∧
    F64.eq (Analysis.sumTotalBilled Sample.tenths) (F64.ofRatio 6 10) = false := by
  refine ⟨by decide, by decide, by decide, by decide, by decide, by decide, by decide⟩

/-- The numeric billed amounts of the sample trips are doubles. -/
theorem sample_amounts_valid :
    ∀ t ∈ Sample.threeTrips ++ Sample.tenths ++ Sample.numberTrip ++ Sample.badAmount ++
        Sample.fleetTrips,
      (match t.billedAmount with
        | .num x => F64.Valid x
        | _ => true) = true := by
  decide

/-! ## Failures of the lookups and of the fetch -/

namespace Analysis

open JS

theorem countStep_keys (count : List (String × CountVal)) (i : String) :
    ∀ k ∈ (countStep count i).map Prod.fst, k ∈ count.map Prod.fst ∨ k = i := by
  intro k hk
  unfold countStep at hk
  split at hk
  · rw [modifyOwn_keys] at hk; exact Or.inl hk
  · split at hk
    · split at hk
      · exact Or.inl hk
      · simp only [List.map_append, List.map_cons, List.map_nil, List.mem_append,
          List.mem_singleton] at hk
        exact hk
    · simp only [List.map_append, List.map_cons, List.map_nil, List.mem_append,
        List.mem_singleton] at hk
      exact hk

theorem foldl_countStep_keys (ids : List String) :
    ∀ count : List (String × CountVal),
      ∀ k ∈ (ids.foldl countStep count).map Prod.fst, k ∈ count.map Prod.fst ∨ k ∈ ids := by
  induction ids with
  | nil => intro c k hk; exact Or.inl hk
  | cons i is ih =>
    intro c k hk
    rcases ih _ k hk with h | h
    · rcases countStep_keys c i k h with h2 | h2
      · exact Or.inl h2
      · exact Or.inr (by rw [h2]; exact List.mem_cons_self _ _)
    · exact Or.inr (List.mem_cons_of_mem _ h)

theorem sortBy_perm {α : Type} (compare : α → α → F64) (xs : List α) :
    (sortBy compare xs).Perm xs :=
  List.perm_insertionSort _ _

/-- The driver with the most trips is a driver of the trips. -/
theorem maxDriverID_mem {trips : List Trip} {maxDriverID : String} {maxDriverTrips : CountVal}
    (h : (sortedEntries trips).head? = some (maxDriverID, maxDriverTrips)) :
    maxDriverID ∈ driverIds trips := by
  have h1 : (maxDriverID, maxDriverTrips) ∈ sortedEntries trips := List.mem_of_mem_head? h
  have h2 : (maxDriverID, maxDriverTrips) ∈ count trips := by
    have := (sortBy_perm _ _).mem_iff.mp h1
    exact (mem_ownEntries _ _).mp this
  have h3 : maxDriverID ∈ (count trips).map Prod.fst := List.mem_map.mpr ⟨_, h2, rfl⟩
  rcases foldl_countStep_keys (driverIds trips) [] maxDriverID h3 with h4 | h4
  · simp at h4
  · exact h4

/-- The highest-earning driver is a driver of the trips. -/
theorem highestDriver_mem {trips : List Trip} {highest : DriverTotal}
    (h : (sortedTotals trips).head? = some highest) :
    highest.driverID ∈ driverIds trips := by
  have h1 : highest ∈ sortedTotals trips := List.mem_of_mem_head? h
  have h2 : highest ∈ driverTotalContainer trips := (sortBy_perm _ _).mem_iff.mp h1
  unfold driverTotalContainer at h2
  obtain ⟨key, hkey, rfl⟩ := List.mem_map.mp h2
  exact (mem_setOf _ _).mp hkey

end Analysis

namespace Analysis

/-- When `analysis` resolves with `undefined`: the fetch of the trips is rejected, there
is no first entry of the sorted counts or of the sorted totals, or the lookup of the driver
of one of these first entries is rejected. -/
theorem analysis_eq_none_iff (trips : List Trip) (getDriver : String → Option DriverInfo) :
    analysis (.ok trips) getDriver = none ↔
      (sortedEntries trips).head? = none ∨
      (∃ maxDriverID maxDriverTrips,
        (sortedEntries trips).head? = some (maxDriverID, maxDriverTrips) ∧
        getDriver maxDriverID = none) ∨
      (sortedTotals trips).head? = none ∨
      (∃ highest, (sortedTotals trips).head? = some highest ∧
        getDriver highest.driverID = none) := by
  unfold analysis
  simp only
  cases h1 : (sortedEntries trips).head? with
  | none => simp
  | some e =>
    obtain ⟨maxDriverID, maxDriverTrips⟩ := e
    cases h2 : getDriver maxDriverID with
    | none => simp [h2]
    | some details =>
      cases h3 : (sortedTotals trips).head? with
      | none => simp [h2]
      | some highest =>
        cases h4 : getDriver highest.driverID with
        | none => simp [h2, h4]
        | some info => simp [h2, h4]

end Analysis

/-- The outcome of `analysis` in terms of the first entries of the two sorted arrays, when
the lookup fails for the driver `failed` and succeeds for every other driver of the trips:
a summary when neither first entry is of `failed`, `undefined` when one of them is. -/
theorem Analysis.partial_failure_of_heads (trips : List Trip)
    (getDriver : String → Option DriverInfo)
    (failed maxDriverID : String) (maxDriverTrips : Analysis.CountVal)
    (highest : Analysis.DriverTotal)
    (hmax : (Analysis.sortedEntries trips).head? = some (maxDriverID, maxDriverTrips))
    (hhigh : (Analysis.sortedTotals trips).head? = some highest)
    (hfail : getDriver failed = none)
    (hothers : ∀ d ∈ Analysis.driverIds trips, d ≠ failed → (getDriver d).isSome = true) :
    (maxDriverID ≠ failed → highest.driverID ≠ failed →
      ∃ s, Analysis.analysis (.ok trips) getDriver = some s ∧
        s.noOfDriversWithMoreThanOneVehicle =
          ((trips.map (fun t => t.driverID)).toFinset.filter
            (fun d => d ≠ failed ∧ Spec.ownsSeveral getDriver d = true)).card) ∧
    ((maxDriverID = failed ∨ highest.driverID = failed) →
      Analysis.analysis (.ok trips) getDriver = none) := by
  constructor
  · intro h1 h2
    have g1 := hothers _ (Analysis.maxDriverID_mem hmax) h1
    have g2 := hothers _ (Analysis.highestDriver_mem hhigh) h2
    cases hs : Analysis.analysis (.ok trips) getDriver with
    | none =>
      rcases (Analysis.analysis_eq_none_iff trips getDriver).mp hs with h | h | h | h
      · rw [hmax] at h; cases h
      · obtain ⟨i, c, hi, hn⟩ := h
        rw [hmax] at hi
        injection hi with hi
        injection hi with hi1 _
        rw [hi1, hn] at g1
        cases g1
      · rw [hhigh] at h; cases h
      · obtain ⟨x, hx, hn⟩ := h
        rw [hhigh] at hx
        injection hx with hx
        rw [hx, hn] at g2
        cases g2
    | some s =>
      refine ⟨s, rfl, ?_⟩
      obtain ⟨_, _, _, _, _, _, _, _, _, rfl⟩ := Analysis.analysis_eq_some hs
      simp only
      rw [Analysis.multiVehicles_eq_card]
      congr 1
      apply Finset.filter_congr
      intro d _
      constructor
      · intro h
        refine ⟨?_, h⟩
        intro c
        rw [c] at h
        simp [Spec.ownsSeveral, hfail] at h
      · intro h; exact h.2
  · intro h
    apply (Analysis.analysis_eq_none_iff trips getDriver).mpr
    rcases h with h | h
    · right; left
      exact ⟨maxDriverID, maxDriverTrips, hmax, by rw [h]; exact hfail⟩
    · right; right; right
      exact ⟨highest, hhigh, by rw [h]; exact hfail⟩

/-- C11 fails as stated. In `ghostLeads` the lookup fails for `ghost` only, of the two
drivers, and `ghost` has the most trips; in `ghostEarns` it fails for `ghost` only and
`ghost` earns the most. In both cases `analysis` resolves with `undefined`. -/
theorem analysis_partial_failure_undefined :
    (Sample.ghostLeads ≠ [] ∧
      (∀ d ∈ Analysis.driverUnique Sample.ghostLeads,
        Sample.lookup d = none ↔ d = "ghost") ∧
      Analysis.driverUnique Sample.ghostLeads = ["ghost", "d1"] ∧
      Analysis.analysis (.ok Sample.ghostLeads) Sample.lookup = none) ∧
    (Sample.ghostEarns ≠ [] ∧
      (∀ d ∈ Analysis.driverUnique Sample.ghostEarns,
        Sample.lookup d = none ↔ d = "ghost") ∧
      Analysis.driverUnique Sample.ghostEarns = ["ghost", "d1"] ∧
      Analysis.analysis (.ok Sample.ghostEarns) Sample.lookup = none) := by
  refine ⟨⟨by decide, by decide, by decide, by decide⟩, by decide, by decide, by decide,
    by decide⟩

/-- C12. `analysis` resolves with `undefined` when the fetch of the trips is rejected,
when the lookup of the driver with the most trips is rejected, and when the lookup of the
highest-earning driver is rejected; it has no other outcome than a summary or `undefined`,
and resolves with `undefined` in exactly the cases of `Analysis.analysis_eq_none_iff`. -/
theorem analysis_swallows_errors :
    (∀ (e : JS.JSError) (getDriver : String → Option DriverInfo),
      Analysis.analysis (.error e) getDriver = none) ∧
    (∀ (trips : List Trip) (getDriver : String → Option DriverInfo) (maxDriverID : String)
      (maxDriverTrips : Analysis.CountVal),
      (Analysis.sortedEntries trips).head? = some (maxDriverID, maxDriverTrips) →
      getDriver maxDriverID = none → Analysis.analysis (.ok trips) getDriver = none) ∧
    (∀ (trips : List Trip) (getDriver : String → Option DriverInfo)
      (highest : Analysis.DriverTotal),
      (Analysis.sortedTotals trips).head? = some highest →
      getDriver highest.driverID = none → Analysis.analysis (.ok trips) getDriver = none) ∧
    (∀ (getTrips : Except JS.JSError (List Trip)) (getDriver : String → Option DriverInfo),
      Analysis.analysis getTrips getDriver = none ∨
        ∃ s, Analysis.analysis getTrips getDriver = some s) ∧
    Analysis.analysis (.ok Sample.ghostLeads) Sample.lookup = none ∧
    Analysis.analysis (.ok Sample.ghostEarns) Sample.lookup = none := by
  refine ⟨fun _ _ => rfl, ?_, ?_, ?_, by decide, by decide⟩
  · intro trips getDriver i c h1 h2
    exact (Analysis.analysis_eq_none_iff trips getDriver).mpr (Or.inr (Or.inl ⟨i, c, h1, h2⟩))
  · intro trips getDriver x h1 h2
    exact (Analysis.analysis_eq_none_iff trips getDriver).mpr
      (Or.inr (Or.inr (Or.inr ⟨x, h1, h2⟩)))
  · intro getTrips getDriver
    cases Analysis.analysis getTrips getDriver with
    | none => exact Or.inl rfl
    | some s => exact Or.inr ⟨s, rfl⟩

/-- C13 fails on the code for a driver named as a member every object inherits. A
rejection of the fetch is rethrown unchanged, and `driverReport` returns a report exactly
when no driver identifier is such a name; for the one trip of the driver `constructor` it
throws a `TypeError` instead of returning a report. -/
theorem driverReport_propagates_and_throws :
    (∀ e : JS.JSError, Report.driverReport (.error e) = .error e) ∧
    (∀ trips : List Trip, (∃ r, Report.driverReport (.ok trips) = .ok r) ↔
      ∀ t ∈ trips, t.driverID ∉ JS.inheritedKeys) ∧
    Report.driverReport (.ok Sample.inheritedName) =
      .error (.typeError "Cannot read properties of undefined") := by
  refine ⟨fun _ => rfl, ?_, rfl⟩
  intro trips
  constructor
  · rintro ⟨r, hr⟩
    exact ((Report.driverReport_eq_ok_iff trips r).mp hr).1
  · intro h
    exact ⟨_, (Report.driverReport_eq_ok_iff trips _).mpr ⟨h, rfl⟩⟩

/-- C20. For the empty list of trips `analysis` resolves with `undefined`, whatever the
lookup is, and `driverReport` returns the report without drivers, with the count 0 and
with `null` for both picks. -/
theorem empty_trips_outcomes :
    (∀ getDriver : String → Option DriverInfo, Analysis.analysis (.ok []) getDriver = none) ∧
    Report.driverReport (.ok []) =
      .ok { drivers := [], noOfDriversWithMoreThanOneVehicle := 0,
            mostTripsByDriver := none, highestEarningDriver := none } :=
  ⟨fun _ => rfl, rfl⟩

/-! ## Sorting and the order of the numbers -/

namespace Spec

theorem FirstMax.mem {α κ : Type} [LinearOrder κ] {key : α → κ} {l : List α} {p : α}
    (h : FirstMax key l p) : p ∈ l := by
  obtain ⟨pre, post, rfl, _, _⟩ := h
  simp

theorem FirstMax.le {α κ : Type} [LinearOrder κ] {key : α → κ} {l : List α} {p : α}
    (h : FirstMax key l p) : ∀ x ∈ l, key x ≤ key p := by
  obtain ⟨pre, post, rfl, h1, h2⟩ := h
  intro x hx
  rcases List.mem_append.mp hx with hx | hx
  · exact le_of_lt (h1 x hx)
  · rcases List.mem_cons.mp hx with hx | hx
    · rw [hx]
    · exact h2 x hx

theorem head?_orderedInsert {α : Type} (r : α → α → Prop) [DecidableRel r] (a : α)
    (s : List α) :
    (s.orderedInsert r a).head? =
      match s with
      | [] => some a
      | b :: _ => if r a b then some a else some b := by
  cases s with
  | nil => rfl
  | cons b t =>
    simp only [List.orderedInsert]
    split <;> rfl

/-- The first element of a stable sort in descending order of the keys is the first
element of the list with the greatest key. -/
theorem head?_insertionSort {α κ : Type} [LinearOrder κ] (key : α → κ) (r : α → α → Prop)
    [DecidableRel r] (l : List α) (hr : ∀ a ∈ l, ∀ b ∈ l, r a b ↔ key b ≤ key a) :
    l = [] ∨ ∃ p, (l.insertionSort r).head? = some p ∧ FirstMax key l p := by
  induction l with
  | nil => exact Or.inl rfl
  | cons a l ih =>
    right
    have hr2 : ∀ x ∈ l, ∀ y ∈ l, r x y ↔ key y ≤ key x :=
      fun x hx y hy => hr x (List.mem_cons_of_mem _ hx) y (List.mem_cons_of_mem _ hy)
    simp only [List.insertionSort, head?_orderedInsert]
    rcases ih hr2 with h | ⟨p, hp, hfm⟩
    · subst h
      exact ⟨a, rfl, [], [], rfl, by simp, by simp⟩
    · cases hs : l.insertionSort r with
      | nil => rw [hs] at hp; cases hp
      | cons b t =>
        rw [hs] at hp
        simp only [List.head?_cons, Option.some.injEq] at hp
        subst hp
        have hb : b ∈ l := hfm.mem
        simp only
        by_cases hab : r a b
        · rw [if_pos hab]
          have hle := (hr a (List.mem_cons_self _ _) b (List.mem_cons_of_mem _ hb)).mp hab
          exact ⟨a, rfl, [], l, rfl, by simp,
            fun x hx => le_trans (hfm.le x hx) hle⟩
        · rw [if_neg hab]
          have hlt : key a < key b := by
            have := (hr a (List.mem_cons_self _ _) b (List.mem_cons_of_mem _ hb)).not.mp hab
            exact not_le.mp this
          obtain ⟨pre, post, rfl, h1, h2⟩ := hfm
          refine ⟨b, rfl, a :: pre, post, rfl, ?_, h2⟩
          intro x hx
          rcases List.mem_cons.mp hx with hx | hx
          · rw [hx]; exact hlt
          · exact h1 x hx

end Spec

namespace F64

theorem roundQuot_shape (s : Bool) (p q : Nat) :
    roundQuot s p q = inf s ∨ ∃ n, roundQuot s p q = fin s n := by
  unfold roundQuot
  simp only
  split_ifs <;> first | exact Or.inl rfl | exact Or.inr ⟨_, rfl⟩

/-- The sign of a rounded nonzero integer magnitude is the sign given. -/
theorem lt_zero_roundQuot (s : Bool) (p : Nat) (hp : p ≠ 0) :
    lt zero (roundQuot s p 1) = !s := by
  rcases roundQuot_shape s p 1 with h | ⟨n, h⟩
  · rw [h]; cases s <;> rfl
  · have hn : n ≠ 0 := by
      intro c
      rw [c] at h
      exact roundQuot_one_ne_zero s s p hp h
    rw [h]
    cases s
    · simp only [lt, zero, signed, Bool.not_false, decide_eq_true_eq]
      simp only [Bool.false_eq_true, if_false]
      omega
    · simp only [lt, zero, signed, Bool.not_true, decide_eq_false_iff_not]
      simp only [Bool.false_eq_true, if_false, if_true]
      omega

/-- An integer magnitude of at most 53 bits above `2^c` units rounds to itself. -/
theorem roundQuot_exact (s : Bool) (c p : Nat) (hc : c ≤ 2045) (hp : 2 ^ c ∣ p)
    (hlt : p < 2 ^ (c + 53)) : roundQuot s p 1 = fin s p := by
  have hlen : bitlen (p / 1) - 53 ≤ c := by
    have := bitlen_le (n := p / 1) (j := c + 53) (by simpa using hlt)
    omega
  have hdvd : 2 ^ (bitlen (p / 1) - 53) ∣ p := Nat.dvd_trans (Nat.pow_dvd_pow 2 hlen) hp
  have hpos : 0 < 2 ^ (bitlen (p / 1) - 53) := Nat.two_pow_pos _
  have hov : p < overflowMag :=
    Nat.lt_of_lt_of_le hlt (Nat.pow_le_pow_right (by decide) (by omega))
  unfold roundQuot
  simp only [Nat.one_mul]
  rw [Nat.mod_eq_zero_of_dvd hdvd]
  have hne : ¬ (2 ^ (bitlen (p / 1) - 53) < 2 * 0 ∨
      2 * 0 = 2 ^ (bitlen (p / 1) - 53) ∧ p / 2 ^ (bitlen (p / 1) - 53) % 2 = 1) := by
    omega
  rw [if_neg hne, Nat.div_mul_cancel hdvd, if_neg (by omega)]

/-- A natural number below `2^53` is a double. -/
theorem ofNat_exact (n : Nat) (h : n < 2 ^ 53) : ofNat n = fin false (n * 2 ^ 1074) := by
  unfold ofNat ofRatio
  apply roundQuot_exact false 1074 _ (by decide) (Nat.dvd_mul_left _ _)
  calc n * 2 ^ 1074 < 2 ^ 53 * 2 ^ 1074 := Nat.mul_lt_mul_of_pos_right h (Nat.two_pow_pos _)
    _ = 2 ^ (1074 + 53) := by rw [← Nat.pow_add]

end F64

namespace Spec

theorem coe_coe_lt_top (z : Int) :
    (((z : WithTop Int)) : WithBot (WithTop Int)) < ⊤ := by
  rw [← WithBot.coe_top]
  exact WithBot.coe_lt_coe.mpr (WithTop.coe_lt_top z)

theorem lt_iff_rank (x y : F64) (hx : x ≠ F64.nan) (hy : y ≠ F64.nan) :
    F64.lt x y = true ↔ rank x < rank y := by
  cases x with
  | nan => exact absurd rfl hx
  | inf a =>
    cases y with
    | nan => exact absurd rfl hy
    | inf b => cases a <;> cases b <;> simp [F64.lt, rank]
    | fin t n => cases a <;> simp [F64.lt, rank, WithBot.bot_lt_coe]
  | fin s m =>
    cases y with
    | nan => exact absurd rfl hy
    | inf b => cases b <;> simp [F64.lt, rank, WithBot.bot_lt_coe, coe_coe_lt_top]
    | fin t n => simp [F64.lt, rank]

/-- The comparison function `(a, b) => b - a` is positive exactly when `a` is below `b`. -/
theorem lt_zero_sub_iff (x y : F64) (hx : x ≠ F64.nan) (hy : y ≠ F64.nan) :
    F64.lt F64.zero (F64.sub y x) = true ↔ rank x < rank y := by
  cases x with
  | nan => exact absurd rfl hx
  | inf a =>
    cases y with
    | nan => exact absurd rfl hy
    | inf b => cases a <;> cases b <;> simp [F64.sub, F64.neg, F64.add, F64.lt, rank, F64.zero]
    | fin t n =>
      cases a <;> simp [F64.sub, F64.neg, F64.add, F64.lt, rank, F64.zero, WithBot.bot_lt_coe]
  | fin s m =>
    cases y with
    | nan => exact absurd rfl hy
    | inf b =>
      cases b <;> simp [F64.sub, F64.neg, F64.add, F64.lt, rank, F64.zero, WithBot.bot_lt_coe,
        coe_coe_lt_top]
    | fin t n =>
      simp only [rank, WithBot.coe_lt_coe, WithTop.coe_lt_coe, F64.sub, F64.neg, F64.add]
      by_cases hm : m = 0
      · by_cases hn : n = 0
        · subst hm; subst hn
          cases s <;> cases t <;> simp [F64.lt, F64.zero, F64.signed]
        · subst hm
          simp only [if_true, hn, if_false]
          cases s <;> cases t <;> simp [F64.lt, F64.zero, F64.signed]
      · by_cases hn : n = 0
        · subst hn
          simp only [hm, if_false, if_true]
          cases s <;> cases t <;> simp [F64.lt, F64.zero, F64.signed]
        · simp only [hm, hn, if_false]
          by_cases hts : t = !s
          · rw [if_pos hts, F64.lt_zero_roundQuot _ _ (by omega)]
            subst hts
            cases s <;> simp [F64.signed] <;> omega
          · rw [if_neg hts]
            have hst : t = s := by cases s <;> cases t <;> simp_all
            subst hst
            by_cases hnm : n = m
            · subst hnm
              simp [F64.lt, F64.zero, F64.signed]
            · rw [if_neg hnm]
              by_cases hlt : m < n
              · rw [if_pos hlt, F64.lt_zero_roundQuot _ _ (by omega)]
                cases t <;> simp [F64.signed] <;> omega
              · rw [if_neg hlt, F64.lt_zero_roundQuot _ _ (by omega)]
                cases t <;> simp [F64.signed] <;> omega

end Spec

/-! ## The frequency table of the analysis -/

namespace Analysis

open JS

theorem setOf_append_singleton (pre : List String) (i : String) :
    setOf (pre ++ [i]) = setAdd (setOf pre) i := by
  simp [JS.setOf, List.foldl_append]

theorem getOwn_map_of_mem {α : Type} (keys : List String) (f : String → α) (i : String)
    (h : i ∈ keys) : getOwn (keys.map (fun d => (d, f d))) i = some (f i) := by
  induction keys with
  | nil => simp at h
  | cons k ks ih =>
    by_cases hk : k = i
    · simp [getOwn, List.find?, hk]
    · have h2 : i ∈ ks := by
        rcases List.mem_cons.mp h with h | h
        · exact absurd h.symm hk
        · exact h
      have := ih h2
      simp only [getOwn, List.map_cons, List.find?, hk, decide_False] at this ⊢
      exact this

theorem getOwn_map_of_not_mem {α : Type} (keys : List String) (f : String → α) (i : String)
    (h : i ∉ keys) : getOwn (keys.map (fun d => (d, f d))) i = none := by
  have := (getOwn_isNone_iff (keys.map (fun d => (d, f d))) i).mpr
    (by simpa [List.map_map, Function.comp_def] using h)
  exact Option.isNone_iff_eq_none.mp this

/-- One turn of lines 94-96 on the frequency table of the identifiers seen so far. -/
theorem countStep_table (pre : List String) (i : String) (hi : i ∉ inheritedKeys) :
    countStep ((setOf pre).map (fun d => (d, CountVal.num (pre.count d)))) i =
      (setOf (pre ++ [i])).map (fun d => (d, CountVal.num ((pre ++ [i]).count d))) := by
  rw [setOf_append_singleton]
  unfold countStep
  by_cases hmem : i ∈ pre
  · have hs : i ∈ setOf pre := (mem_setOf pre i).mpr hmem
    rw [getOwn_map_of_mem _ _ _ hs]
    simp only [setAdd, hs, if_true, modifyOwn, List.map_map]
    apply List.map_congr_left
    intro d _
    by_cases hd : d = i
    · simp [hd, List.count_append, List.count_singleton]
    · have hd2 : ¬ i = d := fun c => hd c.symm
      simp [hd, hd2, List.count_append, List.count_singleton]
  · have hs : i ∉ setOf pre := fun c => hmem ((mem_setOf pre i).mp c)
    rw [getOwn_map_of_not_mem _ _ _ hs]
    simp only [hi, if_false, setAdd, hs, List.map_append, List.map_cons, List.map_nil]
    congr 1
    · apply List.map_congr_left
      intro d hd
      have hd2 : ¬ i = d := fun c => hs (by rw [c]; exact hd)
      simp [List.count_append, List.count_singleton, hd2]
    · simp [List.count_append, List.count_singleton, List.count_eq_zero_of_not_mem hmem]

theorem foldl_countStep_table (rest : List String) :
    ∀ pre : List String, (∀ i ∈ rest, i ∉ inheritedKeys) →
      rest.foldl countStep ((setOf pre).map (fun d => (d, CountVal.num (pre.count d)))) =
        (setOf (pre ++ rest)).map (fun d => (d, CountVal.num ((pre ++ rest).count d))) := by
  induction rest with
  | nil => intro pre _; simp
  | cons i is ih =>
    intro pre h
    simp only [List.foldl_cons]
    rw [countStep_table pre i (h i (List.mem_cons_self _ _)),
      ih (pre ++ [i]) (fun j hj => h j (List.mem_cons_of_mem _ hj))]
    simp

theorem count_driverIds (trips : List Trip) (d : String) :
    (driverIds trips).count d = Spec.tripCount trips d := by
  unfold driverIds Spec.tripCount
  induction trips with
  | nil => rfl
  | cons t ts ih =>
    by_cases h : t.driverID = d
    · simp [List.count_cons, List.filter_cons, h, ih]
    · simp [List.count_cons, List.filter_cons, h, ih]

/-- The object `count` when no driver identifier names an inherited member: every distinct
driver, in the order of first occurrence, with the number of its trips. -/
theorem count_eq (trips : List Trip) (h : ∀ t ∈ trips, t.driverID ∉ inheritedKeys) :
    count trips =
      (driverUnique trips).map (fun d => (d, CountVal.num (Spec.tripCount trips d))) := by
  have := foldl_countStep_table (driverIds trips) [] (by
    intro i hi
    obtain ⟨t, ht, rfl⟩ := List.mem_map.mp hi
    exact h t ht)
  simp only [List.nil_append] at this
  unfold count driverUnique
  have e : (setOf ([] : List String)).map
      (fun d => (d, CountVal.num (([] : List String).count d))) = [] := rfl
  rw [e] at this
  rw [this]
  apply List.map_congr_left
  intro d _
  rw [count_driverIds]

end Analysis

namespace Spec

theorem FirstMax.of_map {α β κ : Type} [LinearOrder κ] {key : β → κ} {f : α → β}
    {l : List α} {e : β} (h : FirstMax key (l.map f) e) :
    ∃ d, f d = e ∧ FirstMax (fun x => key (f x)) l d := by
  obtain ⟨pre, post, hl, h1, h2⟩ := h
  obtain ⟨l1, l2, rfl, hpre, hrest⟩ := List.map_eq_append_iff.mp hl
  obtain ⟨d, l3, rfl, hd, hpost⟩ := List.map_eq_cons_iff.mp hrest
  refine ⟨d, hd, l1, l3, rfl, ?_, ?_⟩
  · intro x hx
    show key (f x) < key (f d)
    rw [hd]
    exact h1 _ (by rw [← hpre]; exact List.mem_map_of_mem f hx)
  · intro x hx
    show key (f x) ≤ key (f d)
    rw [hd]
    exact h2 _ (by rw [← hpost]; exact List.mem_map_of_mem f hx)

end Spec

namespace JS

theorem ownEntries_of_no_index {α : Type} (created : List (String × α))
    (h : ∀ e ∈ created, arrayIndex e.1 = none) : ownEntries created = created := by
  unfold ownEntries
  have h1 : created.filter (fun e => (arrayIndex e.1).isSome) = [] := by
    apply List.filter_eq_nil_iff.mpr
    intro e he
    simp [h e he]
  have h2 : created.filter (fun e => !(arrayIndex e.1).isSome) = created := by
    apply List.filter_eq_self.mpr
    intro e he
    simp [h e he]
  rw [h1, h2]
  rfl

end JS

namespace Analysis

open JS

theorem tripCount_le (trips : List Trip) (d : String) : Spec.tripCount trips d ≤ trips.length :=
  List.length_filter_le _ _

/-- The comparison of two counts below `2^53`. -/
theorem compare_counts (na nb : Nat) (ha : na < 2 ^ 53) (hb : nb < 2 ^ 53) :
    (F64.lt F64.zero (F64.sub (CountVal.num nb).toNumber (CountVal.num na).toNumber) = false) ↔
      nb ≤ na := by
  have h := Spec.lt_zero_sub_iff (F64.ofNat na) (F64.ofNat nb)
    (by rw [F64.ofNat_exact na ha]; simp) (by rw [F64.ofNat_exact nb hb]; simp)
  simp only [CountVal.toNumber]
  rw [← Bool.not_eq_true, h, F64.ofNat_exact na ha, F64.ofNat_exact nb hb]
  simp only [Spec.rank, F64.signed, WithBot.coe_lt_coe, WithTop.coe_lt_coe, Bool.false_eq_true,
    if_false, not_lt]
  have hpos : 0 < 2 ^ 1074 := Nat.two_pow_pos _
  constructor
  · intro h2
    have h3 : nb * 2 ^ 1074 ≤ na * 2 ^ 1074 := by exact_mod_cast h2
    exact Nat.le_of_mul_le_mul_right h3 hpos
  · intro h2
    have h3 : nb * 2 ^ 1074 ≤ na * 2 ^ 1074 := Nat.mul_le_mul_right _ h2
    exact_mod_cast h3

/-- The first of the sorted entries, when no driver identifier names an inherited member:
the first entry of `Object.entries(count)` with the greatest number of trips. -/
theorem sortedEntries_head (trips : List Trip) (hlen : trips.length < 2 ^ 53)
    (hin : ∀ t ∈ trips, t.driverID ∉ inheritedKeys) :
    trips = [] ∨ ∃ d, (sortedEntries trips).head? = some (d, .num (Spec.tripCount trips d)) ∧
      Spec.FirstMax (fun e : String × CountVal => Spec.tripCount trips e.1)
        (countEntries trips) (d, .num (Spec.tripCount trips d)) := by
  have hmem : ∀ e ∈ countEntries trips,
      e ∈ (driverUnique trips).map (fun d => (d, CountVal.num (Spec.tripCount trips d))) := by
    intro e he
    have := (mem_ownEntries _ _).mp he
    rw [count_eq trips hin] at this
    exact this
  have hshape : ∀ e ∈ countEntries trips, e.2 = .num (Spec.tripCount trips e.1) := by
    intro e he
    obtain ⟨d, _, rfl⟩ := List.mem_map.mp (hmem e he)
    rfl
  have hb : ∀ d, Spec.tripCount trips d < 2 ^ 53 :=
    fun d => Nat.lt_of_le_of_lt (tripCount_le trips d) hlen
  rcases Spec.head?_insertionSort (fun e : String × CountVal => Spec.tripCount trips e.1)
    (fun a b => F64.lt F64.zero (F64.sub b.2.toNumber a.2.toNumber) = false)
    (countEntries trips) (by
      intro a ha b hb2
      show F64.lt F64.zero (F64.sub b.2.toNumber a.2.toNumber) = false ↔
        Spec.tripCount trips b.1 ≤ Spec.tripCount trips a.1
      rw [hshape a ha, hshape b hb2]
      exact compare_counts _ _ (hb _) (hb _)) with h | ⟨p, hp, hfm⟩
  · left
    cases trips with
    | nil => rfl
    | cons t ts =>
      exfalso
      have h1 : t.driverID ∈ driverUnique (t :: ts) :=
        (mem_setOf _ _).mpr (by simp [driverIds])
      have h2 : (t.driverID, CountVal.num (Spec.tripCount (t :: ts) t.driverID)) ∈
          count (t :: ts) := by
        rw [count_eq _ hin]
        exact List.mem_map.mpr ⟨_, h1, rfl⟩
      have h3 := (mem_ownEntries _ _).mpr h2
      unfold countEntries at h
      rw [h] at h3
      simp at h3
  · right
    have hp2 := hshape p hfm.mem
    refine ⟨p.1, ?_, ?_⟩
    · rw [← hp2]; exact hp
    · rw [← hp2]; exact hfm

end Analysis

namespace Analysis

open JS

theorem driverBilled_eq_driverSum (driver : String) (trips : List Trip) :
    driverBilled driver trips = Spec.driverSum trips driver := by
  rw [driverBilled_eq]
  unfold Spec.driverSum Spec.sumWhere
  rw [foldl_filter_billedStep]

/-- The driver with the most trips, when no driver identifier names an inherited member:
the summary names a driver of the trips with its number of trips, which no driver exceeds,
the unrounded sum of its trips and the fields of its lookup; among the drivers with that
number of trips it is the first in the order of `Object.entries(count)`. -/
theorem analysis_mostTrips (trips : List Trip) (getDriver : String → Option DriverInfo)
    (s : FleetSummary) (hlen : trips.length < 2 ^ 53)
    (hin : ∀ t ∈ trips, t.driverID ∉ inheritedKeys)
    (h : analysis (.ok trips) getDriver = some s) :
    ∃ d info, d ∈ driverIds trips ∧ getDriver d = some info ∧
      s.mostTripsByDriver =
        { name := info.name, email := info.email, phone := info.phone,
          noOfTrips := .num (Spec.tripCount trips d),
          totalAmountEarned := Spec.driverSum trips d } ∧
      (∀ d2 ∈ driverIds trips, Spec.tripCount trips d2 ≤ Spec.tripCount trips d) ∧
      Spec.FirstMax (fun e : String × CountVal => Spec.tripCount trips e.1)
        (countEntries trips) (d, .num (Spec.tripCount trips d)) := by
  obtain ⟨maxDriverID, maxDriverTrips, details, _, _, h1, h2, _, _, rfl⟩ := analysis_eq_some h
  rcases sortedEntries_head trips hlen hin with h0 | ⟨d, hd, hfm⟩
  · subst h0
    cases h1
  · rw [h1] at hd
    injection hd with hd
    injection hd with hd1 hd2
    subst hd1
    subst hd2
    refine ⟨maxDriverID, details, maxDriverID_mem h1, h2, ?_, ?_, hfm⟩
    · rw [driverBilled_eq_driverSum]
    · intro d2 hd2
      have hm : (d2, CountVal.num (Spec.tripCount trips d2)) ∈ countEntries trips := by
        apply (mem_ownEntries _ _).mpr
        rw [count_eq trips hin]
        exact List.mem_map.mpr ⟨d2, (mem_setOf _ _).mpr hd2, rfl⟩
      exact hfm.le _ hm

end Analysis

/-- C14 fails on the code for a driver named as a member every object inherits. For the one
trip of the driver `constructor`, `mostTripsByDriver.noOfTrips` is not the number 1 but the
string made of the text of the function `Object` and `1`. For two trips of the driver
`__proto__` and one of `d1`, the summary names `d1` with 1 trip, although `__proto__` has 2
trips: the assignment to `count.__proto__` creates no entry. -/
theorem analysis_mostTrips_inherited_names :
    ((Analysis.analysis (.ok Sample.inheritedName) Sample.lookupAll).map
        (fun s => (s.mostTripsByDriver.name, s.mostTripsByDriver.noOfTrips)) =
      some (.str "constructor", .str "function Object() \x7b [native code] \x7d1") ∧
      Spec.tripCount Sample.inheritedName "constructor" = 1) ∧
    ((Analysis.analysis (.ok Sample.protoIds) Sample.lookupAll).map
        (fun s => (s.mostTripsByDriver.name, s.mostTripsByDriver.noOfTrips)) =
      some (.str "d1", .num 1) ∧
      Spec.tripCount Sample.protoIds "d1" = 1 ∧
      Spec.tripCount Sample.protoIds "__proto__" = 2) := by
  refine ⟨⟨by decide, by decide⟩, by decide, by decide, by decide⟩

/-- C19, as amended. When a summary is produced and no driver identifier names an inherited
member, the driver reported as `mostTripsByDriver` is, among the drivers with the greatest
number of trips, the first in the order of `Object.entries(count)`: array indices in
ascending order, then the other identifiers in the order of first appearance. When
moreover no identifier is an array index, it is the tied driver whose first trip appears
earliest in the trip list. (`trips.length < 2^53` holds of every array.) -/
theorem analysis_mostTrips_tie_break (trips : List Trip)
    (getDriver : String → Option DriverInfo) (s : Analysis.FleetSummary)
    (hlen : trips.length < 2 ^ 53) (hin : ∀ t ∈ trips, t.driverID ∉ JS.inheritedKeys)
    (h : Analysis.analysis (.ok trips) getDriver = some s) :
    ∃ d info, getDriver d = some info ∧
      s.mostTripsByDriver =
        { name := info.name, email := info.email, phone := info.phone,
          noOfTrips := .num (Spec.tripCount trips d),
          totalAmountEarned := Spec.driverSum trips d } ∧
      Spec.FirstMax (fun e : String × Analysis.CountVal => Spec.tripCount trips e.1)
        (JS.ownEntries ((Analysis.driverUnique trips).map
          (fun d => (d, Analysis.CountVal.num (Spec.tripCount trips d)))))
        (d, .num (Spec.tripCount trips d)) ∧
      ((∀ t ∈ trips, JS.arrayIndex t.driverID = none) →
        Spec.FirstMax (Spec.tripCount trips) (Analysis.driverUnique trips) d) := by
  obtain ⟨d, info, _, hg, hs, _, hfm⟩ := Analysis.analysis_mostTrips trips getDriver s hlen hin h
  refine ⟨d, info, hg, hs, ?_, ?_⟩
  · unfold Analysis.countEntries at hfm
    rw [Analysis.count_eq trips hin] at hfm
    exact hfm
  · intro hidx
    unfold Analysis.countEntries at hfm
    rw [Analysis.count_eq trips hin, JS.ownEntries_of_no_index] at hfm
    · obtain ⟨d2, hd2, hfm2⟩ := Spec.FirstMax.of_map hfm
      injection hd2 with hd2 _
      subst hd2
      exact hfm2
    · intro e he
      obtain ⟨x, hx, rfl⟩ := List.mem_map.mp he
      have hx2 := (JS.mem_setOf _ _).mp hx
      obtain ⟨t, ht, rfl⟩ := List.mem_map.mp hx2
      exact hidx t ht

/-- The three sample trips: `d1`, first seen and with two trips, is reported. -/
theorem analysis_mostTrips_tie_break_witness :
    (∃ d info, Sample.lookup d = some info ∧
      Sample.threeTripsSummary.mostTripsByDriver =
        { name := info.name, email := info.email, phone := info.phone,
          noOfTrips := .num (Spec.tripCount Sample.threeTrips d),
          totalAmountEarned := Spec.driverSum Sample.threeTrips d } ∧
      Spec.FirstMax (fun e : String × Analysis.CountVal => Spec.tripCount Sample.threeTrips e.1)
        (JS.ownEntries ((Analysis.driverUnique Sample.threeTrips).map
          (fun d => (d, Analysis.CountVal.num (Spec.tripCount Sample.threeTrips d)))))
        (d, .num (Spec.tripCount Sample.threeTrips d)) ∧
      ((∀ t ∈ Sample.threeTrips, JS.arrayIndex t.driverID = none) →
        Spec.FirstMax (Spec.tripCount Sample.threeTrips)
          (Analysis.driverUnique Sample.threeTrips) d)) ∧
    (∀ t ∈ Sample.threeTrips, JS.arrayIndex t.driverID = none) ∧
    Analysis.driverUnique Sample.threeTrips = ["d1", "d2"] ∧
    Sample.threeTripsSummary.mostTripsByDriver.name = .str "d1" :=
  ⟨analysis_mostTrips_tie_break Sample.threeTrips Sample.lookup Sample.threeTripsSummary
    (by decide) (by decide) (by decide), by decide, by decide, rfl⟩

/-- C19 fails as stated. The drivers `10` and `2` have one trip each and `10` comes first
in the trip list, but `Object.entries(count)` lists the property `2` before the property
`10`, and the summary names the driver `2`. -/
theorem analysis_mostTrips_integer_ids :
    Analysis.driverUnique Sample.integerIds = ["10", "2"] ∧
    Spec.tripCount Sample.integerIds "10" = 1 ∧
    Spec.tripCount Sample.integerIds "2" = 1 ∧
    Analysis.countEntries Sample.integerIds = [("2", .num 1), ("10", .num 1)] ∧
    (Analysis.analysis (.ok Sample.integerIds) Sample.lookupAll).map
      (fun s => s.mostTripsByDriver.name) = some (.str "2") := by
  refine ⟨by decide, by decide, by decide, by decide, by decide⟩

/-! ## The highest-earning driver of the analysis -/

namespace Spec

theorem eq_iff_rank (x y : F64) (hx : x ≠ F64.nan) (hy : y ≠ F64.nan) :
    F64.eq x y = true ↔ rank x = rank y := by
  cases x with
  | nan => exact absurd rfl hx
  | inf a =>
    cases y with
    | nan => exact absurd rfl hy
    | inf b => cases a <;> cases b <;> simp [F64.eq, rank]
    | fin t n => cases a <;> simp [F64.eq, rank]
  | fin s m =>
    cases y with
    | nan => exact absurd rfl hy
    | inf b => cases b <;> simp [F64.eq, rank]
    | fin t n => simp [F64.eq, rank]

/-- On numbers other than NaN, `x >= y` is the order of the ranks. -/
theorem atLeast_iff_rank (x y : F64) (hx : x ≠ F64.nan) (hy : y ≠ F64.nan) :
    atLeast x y = true ↔ rank y ≤ rank x := by
  unfold atLeast
  rw [Bool.or_eq_true, lt_iff_rank y x hy hx, eq_iff_rank x y hx hy, le_iff_lt_or_eq]
  constructor
  · rintro (h | h)
    · exact Or.inl h
    · exact Or.inr h.symm
  · rintro (h | h)
    · exact Or.inl h
    · exact Or.inr h.symm

end Spec

namespace Analysis

open JS

theorem driverTotalContainer_eq_map (trips : List Trip) :
    driverTotalContainer trips = (driverUnique trips).map (fun key =>
      { driverID := key, totalAmount := Spec.driverSum trips key,
        noOfTrips := Spec.tripCount trips key }) := rfl

/-- The first of the sorted totals, when no total is NaN: the first driver, in the order of
first appearance, with the greatest total. -/
theorem sortedTotals_head (trips : List Trip)
    (hnan : ∀ d ∈ driverIds trips, Spec.driverSum trips d ≠ F64.nan) :
    trips = [] ∨ ∃ d, (sortedTotals trips).head? =
        some { driverID := d, totalAmount := Spec.driverSum trips d,
               noOfTrips := Spec.tripCount trips d } ∧
      Spec.FirstMax (fun d => Spec.rank (Spec.driverSum trips d)) (driverUnique trips) d := by
  have hx : ∀ x ∈ driverTotalContainer trips, x.totalAmount ≠ F64.nan := by
    intro x hx
    rw [driverTotalContainer_eq_map] at hx
    obtain ⟨d, hd, rfl⟩ := List.mem_map.mp hx
    exact hnan d ((mem_setOf _ _).mp hd)
  rcases Spec.head?_insertionSort (fun x : DriverTotal => Spec.rank x.totalAmount)
    (fun a b => F64.lt F64.zero (F64.sub b.totalAmount a.totalAmount) = false)
    (driverTotalContainer trips) (by
      intro a ha b hb
      show F64.lt F64.zero (F64.sub b.totalAmount a.totalAmount) = false ↔
        Spec.rank b.totalAmount ≤ Spec.rank a.totalAmount
      rw [← Bool.not_eq_true, Spec.lt_zero_sub_iff _ _ (hx a ha) (hx b hb), not_lt]) with
    h | ⟨p, hp, hfm⟩
  · left
    cases trips with
    | nil => rfl
    | cons t ts =>
      exfalso
      have h1 : t.driverID ∈ driverUnique (t :: ts) :=
        (mem_setOf _ _).mpr (by simp [driverIds])
      rw [driverTotalContainer_eq_map] at h
      rw [List.map_eq_nil_iff] at h
      rw [h] at h1
      simp at h1
  · right
    rw [driverTotalContainer_eq_map] at hfm
    obtain ⟨d, hd, hfm2⟩ := Spec.FirstMax.of_map hfm
    refine ⟨d, ?_, hfm2⟩
    rw [hd]
    exact hp

end Analysis

/-- C15, as amended. When a summary is produced and the total of no driver is NaN, the
summary names as `highestEarningDriver` a driver `d` of the trips with the unrounded sum of
the reducer over its trips, which is `>=` the sum of every driver, with the number of its
trips and with the fields its lookup returns; among the drivers with that sum it is the one
whose first trip appears earliest. -/
theorem analysis_highestEarning (trips : List Trip) (getDriver : String → Option DriverInfo)
    (s : Analysis.FleetSummary)
    (hnan : ∀ d ∈ Analysis.driverIds trips, Spec.driverSum trips d ≠ F64.nan)
    (h : Analysis.analysis (.ok trips) getDriver = some s) :
    ∃ d info, d ∈ Analysis.driverIds trips ∧ getDriver d = some info ∧
      s.highestEarningDriver =
        { name := info.name, email := info.email, phone := info.phone,
          noOfTrips := Spec.tripCount trips d,
          totalAmountEarned := Spec.driverSum trips d } ∧
      (∀ d2 ∈ Analysis.driverIds trips,
        Spec.atLeast (Spec.driverSum trips d) (Spec.driverSum trips d2) = true) ∧
      Spec.FirstMax (fun d => Spec.rank (Spec.driverSum trips d))
        (Analysis.driverUnique trips) d := by
  obtain ⟨_, _, _, highest, info, _, _, h3, h4, rfl⟩ := Analysis.analysis_eq_some h
  rcases Analysis.sortedTotals_head trips hnan with h0 | ⟨d, hd, hfm⟩
  · subst h0
    cases h3
  · rw [h3] at hd
    injection hd with hd
    subst hd
    have hmem : d ∈ Analysis.driverIds trips := (JS.mem_setOf _ _).mp hfm.mem
    refine ⟨d, info, hmem, h4, rfl, ?_, hfm⟩
    intro d2 hd2
    rw [Spec.atLeast_iff_rank _ _ (hnan d hmem) (hnan d2 hd2)]
    exact hfm.le d2 ((JS.mem_setOf _ _).mpr hd2)

/-- The four sample trips: `d1` earns 125, more than `ghost` and `d2`. -/
theorem analysis_highestEarning_witness :
    (∃ d info, d ∈ Analysis.driverIds Sample.fleetTrips ∧ Sample.lookup d = some info ∧
      Sample.fleetSummary.highestEarningDriver =
        { name := info.name, email := info.email, phone := info.phone,
          noOfTrips := Spec.tripCount Sample.fleetTrips d,
          totalAmountEarned := Spec.driverSum Sample.fleetTrips d } ∧
      (∀ d2 ∈ Analysis.driverIds Sample.fleetTrips,
        Spec.atLeast (Spec.driverSum Sample.fleetTrips d)
          (Spec.driverSum Sample.fleetTrips d2) = true) ∧
      Spec.FirstMax (fun d => Spec.rank (Spec.driverSum Sample.fleetTrips d))
        (Analysis.driverUnique Sample.fleetTrips) d) ∧
    Sample.fleetSummary.highestEarningDriver.name = .str "d1" ∧
    (Analysis.driverUnique Sample.fleetTrips).map (Spec.driverSum Sample.fleetTrips) =
      [F64.ofNat 125, F64.ofNat 5, F64.ofNat 50] :=
  ⟨analysis_highestEarning Sample.fleetTrips Sample.lookup Sample.fleetSummary
    (by decide) (by decide), rfl, by decide⟩

/-- C15 fails as stated. With a first trip of `ghost` billed the string `bad` and two trips
of `d2` billed 100, every lookup succeeding, the summary names `ghost` as the
highest-earning driver, with the total NaN, which is not `>=` the total 200 of `d2`. -/
theorem analysis_highestEarning_nan :
    (Analysis.analysis (.ok Sample.badAmount) Sample.lookupAll).map
        (fun s => (s.highestEarningDriver.name, s.highestEarningDriver.totalAmountEarned,
          s.highestEarningDriver.noOfTrips)) = some (.str "ghost", F64.nan, 1) ∧
    Spec.driverSum Sample.badAmount "ghost" = F64.nan ∧
    Spec.driverSum Sample.badAmount "d2" = F64.ofNat 200 ∧
    Spec.atLeast F64.nan (F64.ofNat 200) = false := by
  refine ⟨by decide, by decide, by decide, by decide⟩

/-! ## The aggregates of the driver report in closed form -/

namespace Report

open JS

/-- The first update of a fresh aggregate gives the closed form for the one trip. -/
theorem updateAggregate_initial (t : Trip) :
    updateAggregate t (initialAggregate t) = Spec.aggregateOfTrips [t] := by
  unfold updateAggregate updateVehicles updateCash initialAggregate Spec.aggregateOfTrips
  by_cases hc : truthy t.isCash = true <;> by_cases hv : Spec.hasVehicle t = true <;>
    simp [hc, hv, Spec.hasVehicle, JS.setOf] <;> simp_all [Spec.hasVehicle, setAdd]

/-- An update of the closed form for some trips gives the closed form with the trip added. -/
theorem updateAggregate_aggregateOfTrips (t : Trip) (mine : List Trip) (h : mine ≠ []) :
    updateAggregate t (Spec.aggregateOfTrips mine) = Spec.aggregateOfTrips (mine ++ [t]) := by
  have hhead : (mine ++ [t]).head? = mine.head? := by
    cases mine with
    | nil => exact absurd rfl h
    | cons a l => rfl
  unfold updateAggregate updateVehicles updateCash Spec.aggregateOfTrips
  by_cases hc : truthy t.isCash = true <;> by_cases hv : Spec.hasVehicle t = true <;>
    simp [hc, hv, hhead, Spec.hasVehicle, List.filter_append, List.foldl_append,
      Analysis.setOf_append_singleton] <;>
    simp_all [Spec.hasVehicle, Analysis.setOf_append_singleton]

theorem tripsOf_append_self (pre : List Trip) (t : Trip) :
    Spec.tripsOf (pre ++ [t]) t.driverID = Spec.tripsOf pre t.driverID ++ [t] := by
  simp [Spec.tripsOf, List.filter_append]

theorem tripsOf_append_other (pre : List Trip) (t : Trip) (d : String) (h : d ≠ t.driverID) :
    Spec.tripsOf (pre ++ [t]) d = Spec.tripsOf pre d := by
  have h2 : ¬ t.driverID = d := fun c => h c.symm
  simp [Spec.tripsOf, List.filter_append, h2]

theorem tripsOf_ne_nil (pre : List Trip) (d : String) (h : d ∈ pre.map (fun t => t.driverID)) :
    Spec.tripsOf pre d ≠ [] := by
  obtain ⟨t, ht, rfl⟩ := List.mem_map.mp h
  intro c
  have : t ∈ Spec.tripsOf pre t.driverID := List.mem_filter.mpr ⟨ht, by simp⟩
  rw [c] at this
  simp at this

theorem tripsOf_eq_nil (pre : List Trip) (d : String) (h : d ∉ pre.map (fun t => t.driverID)) :
    Spec.tripsOf pre d = [] := by
  apply List.filter_eq_nil_iff.mpr
  intro t ht hd
  simp only [decide_eq_true_eq] at hd
  exact h (List.mem_map.mpr ⟨t, ht, hd⟩)

/-- One turn of the loop on the closed form of `driverData`. -/
theorem nextData_driverTable (pre : List Trip) (t : Trip) :
    nextData (Spec.driverTable pre) t = Spec.driverTable (pre ++ [t]) := by
  unfold nextData Spec.driverTable
  simp only [List.map_append, List.map_cons, List.map_nil, Analysis.setOf_append_singleton]
  by_cases hmem : t.driverID ∈ pre.map (fun t => t.driverID)
  · have hs : t.driverID ∈ setOf (pre.map (fun t => t.driverID)) := (mem_setOf _ _).mpr hmem
    rw [Analysis.getOwn_map_of_mem _ _ _ hs]
    simp only [Option.isNone_some, Bool.false_eq_true, if_false, setAdd, hs, if_true,
      modifyOwn, List.map_map]
    apply List.map_congr_left
    intro d _
    by_cases hd : d = t.driverID
    · subst hd
      simp only [Function.comp_apply, if_true, Spec.driverAggregate]
      rw [tripsOf_append_self, updateAggregate_aggregateOfTrips _ _ (tripsOf_ne_nil pre _ hmem)]
    · simp only [Function.comp_apply, hd, if_false, Spec.driverAggregate]
      rw [tripsOf_append_other pre t d hd]
  · have hs : t.driverID ∉ setOf (pre.map (fun t => t.driverID)) :=
      fun c => hmem ((mem_setOf _ _).mp c)
    rw [Analysis.getOwn_map_of_not_mem _ _ _ hs]
    simp only [Option.isNone_none, if_true, setAdd, hs, if_false, modifyOwn, List.map_append,
      List.map_map, List.map_cons, List.map_nil]
    congr 1
    · apply List.map_congr_left
      intro d hd
      have hne : d ≠ t.driverID := fun c => hs (by rw [← c]; exact hd)
      simp only [Function.comp_apply, hne, if_false, Spec.driverAggregate]
      rw [tripsOf_append_other pre t d hne]
    · simp only [if_true, Spec.driverAggregate]
      rw [tripsOf_append_self, tripsOf_eq_nil pre _ hmem, updateAggregate_initial]
      rfl

/-- The object `driverData` after the loop is its closed form. -/
theorem foldl_nextData_driverTable (rest : List Trip) :
    ∀ pre : List Trip, rest.foldl nextData (Spec.driverTable pre) =
      Spec.driverTable (pre ++ rest) := by
  induction rest with
  | nil => intro pre; simp
  | cons t ts ih =>
    intro pre
    simp only [List.foldl_cons]
    rw [nextData_driverTable, ih]
    simp

end Report

namespace Report

open JS

theorem mem_driverTable {trips : List Trip} {d : String} {a : DriverAggregate}
    (h : (d, a) ∈ Spec.driverTable trips) :
    d ∈ trips.map (fun t => t.driverID) ∧ a = Spec.driverAggregate trips d := by
  unfold Spec.driverTable at h
  obtain ⟨d2, hd2, he⟩ := List.mem_map.mp h
  injection he with h1 h2
  subst h1
  exact ⟨(mem_setOf _ _).mp hd2, h2.symm⟩

theorem driverTable_keys (trips : List Trip) :
    (Spec.driverTable trips).map Prod.fst = setOf (trips.map (fun t => t.driverID)) := by
  unfold Spec.driverTable
  rw [List.map_map]
  exact List.map_id _

theorem foldl_nextData_eq (trips : List Trip) :
    trips.foldl nextData [] = Spec.driverTable trips := by
  have h2 := foldl_nextData_driverTable trips []
  have e : Spec.driverTable [] = [] := rfl
  rw [e, List.nil_append] at h2
  exact h2

end Report

/-- C18. When `driverReport` returns a report, its drivers are the values of `driverData`,
which holds one aggregate for each distinct driver of the trips. The `trips` of the
aggregate of a driver `d` are the trimmed views of exactly the input trips whose `driverID`
is `d`, in the order of the input, and its `name`, `email` and `phone` are the `driverName`,
`driverEmail` and `driverPhone` of the first input trip whose `driverID` is `d`. -/
theorem driverReport_trips_and_display (trips : List Trip) (r : Report.DriverReport)
    (h : Report.driverReport (.ok trips) = .ok r) :
    r.drivers = (JS.ownEntries (trips.foldl Report.nextData [])).map (fun e => e.2) ∧
    ((trips.foldl Report.nextData []).map Prod.fst).Nodup ∧
    (∀ d, d ∈ trips.map (fun t => t.driverID) ↔
      d ∈ (trips.foldl Report.nextData []).map Prod.fst) ∧
    ∀ d a, (d, a) ∈ trips.foldl Report.nextData [] →
      a.trips = (trips.filter (fun t => decide (t.driverID = d))).map Report.tripView ∧
      ∃ first rest, trips.filter (fun t => decide (t.driverID = d)) = first :: rest ∧
        a.name = first.driverName ∧ a.email = first.driverEmail ∧
        a.phone = first.driverPhone := by
  have h1 := ((Report.driverReport_eq_ok_iff trips r).mp h).2
  refine ⟨by rw [h1]; rfl, ?_, ?_, ?_⟩
  · rw [Report.foldl_nextData_eq, Report.driverTable_keys]
    exact JS.setOf_nodup _
  · intro d
    rw [Report.foldl_nextData_eq, Report.driverTable_keys, JS.mem_setOf]
  · intro d a hda
    rw [Report.foldl_nextData_eq] at hda
    obtain ⟨hd, rfl⟩ := Report.mem_driverTable hda
    refine ⟨rfl, ?_⟩
    have hne := Report.tripsOf_ne_nil trips d hd
    unfold Spec.driverAggregate
    unfold Spec.tripsOf at hne ⊢
    cases hf : trips.filter (fun t => decide (t.driverID = d)) with
    | nil => exact absurd hf hne
    | cons first rest => exact ⟨first, rest, rfl, rfl, rfl, rfl⟩

/-- The three sample trips: the aggregate of `d1` holds the views of the first and the third
trip, in that order, under the name of the first. -/
theorem driverReport_trips_and_display_witness :
    (Report.buildReport (Sample.threeTrips.foldl Report.nextData [])).drivers =
      (JS.ownEntries (Sample.threeTrips.foldl Report.nextData [])).map (fun e => e.2) ∧
    ((Sample.threeTrips.foldl Report.nextData []).map Prod.fst).Nodup ∧
    ((Sample.threeTrips.foldl Report.nextData []).map Prod.fst) = ["d1", "d2"] ∧
    ((Sample.threeTrips.foldl Report.nextData []).map (fun e => e.2.trips.length)) = [2, 1] :=
  ⟨(driverReport_trips_and_display Sample.threeTrips
      (Report.buildReport (Sample.threeTrips.foldl Report.nextData [])) rfl).1,
   (driverReport_trips_and_display Sample.threeTrips
      (Report.buildReport (Sample.threeTrips.foldl Report.nextData [])) rfl).2.1,
   by decide, by decide⟩

namespace Report

open JS

theorem append_sep_inj (c : Char) :
    ∀ (p1 p2 m1 m2 : List Char), c ∉ p1 → c ∉ p2 → p1 ++ c :: m1 = p2 ++ c :: m2 →
      p1 = p2 ∧ m1 = m2 := by
  intro p1
  induction p1 with
  | nil =>
    intro p2 m1 m2 _ h2 h
    cases p2 with
    | nil => simpa using h
    | cons x xs =>
      simp only [List.nil_append, List.cons_append, List.cons.injEq] at h
      exact absurd (by rw [h.1]; simp) h2
  | cons y ys ih =>
    intro p2 m1 m2 h1 h2 h
    cases p2 with
    | nil =>
      simp only [List.nil_append, List.cons_append, List.cons.injEq] at h
      exact absurd (by rw [← h.1]; simp) h1
    | cons x xs =>
      simp only [List.cons_append, List.cons.injEq] at h
      obtain ⟨e1, e2⟩ := ih xs m1 m2 (fun c1 => h1 (List.mem_cons_of_mem _ c1))
        (fun c1 => h2 (List.mem_cons_of_mem _ c1)) h.2
      exact ⟨by rw [h.1, e1], e2⟩

/-- Two string pairs whose plates hold no hyphen have the same key only when equal. -/
theorem vehicleKey_inj (p1 m1 p2 m2 : String) (h1 : '-' ∉ p1.data) (h2 : '-' ∉ p2.data)
    (h : p1 ++ "-" ++ m1 = p2 ++ "-" ++ m2) : p1 = p2 ∧ m1 = m2 := by
  have hd := congrArg String.data h
  simp only [String.data_append] at hd
  rw [List.append_assoc, List.append_assoc] at hd
  obtain ⟨e1, e2⟩ := append_sep_inj '-' _ _ _ _ h1 h2 hd
  exact ⟨String.ext e1, String.ext e2⟩

theorem vehicles_length (trips : List Trip) (d : String) :
    (Spec.driverAggregate trips d).vehicles.length =
      (Spec.vehicleKeys trips d).toFinset.card := by
  show (setOf (Spec.vehicleKeys trips d)).length = _
  rw [← setOf_toFinset, List.toFinset_card_of_nodup (setOf_nodup _)]

/-- The count of line 85 in terms of the distinct vehicle keys of each driver. -/
theorem moreThanOneVehicle_eq (trips : List Trip) :
    (buildReport (Spec.driverTable trips)).noOfDriversWithMoreThanOneVehicle =
      ((trips.map (fun t => t.driverID)).toFinset.filter
        (fun d => 2 ≤ (Spec.vehicleKeys trips d).toFinset.card)).card := by
  unfold buildReport
  simp only
  rw [((ownEntries_perm (Spec.driverTable trips)).map _).filter _ |>.length_eq]
  unfold Spec.driverTable
  rw [List.map_map, List.filter_map, List.length_map]
  rw [← setOf_toFinset (trips.map (fun t => t.driverID)),
    ← List.toFinset_card_of_nodup ((setOf_nodup (trips.map (fun t => t.driverID))).filter _),
    List.toFinset_filter]
  congr 1
  apply Finset.filter_congr
  intro d _
  simp only [Function.comp_apply, decide_eq_true_eq, vehicles_length]
  exact Iff.rfl

end Report

namespace Report

open JS

/-- The keys are as many as the pairs when every plate is a string without a hyphen and every
manufacturer is a string. -/
theorem vehicleKeys_card (trips : List Trip) (d : String)
    (hstr : ∀ t ∈ trips, t.driverID = d → Spec.hasVehicle t = true →
      ∃ p m, t.vehiclePlate = .str p ∧ t.vehicleManufacturer = .str m ∧ '-' ∉ p.data) :
    (Spec.vehicleKeys trips d).toFinset.card = (Spec.vehiclePairs trips d).toFinset.card := by
  have hk : Spec.vehicleKeys trips d =
      (Spec.vehiclePairs trips d).map (fun pm => toStr pm.1 ++ "-" ++ toStr pm.2) := by
    unfold Spec.vehicleKeys Spec.vehiclePairs
    rw [List.map_map]
    rfl
  have him : ((Spec.vehiclePairs trips d).map
      (fun pm => toStr pm.1 ++ "-" ++ toStr pm.2)).toFinset =
      (Spec.vehiclePairs trips d).toFinset.image (fun pm => toStr pm.1 ++ "-" ++ toStr pm.2) := by
    ext x
    simp
  rw [hk, him]
  apply Finset.card_image_of_injOn
  have hshape : ∀ pm ∈ Spec.vehiclePairs trips d,
      ∃ p m, pm = (JSVal.str p, JSVal.str m) ∧ '-' ∉ p.data := by
    intro pm hpm
    unfold Spec.vehiclePairs Spec.tripsOf at hpm
    obtain ⟨t, ht, rfl⟩ := List.mem_map.mp hpm
    rw [List.mem_filter, List.mem_filter] at ht
    obtain ⟨p, m, e1, e2, hp⟩ := hstr t ht.1.1 (of_decide_eq_true ht.1.2) ht.2
    exact ⟨p, m, by rw [e1, e2], hp⟩
  intro x hx y hy hxy
  obtain ⟨p1, m1, rfl, h1⟩ := hshape x (List.mem_toFinset.mp hx)
  obtain ⟨p2, m2, rfl, h2⟩ := hshape y (List.mem_toFinset.mp hy)
  have hxy2 : p1 ++ "-" ++ m1 = p2 ++ "-" ++ m2 := hxy
  obtain ⟨e1, e2⟩ := vehicleKey_inj p1 m1 p2 m2 h1 h2 hxy2
  rw [e1, e2]

end Report

/-- C17, as amended. When `driverReport` returns a report, the `vehicles` of the aggregate of
a driver hold no duplicate, and as many members as there are distinct keys
`plate-manufacturer` among the trips of the driver whose plate and manufacturer are both
truthy. These are as many as the distinct pairs of plate and manufacturer when every such
plate is a string without a hyphen and every such manufacturer is a string. The count
`noOfDriversWithMoreThanOneVehicle` is the number of drivers with at least two distinct
keys. -/
theorem driverReport_vehicles (trips : List Trip) (r : Report.DriverReport)
    (h : Report.driverReport (.ok trips) = .ok r) :
    (∀ d a, (d, a) ∈ trips.foldl Report.nextData [] →
      a.vehicles.Nodup ∧
      a.vehicles.length = (Spec.vehicleKeys trips d).toFinset.card ∧
      ((∀ t ∈ trips, t.driverID = d → Spec.hasVehicle t = true →
          ∃ p m, t.vehiclePlate = .str p ∧ t.vehicleManufacturer = .str m ∧ '-' ∉ p.data) →
        a.vehicles.length = (Spec.vehiclePairs trips d).toFinset.card)) ∧
    r.noOfDriversWithMoreThanOneVehicle =
      ((trips.map (fun t => t.driverID)).toFinset.filter
        (fun d => 2 ≤ (Spec.vehicleKeys trips d).toFinset.card)).card := by
  have h1 := ((Report.driverReport_eq_ok_iff trips r).mp h).2
  rw [Report.foldl_nextData_eq] at h1 ⊢
  refine ⟨?_, by rw [h1]; exact Report.moreThanOneVehicle_eq trips⟩
  intro d a hda
  obtain ⟨_, rfl⟩ := Report.mem_driverTable hda
  refine ⟨JS.setOf_nodup _, Report.vehicles_length trips d, ?_⟩
  intro hstr
  rw [Report.vehicles_length, Report.vehicleKeys_card trips d hstr]

/-- The three sample trips: `d1` drives two vehicles and `d2` one, so one driver counts. -/
theorem driverReport_vehicles_witness :
    ((Sample.threeTrips.foldl Report.nextData []).map (fun e => (e.1, e.2.vehicles)) =
      [("d1", ["ABC-Ford", "DEF-Ford"]), ("d2", ["XYZ-Ford"])]) ∧
    (Spec.vehiclePairs Sample.threeTrips "d1").toFinset.card = 2 ∧
    (Report.buildReport (Sample.threeTrips.foldl Report.nextData [])).noOfDriversWithMoreThanOneVehicle
      = ((Sample.threeTrips.map (fun t => t.driverID)).toFinset.filter
        (fun d => 2 ≤ (Spec.vehicleKeys Sample.threeTrips d).toFinset.card)).card ∧
    (Report.buildReport (Sample.threeTrips.foldl Report.nextData [])).noOfDriversWithMoreThanOneVehicle
      = 1 :=
  ⟨by decide, by decide,
   (driverReport_vehicles Sample.threeTrips
      (Report.buildReport (Sample.threeTrips.foldl Report.nextData [])) rfl).2,
   by decide⟩

/-- Two trips of one driver, in the vehicle with plate `A-B` made by `C` and in the vehicle
with plate `A` made by `B-C`: two distinct pairs, but one key `A-B-C`, so `vehicles` has one
member and the driver does not count among those with more than one vehicle. -/
theorem driverReport_vehicles_hyphen_collision :
    Report.driverReport (.ok Sample.hyphenPlates) =
      .ok (Report.buildReport (Sample.hyphenPlates.foldl Report.nextData [])) ∧
    (Report.buildReport (Sample.hyphenPlates.foldl Report.nextData [])).drivers.map
      (fun a => a.vehicles) = [["A-B-C"]] ∧
    (Spec.vehiclePairs Sample.hyphenPlates "d1").toFinset.card = 2 ∧
    (Report.buildReport
      (Sample.hyphenPlates.foldl Report.nextData [])).noOfDriversWithMoreThanOneVehicle = 0 :=
  ⟨rfl, by decide, by decide, by decide⟩

namespace Report

open JS

/-- A left-to-right pick that a later element replaces only when its key is strictly greater
ends at the first element with the greatest key. -/
theorem foldl_pick_firstMax {α κ : Type} [LinearOrder κ] (key : α → κ) (gt : α → α → Bool)
    (step : Option α → α → Option α) (hnone : ∀ d, step none d = some d)
    (hsome : ∀ m d, step (some m) d = if gt d m = true then some d else some m)
    (l : List α) (hgt : ∀ a ∈ l, ∀ b ∈ l, gt a b = true ↔ key b < key a) (hne : l ≠ []) :
    ∃ p, l.foldl step none = some p ∧ Spec.FirstMax key l p := by
  induction l using List.reverseRecOn with
  | nil => exact absurd rfl hne
  | append_singleton init d ih =>
    rw [List.foldl_append]
    simp only [List.foldl_cons, List.foldl_nil]
    by_cases hinit : init = []
    · subst hinit
      exact ⟨d, hnone d, [], [], rfl, by simp, by simp⟩
    · obtain ⟨p, hp, pre, post, hl, h1, h2⟩ := ih
        (fun a ha b hb => hgt a (List.mem_append_left _ ha) b (List.mem_append_left _ hb)) hinit
      rw [hp, hsome]
      have hpm : p ∈ init ++ [d] := by rw [hl]; simp
      have hdm : d ∈ init ++ [d] := by simp
      by_cases hg : gt d p = true
      · have hlt := (hgt d hdm p hpm).mp hg
        refine ⟨d, by simp [hg], init, [], rfl, ?_, by simp⟩
        intro x hx
        rw [hl] at hx
        rcases List.mem_append.mp hx with hx | hx
        · exact lt_trans (h1 x hx) hlt
        · rcases List.mem_cons.mp hx with hx | hx
          · rw [hx]; exact hlt
          · exact lt_of_le_of_lt (h2 x hx) hlt
      · have hle : key d ≤ key p := not_lt.mp (fun c => hg ((hgt d hdm p hpm).mpr c))
        refine ⟨p, by simp [hg], pre, post ++ [d], by rw [hl]; simp, h1, ?_⟩
        intro x hx
        rcases List.mem_append.mp hx with hx | hx
        · exact h2 x hx
        · rw [List.mem_singleton.mp hx]; exact hle

theorem mostTripsByDriver_firstMax (drivers : List DriverAggregate) (hne : drivers ≠ []) :
    ∃ p, mostTripsByDriver drivers = some p ∧
      Spec.FirstMax (fun a => a.noOfTrips) drivers p := by
  exact foldl_pick_firstMax (fun a : DriverAggregate => a.noOfTrips)
    (fun d m => decide (m.noOfTrips < d.noOfTrips)) _ (fun _ => rfl) (fun m d => by simp)
    drivers (fun a _ b _ => by simp) hne

theorem highestEarningDriver_firstMax (drivers : List DriverAggregate) (hne : drivers ≠ [])
    (hnum : ∀ a ∈ drivers, ∃ x, a.totalAmountEarned = .num x ∧ x ≠ F64.nan) :
    ∃ p, highestEarningDriver drivers = some p ∧
      Spec.FirstMax (fun a => Spec.rank (toNumber a.totalAmountEarned)) drivers p := by
  exact foldl_pick_firstMax
    (fun a : DriverAggregate => Spec.rank (toNumber a.totalAmountEarned))
    (fun d m => jsGt d.totalAmountEarned m.totalAmountEarned) _ (fun _ => rfl) (fun _ _ => rfl)
    drivers
    (fun a ha b hb => by
      obtain ⟨x, hx, hxn⟩ := hnum a ha
      obtain ⟨y, hy, hyn⟩ := hnum b hb
      show jsGt a.totalAmountEarned b.totalAmountEarned = true ↔
        Spec.rank (toNumber b.totalAmountEarned) < Spec.rank (toNumber a.totalAmountEarned)
      rw [hx, hy]
      simp only [jsGt, isStringy, toNumber, Bool.false_eq_true, and_self, if_false]
      exact Spec.lt_iff_rank y x hyn hxn) hne

/-- A sum of finite numbers is a number other than NaN. -/
theorem foldl_jsAdd_finite (mine : List Trip)
    (hfin : ∀ t ∈ mine, ∃ s m, t.billedAmount = .num (.fin s m)) :
    ∀ x, x ≠ F64.nan → ∃ y, mine.foldl (fun acc t => jsAdd acc t.billedAmount) (.num x) = .num y ∧
      y ≠ F64.nan := by
  induction mine with
  | nil => intro x hx; exact ⟨x, rfl, hx⟩
  | cons t ts ih =>
    intro x hx
    obtain ⟨s, m, ht⟩ := hfin t (List.mem_cons_self _ _)
    simp only [List.foldl_cons, ht]
    have hadd : jsAdd (.num x) (.num (.fin s m)) = .num (F64.add x (.fin s m)) := by
      simp [jsAdd, isStringy, toNumber]
    rw [hadd]
    apply ih (fun u hu => hfin u (List.mem_cons_of_mem _ hu))
    cases x with
    | nan => exact absurd rfl hx
    | inf a => simp [F64.add]
    | fin s2 m2 =>
      unfold F64.add
      simp only
      split_ifs
      all_goals first
        | (intro c; cases c)
        | (rcases F64.roundQuot_shape _ _ _ with e | ⟨n, e⟩ <;> rw [e] <;> intro c <;> cases c)

end Report

namespace Report

open JS

theorem drivers_ne_nil (trips : List Trip) (hne : trips ≠ []) :
    (buildReport (Spec.driverTable trips)).drivers ≠ [] := by
  cases trips with
  | nil => exact absurd rfl hne
  | cons t ts =>
    have hm : (t.driverID, Spec.driverAggregate (t :: ts) t.driverID) ∈
        ownEntries (Spec.driverTable (t :: ts)) := by
      rw [mem_ownEntries]
      unfold Spec.driverTable
      exact List.mem_map.mpr ⟨t.driverID, (mem_setOf _ _).mpr (by simp), rfl⟩
    intro c
    have hm2 : Spec.driverAggregate (t :: ts) t.driverID ∈
        (buildReport (Spec.driverTable (t :: ts))).drivers :=
      List.mem_map.mpr ⟨_, hm, rfl⟩
    rw [c] at hm2
    cases hm2

theorem mem_drivers {trips : List Trip} {a : DriverAggregate}
    (h : a ∈ (buildReport (Spec.driverTable trips)).drivers) :
    ∃ d, d ∈ trips.map (fun t => t.driverID) ∧ a = Spec.driverAggregate trips d := by
  obtain ⟨e, he, rfl⟩ := List.mem_map.mp h
  rw [mem_ownEntries] at he
  exact ⟨e.1, mem_driverTable he⟩

end Report

/-- The picks of a returned report in closed form. When `driverReport` returns a report for
a non-empty trip list, `mostTripsByDriver` is the first aggregate of `drivers` whose
`noOfTrips` is the greatest. When the `totalAmountEarned` of every aggregate is a number
other than NaN, `highestEarningDriver` is the first aggregate of `drivers` whose
`totalAmountEarned` is the greatest, and it is `>=` that of every aggregate. The totals are
such numbers when every `billedAmount` is a finite number. -/
theorem driverReport_picks (trips : List Trip) (r : Report.DriverReport) (hne : trips ≠ [])
    (h : Report.driverReport (.ok trips) = .ok r) :
    (∃ p, r.mostTripsByDriver = some p ∧
      Spec.FirstMax (fun a => a.noOfTrips) r.drivers p) ∧
    ((∀ a ∈ r.drivers, ∃ x, a.totalAmountEarned = .num x ∧ x ≠ F64.nan) →
      ∃ p, r.highestEarningDriver = some p ∧
        Spec.FirstMax (fun a => Spec.rank (JS.toNumber a.totalAmountEarned)) r.drivers p ∧
        ∀ a ∈ r.drivers, Spec.atLeast (JS.toNumber p.totalAmountEarned)
          (JS.toNumber a.totalAmountEarned) = true) ∧
    ((∀ t ∈ trips, ∃ s m, t.billedAmount = .num (.fin s m)) →
      ∀ a ∈ r.drivers, ∃ x, a.totalAmountEarned = .num x ∧ x ≠ F64.nan) := by
  have h1 := ((Report.driverReport_eq_ok_iff trips r).mp h).2
  rw [Report.foldl_nextData_eq] at h1
  subst h1
  have hd := Report.drivers_ne_nil trips hne
  refine ⟨Report.mostTripsByDriver_firstMax _ hd, ?_, ?_⟩
  · intro hnum
    obtain ⟨p, hp, hfm⟩ := Report.highestEarningDriver_firstMax _ hd hnum
    refine ⟨p, hp, hfm, ?_⟩
    intro a ha
    obtain ⟨x, hx, hxn⟩ := hnum p hfm.mem
    obtain ⟨y, hy, hyn⟩ := hnum a ha
    have hle := hfm.le a ha
    simp only [hx, hy, JS.toNumber] at hle ⊢
    exact (Spec.atLeast_iff_rank x y hxn hyn).mpr hle
  · intro hfin a ha
    obtain ⟨d, _, rfl⟩ := Report.mem_drivers ha
    exact Report.foldl_jsAdd_finite (Spec.tripsOf trips d)
      (fun t ht => hfin t (List.mem_of_mem_filter ht)) F64.zero (by decide)

/-- The three sample trips: `d1` has two trips against one, and earns 125 against 50. -/
theorem driverReport_picks_witness :
    ((∃ p, (Report.buildReport (Sample.threeTrips.foldl Report.nextData [])).mostTripsByDriver
        = some p ∧
      Spec.FirstMax (fun a => a.noOfTrips)
        (Report.buildReport (Sample.threeTrips.foldl Report.nextData [])).drivers p)) ∧
    (Report.buildReport (Sample.threeTrips.foldl Report.nextData [])).drivers.map
      (fun a => (a.name, a.noOfTrips, a.totalAmountEarned)) =
      [(.str "d1", 2, .num (F64.ofNat 125)), (.str "d2", 1, .num (F64.ofNat 50))] ∧
    (Report.buildReport (Sample.threeTrips.foldl Report.nextData [])).mostTripsByDriver.map
      (fun a => a.name) = some (.str "d1") ∧
    (Report.buildReport (Sample.threeTrips.foldl Report.nextData [])).highestEarningDriver.map
      (fun a => a.name) = some (.str "d1") :=
  ⟨(driverReport_picks Sample.threeTrips
      (Report.buildReport (Sample.threeTrips.foldl Report.nextData [])) (by decide) rfl).1,
   by decide, by decide, by decide⟩

/-- C16 fails on the code for a trip without a billed amount. For a trip of `d1` without
`billedAmount` followed by a trip of `d2` billed 100, line 45 adds `undefined` to the total
of `d1`, which becomes NaN; the comparison `100 > NaN` of line 78 is false, so
`highestEarningDriver` is the aggregate of `d1`, whose total NaN is not `>=` the total 100 of
`d2`. On the same trips `analysis` skips the absent amount and names `d2`, with the total
100. The pick by `noOfTrips` is not affected: it is `d1`, the first of the two drivers with
one trip. -/
theorem driverReport_highestEarning_nan :
    Report.driverReport (.ok Sample.nanFirst) =
      .ok (Report.buildReport (Sample.nanFirst.foldl Report.nextData [])) ∧
    (Report.buildReport (Sample.nanFirst.foldl Report.nextData [])).drivers.map
      (fun a => (a.name, a.noOfTrips, a.totalAmountEarned)) =
      [(.str "d1", 1, .num F64.nan), (.str "d2", 1, .num (F64.ofNat 100))] ∧
    (Report.buildReport (Sample.nanFirst.foldl Report.nextData [])).highestEarningDriver.map
      (fun a => (a.name, a.totalAmountEarned)) = some (.str "d1", .num F64.nan) ∧
    Spec.atLeast F64.nan (F64.ofNat 100) = false ∧
    (Report.buildReport (Sample.nanFirst.foldl Report.nextData [])).mostTripsByDriver.map
      (fun a => a.name) = some (.str "d1") ∧
    (Analysis.analysis (.ok Sample.nanFirst) Sample.lookupAll).map
      (fun s => (s.highestEarningDriver.name, s.highestEarningDriver.totalAmountEarned)) =
      some (.str "d2", F64.ofNat 100) :=
  ⟨rfl, by decide, by decide, by decide, by decide, by decide⟩

/-! ## A failed lookup of one driver -/

/-- C11, as amended. Let the trip list be non-empty, let no driver identifier name an
inherited member and let no driver total be NaN, so that both sorts compare consistently.
Let the lookup fail for the driver `failed` and succeed for every other driver of the trips.
Let `most` be the driver with the most trips, the first such in the order of
`Object.entries(count)`, and `best` the highest-earning driver, the first such in the order
of first appearance. When `failed` is neither, `analysis` produces a summary, whose
multi-vehicle count is the number of distinct drivers other than `failed` with more than one
vehicle. When `failed` is one of the two, `analysis` resolves with `undefined`. -/
theorem analysis_partial_failure (trips : List Trip) (getDriver : String → Option DriverInfo)
    (failed : String) (hne : trips ≠ []) (hlen : trips.length < 2 ^ 53)
    (hin : ∀ t ∈ trips, t.driverID ∉ JS.inheritedKeys)
    (hnan : ∀ d ∈ Analysis.driverIds trips, Spec.driverSum trips d ≠ F64.nan)
    (hfail : getDriver failed = none)
    (hothers : ∀ d ∈ Analysis.driverIds trips, d ≠ failed → (getDriver d).isSome = true) :
    ∃ most best,
      Spec.FirstMax (fun e : String × Analysis.CountVal => Spec.tripCount trips e.1)
        (JS.ownEntries ((Analysis.driverUnique trips).map
          (fun d => (d, Analysis.CountVal.num (Spec.tripCount trips d)))))
        (most, .num (Spec.tripCount trips most)) ∧
      Spec.FirstMax (fun d => Spec.rank (Spec.driverSum trips d))
        (Analysis.driverUnique trips) best ∧
      (most ≠ failed → best ≠ failed →
        ∃ s, Analysis.analysis (.ok trips) getDriver = some s ∧
          s.noOfDriversWithMoreThanOneVehicle =
            ((trips.map (fun t => t.driverID)).toFinset.filter
              (fun d => d ≠ failed ∧ Spec.ownsSeveral getDriver d = true)).card) ∧
      ((most = failed ∨ best = failed) →
        Analysis.analysis (.ok trips) getDriver = none) := by
  rcases Analysis.sortedEntries_head trips hlen hin with h0 | ⟨most, hmax, hfm⟩
  · exact absurd h0 hne
  rcases Analysis.sortedTotals_head trips hnan with h0 | ⟨best, hhigh, hfb⟩
  · exact absurd h0 hne
  have hp := Analysis.partial_failure_of_heads trips getDriver failed most _ _ hmax hhigh
    hfail hothers
  unfold Analysis.countEntries at hfm
  rw [Analysis.count_eq trips hin] at hfm
  exact ⟨most, best, hfm, hfb, hp.1, hp.2⟩

/-- The four sample trips: the lookup fails for `ghost` only, the driver with the most
trips and the highest-earning driver are both `d1`, and the summary counts the one driver
with two vehicles. -/
theorem analysis_partial_failure_witness :
    (∃ most best,
      Spec.FirstMax (fun e : String × Analysis.CountVal => Spec.tripCount Sample.fleetTrips e.1)
        (JS.ownEntries ((Analysis.driverUnique Sample.fleetTrips).map
          (fun d => (d, Analysis.CountVal.num (Spec.tripCount Sample.fleetTrips d)))))
        (most, .num (Spec.tripCount Sample.fleetTrips most)) ∧
      Spec.FirstMax (fun d => Spec.rank (Spec.driverSum Sample.fleetTrips d))
        (Analysis.driverUnique Sample.fleetTrips) best ∧
      (most ≠ "ghost" → best ≠ "ghost" →
        ∃ s, Analysis.analysis (.ok Sample.fleetTrips) Sample.lookup = some s ∧
          s.noOfDriversWithMoreThanOneVehicle =
            ((Sample.fleetTrips.map (fun t => t.driverID)).toFinset.filter
              (fun d => d ≠ "ghost" ∧ Spec.ownsSeveral Sample.lookup d = true)).card) ∧
      ((most = "ghost" ∨ best = "ghost") →
        Analysis.analysis (.ok Sample.fleetTrips) Sample.lookup = none)) ∧
    Analysis.analysis (.ok Sample.fleetTrips) Sample.lookup = some Sample.fleetSummary ∧
    Sample.fleetSummary.mostTripsByDriver.name = .str "d1" ∧
    Sample.fleetSummary.highestEarningDriver.name = .str "d1" ∧
    Sample.fleetSummary.noOfDriversWithMoreThanOneVehicle = 1 :=
  ⟨analysis_partial_failure Sample.fleetTrips Sample.lookup "ghost"
      (by decide) (by decide) (by decide) (by decide) rfl (by decide),
    by decide, rfl, rfl, rfl⟩
